import Mathlib

/-!
# unly/concurrency: dependency-aware task scheduling

A shallow embedding of the Go package `concurrency` (files `task.go`, `error.go`,
`pool.go`, `run.go`) and theorems about it.

Conventions of the embedding.

* A `*Task` is a number (`TaskPtr`), compared by identity; `0` is the nil pointer.
  The memory (`Heap`) holds the task structs and the backing arrays of slices.
* A slice header (`Slice`) is a pointer to a backing array, an offset into it and a
  length. `NewTask(fn, deps...)` keeps the header it is given, so the `DependsOn` slices
  of several tasks can point into one array, at the same or at overlapping windows;
  `r.dependsOn[task] = task.DependsOn` copies the header, so the run and the task share
  the array and `slices.DeleteFunc` writes through to every slice that points into it.
  `slices.DeleteFunc` is the one of Go 1.22 and later, which zeroes the tail.
  `Heap.ofCalls` is the memory after calls `NewTask(fn, dep1, dep2, ...)` with the
  prerequisites written out, for which Go allocates a fresh array per call.
* Go maps are association lists with at most one entry per key; a missing key reads as
  the zero value.
* A channel is the log of everything sent on it, the number of values received and the
  position of the log at which it was closed. The functions translated from the methods
  are total and the log records what a completed call has done. Where a wait matters it
  is explicit: `Sched.step` lets the dispatch loop go on only when the semaphore has
  room, and `finishTaskBlocking` is `finishTask` with the sends waiting on a full ready
  queue.
* The run-scoped mutex is not represented: the functions are the critical sections,
  executed one at a time.
-/

namespace Concurrency

/-! ## Values -/

/-- A `*Task`, compared by identity. -/
abbrev TaskPtr := Nat

/-- The nil `*Task`. -/
def nilTask : TaskPtr := 0

/-- An `any` value: nil or a payload. -/
abbrev any := Option Nat

/-- The non-nil values of the Go interface `error` that the package meets: an
`errors.New` value (an identity and its text), a `fmt.Errorf("...%w", err)` wrapper,
an `errors.Join` value and a `*PanicError`. -/
inductive Err where
  | errorString (id : Nat) (s : String)
  | wrapError (msg : String) (err : Err)
  | joinError (errs : List Err)
  | PanicError (Val : any) (Stack : List Nat)

/-- A Go `error`: `none` is nil. -/
abbrev error := Option Err

mutual
/-- Equality of error values is decidable. -/
def Err.decEq : (a b : Err) → Decidable (a = b)
  | .errorString i s, .errorString j t =>
    if h : i = j ∧ s = t then isTrue (by rw [h.1, h.2])
    else isFalse (by intro e; cases e; exact h ⟨rfl, rfl⟩)
  | .wrapError m e, .wrapError m2 e2 =>
    match instDecidableEqString m m2, Err.decEq e e2 with
    | isTrue h1, isTrue h2 => isTrue (by rw [h1, h2])
    | isFalse h1, _ => isFalse (by intro e; cases e; exact h1 rfl)
    | _, isFalse h2 => isFalse (by intro e; cases e; exact h2 rfl)
  | .joinError es, .joinError fs =>
    match Err.decEqList es fs with
    | isTrue h => isTrue (by rw [h])
    | isFalse h => isFalse (by intro e; cases e; exact h rfl)
  | .PanicError v s, .PanicError v2 s2 =>
    if h : v = v2 ∧ s = s2 then isTrue (by rw [h.1, h.2])
    else isFalse (by intro e; cases e; exact h ⟨rfl, rfl⟩)
  | .errorString _ _, .wrapError _ _ => isFalse (by intro e; cases e)
  | .errorString _ _, .joinError _ => isFalse (by intro e; cases e)
  | .errorString _ _, .PanicError _ _ => isFalse (by intro e; cases e)
  | .wrapError _ _, .errorString _ _ => isFalse (by intro e; cases e)
  | .wrapError _ _, .joinError _ => isFalse (by intro e; cases e)
  | .wrapError _ _, .PanicError _ _ => isFalse (by intro e; cases e)
  | .joinError _, .errorString _ _ => isFalse (by intro e; cases e)
  | .joinError _, .wrapError _ _ => isFalse (by intro e; cases e)
  | .joinError _, .PanicError _ _ => isFalse (by intro e; cases e)
  | .PanicError _ _, .errorString _ _ => isFalse (by intro e; cases e)
  | .PanicError _ _, .wrapError _ _ => isFalse (by intro e; cases e)
  | .PanicError _ _, .joinError _ => isFalse (by intro e; cases e)
/-- Equality of lists of error values is decidable. -/
def Err.decEqList : (as bs : List Err) → Decidable (as = bs)
  | [], [] => isTrue rfl
  | [], _ :: _ => isFalse (by intro e; cases e)
  | _ :: _, [] => isFalse (by intro e; cases e)
  | a :: as, b :: bs =>
    match Err.decEq a b, Err.decEqList as bs with
    | isTrue h1, isTrue h2 => isTrue (by rw [h1, h2])
    | isFalse h1, _ => isFalse (by intro e; cases e; exact h1 rfl)
    | _, isFalse h2 => isFalse (by intro e; cases e; exact h2 rfl)
end

instance : DecidableEq Err := Err.decEq

/-- The verb `%v` applied to an `any`. -/
def fmtV : any → String
  | none => "<nil>"
  | some n => toString n

mutual
/-- The method `Error()` of each error value. -/
def Err.Error : Err → String
  | .errorString _ s => s
  | .wrapError msg _ => msg
  | .joinError errs => Err.joinLines errs
  | .PanicError v _ => "panic: " ++ fmtV v
/-- The text of a joined error: the texts of its members, one per line. -/
def Err.joinLines : List Err → String
  | [] => ""
  | [e] => Err.Error e
  | e :: f :: es => Err.Error e ++ "\n" ++ Err.joinLines (f :: es)
end

/-- The value of `fmt.Errorf("first error: %w", err)` for a non-nil `err`. -/
def firstError (err : Err) : Err :=
  .wrapError ("first error: " ++ err.Error) err

/-- The function `errors.Join`: nil values are dropped, and the result is nil when
nothing is left. -/
def Join (errs : List error) : error :=
  match errs.filterMap id with
  | [] => none
  | e :: es => some (.joinError (e :: es))

/-- The method `Unwrap() error` of an error value, nil where the value has none. -/
def Err.Unwrap : Err → error
  | .wrapError _ err => some err
  | _ => none

mutual
/-- The walk of `errors.Is(err, target)` for non-nil arguments: `err` matches when it
equals `target`, or when something it unwraps to matches. -/
def Err.is : Err → Err → Bool
  | .errorString i s, target => decide (Err.errorString i s = target)
  | .wrapError msg err, target => decide (Err.wrapError msg err = target) || Err.is err target
  | .joinError errs, target => decide (Err.joinError errs = target) || Err.isAny errs target
  | .PanicError v st, target => decide (Err.PanicError v st = target)
/-- Some member of the list matches `target`. -/
def Err.isAny : List Err → Err → Bool
  | [], _ => false
  | e :: es, target => Err.is e target || Err.isAny es target
end

/-- The value of `var ErrTimeout = errors.New("timeout")`. -/
def ErrTimeout : Err := .errorString 0 "timeout"

/-- The value of `context.Canceled`. -/
def Canceled : Err := .errorString 1 "context canceled"

/-- The value of `context.DeadlineExceeded`. -/
def DeadlineExceeded : Err := .errorString 2 "context deadline exceeded"

/-! ## Go maps and channels -/

/-- A Go map keyed by `*Task`. -/
abbrev GoMap (β : Type) := List (TaskPtr × β)

/-- The lookup `m[k]` with the comma-ok result. -/
def GoMap.get {β : Type} (m : GoMap β) (k : TaskPtr) : Option β :=
  match m with
  | [] => none
  | (k2, v) :: rest => if k2 = k then some v else GoMap.get rest k

/-- The statement `delete(m, k)`. -/
def GoMap.delete {β : Type} (m : GoMap β) (k : TaskPtr) : GoMap β :=
  m.filter (fun e => decide (e.1 ≠ k))

/-- The statement `m[k] = v`. -/
def GoMap.set {β : Type} (m : GoMap β) (k : TaskPtr) (v : β) : GoMap β :=
  (k, v) :: GoMap.delete m k

/-- The value of `len(m)`. -/
def GoMap.len {β : Type} (m : GoMap β) : Nat := m.length

/-- A channel: its capacity, every value sent on it (oldest first), how many of them
have been received, and the length of the log when it was closed. -/
structure Chan (α : Type) where
  cap : Nat
  sent : List α
  recvd : Nat
  closedAt : Option Nat

/-- The value of `make(chan T, cap)`. -/
def Chan.make {α : Type} (cap : Nat) : Chan α := ⟨cap, [], 0, none⟩

/-- The statement `c <- v`. -/
def Chan.send {α : Type} (c : Chan α) (v : α) : Chan α := { c with sent := c.sent ++ [v] }

/-- The statement `<-c`, the value dropped. -/
def Chan.recv {α : Type} (c : Chan α) : Chan α := { c with recvd := c.recvd + 1 }

/-- A first `close(c)`; a channel that is closed already is left alone, as under
`sync.OnceFunc`. -/
def Chan.closeOnce {α : Type} (c : Chan α) : Chan α :=
  match c.closedAt with
  | none => { c with closedAt := some c.sent.length }
  | some _ => c

/-- The statement `close(c)`. -/
def Chan.close {α : Type} (c : Chan α) : Chan α := { c with closedAt := some c.sent.length }

/-- The value the next receive yields, when one is buffered. -/
def Chan.peek {α : Type} (c : Chan α) : Option α := c.sent.get? c.recvd

/-- The number of values sent and not yet received. -/
def Chan.pending {α : Type} (c : Chan α) : Nat := c.sent.length - c.recvd

/-- Whether a send `c <- v` can proceed while no goroutine is receiving from `c`: the
buffer has room for one more value. -/
def Chan.room {α : Type} (c : Chan α) : Bool := decide (c.pending < c.cap)

/-- The channel has been closed. -/
def Chan.closed {α : Type} (c : Chan α) : Bool := c.closedAt.isSome

/-! ## task.go -/

/-- What one call of a task's work does: it returns an error (or nil), or it panics and
`recover()` yields the non-nil value given. -/
inductive FuncResult where
  | returns (err : error)
  | panics (val : Nat)

/-- The type `Func`: the work, as a function of whether its context is cancelled. -/
abbrev Func := Bool → FuncResult

/-- A pointer to the backing array of a slice of type `[]*Task`. -/
abbrev ArrPtr := Nat

/-- A slice header of type `[]*Task`: the backing array it points into (`none` for the
nil slice), the offset of its first element in that array, and its length. The capacity
is left out: the package never appends to a slice of prerequisites. -/
structure Slice where
  arr : Option ArrPtr
  off : Nat
  len : Nat
  deriving DecidableEq

/-- The nil slice. -/
def Slice.nil : Slice := ⟨none, 0, 0⟩

/-- The struct `Task`. -/
structure Task where
  Func : Func
  DependsOn : Slice

/-- The function `NewTask`: the task keeps the slice header `dependsOn` it is given. -/
def NewTask (fn : Func) (dependsOn : Slice) : Task := ⟨fn, dependsOn⟩

/-- The memory: the task structs and the backing arrays. -/
structure Heap where
  task : TaskPtr → Task
  arr : ArrPtr → List TaskPtr

/-- The elements of a slice. -/
def Slice.elems (heap : Heap) (s : Slice) : List TaskPtr :=
  match s.arr with
  | none => []
  | some a => ((heap.arr a).drop s.off).take s.len

/-- The elements of `task.DependsOn`. -/
def Heap.deps (heap : Heap) (task : TaskPtr) : List TaskPtr :=
  (heap.task task).DependsOn.elems heap

/-- The function `slices.DeleteFunc(s, del)`: the elements for which `del` holds are
removed in place, the kept ones move to the front, the elements between the new length
and the old one are zeroed, and the shortened slice is returned. The rest of the backing
array is left as it is. -/
def DeleteFunc (heap : Heap) (s : Slice) (del : TaskPtr → Bool) : Heap × Slice :=
  match s.arr with
  | none => (heap, s)
  | some a =>
    let view := ((heap.arr a).drop s.off).take s.len
    let kept := view.filter (fun x => !del x)
    let arr := (heap.arr a).take s.off ++
      (kept ++ List.replicate (view.length - kept.length) nilTask
        ++ (heap.arr a).drop (s.off + s.len))
    ({ heap with arr := Function.update heap.arr a arr }, ⟨some a, s.off, kept.length⟩)

/-- The arguments of a call `NewTask(Func, DependsOn...)` in which the prerequisites are
written out one by one. -/
structure Call where
  Func : Func
  DependsOn : List TaskPtr

/-- For every task pointer, the call of `NewTask` that made the task. -/
abbrev Calls := TaskPtr → Call

/-- The memory after the calls `calls`: Go allocates a fresh backing array for the
prerequisites written out in a call (here the array named like the task), and passes the
nil slice when there are none. -/
def Heap.ofCalls (calls : Calls) : Heap :=
  { task := fun p =>
      NewTask (calls p).Func
        (if (calls p).DependsOn.length = 0 then Slice.nil
         else ⟨some p, 0, (calls p).DependsOn.length⟩)
    arr := fun a => (calls a).DependsOn }

/-! ## error.go -/

/-- The struct `Result`. -/
structure Result where
  Errors : GoMap error
  Combined : error
  deriving DecidableEq

/-- The function `newResult`. -/
def newResult : Result := ⟨[], none⟩

/-- The method `GetResult`: a missing key reads as nil. -/
def Result.GetResult (r : Result) (t : TaskPtr) : error :=
  (r.Errors.get t).getD none

/-- The method `Error` of a `Result`. -/
def Result.Error (r : Result) : String :=
  match r.Combined with
  | none => ""
  | some c => c.Error

/-- The method `Unwrap` of a `Result`. -/
def Result.Unwrap (r : Result) : error := r.Combined

/-- The method `setError`. -/
def Result.setError (r : Result) (err : error) : Result :=
  if r.Combined = none then { r with Combined := err } else r

/-- The method `build`. The loop `for _, v := range r.Errors` visits the map in an order
the language leaves open: `errs` is the list of values in the order of that visit. The
value `none` is the nil `*Result`. -/
def Result.build (r : Result) (errs : List error) : Option Result :=
  if r.Combined ≠ none then some r
  else if r.Errors.len > 0 then some { r with Combined := Join errs }
  else none

/-- The call `errors.Is(result, target)` on a non-nil `*Result` and a non-nil target: a
`Result` is matched through its `Unwrap`. -/
def Result.Is (r : Result) (target : Err) : Bool :=
  match r.Unwrap with
  | none => false
  | some c => c.is target

/-- The struct `PanicError`. -/
structure PanicError where
  Val : any
  Stack : List Nat
  deriving DecidableEq

/-- The method `Error` of a `PanicError`. -/
def PanicError.Error (e : PanicError) : String := "panic: " ++ fmtV e.Val

/-- What the `any` handed to `As` can be: the nil interface, a `*PanicError` (nil, or
pointing at a `PanicError` variable with the content given), or a value of some other
type, such as a `*error`. -/
inductive Target where
  | nilInterface
  | panicErrorPtr (cell : Option PanicError)
  | other (tag : Nat)
  deriving DecidableEq

/-- The method `As` of a `PanicError`: the result and the target after the call. The
value is `none` when the call panics, which it does when the assertion
`v.(*PanicError)` yields a nil pointer and the pointer is written through. -/
def PanicError.As (e : PanicError) (v : Target) : Option (Bool × Target) :=
  match v with
  | .panicErrorPtr (some other) =>
    some (true, .panicErrorPtr (some { other with Val := e.Val, Stack := e.Stack }))
  | .panicErrorPtr none => none
  | .nilInterface => some (false, .nilInterface)
  | .other tag => some (false, .other tag)

/-! ## pool.go -/

/-- The type `mode`, a `uint8`. -/
abbrev mode := Nat

/-- The constant `modeAbortFirst`. -/
def modeAbortFirst : mode := 1

/-- The constant `modeAbortFirstWait`. -/
def modeAbortFirstWait : mode := 2

/-- The constant `modeWaitAll`. -/
def modeWaitAll : mode := 3

/-- The struct `TaskPoolConfig`: a `uint32` and a `time.Duration`. -/
structure TaskPoolConfig where
  MaxConcurrency : Nat
  Timeout : Int

/-- The struct `TaskPool`. -/
structure TaskPool where
  config : TaskPoolConfig

/-- The method `timeout` of the pool: whether the channel it returns is non-nil, that
is, whether it can ever be picked by a `select`. -/
def TaskPool.timeout (tp : TaskPool) : Bool :=
  decide (tp.config.Timeout ≠ 0)

/-! ## run.go -/

/-- The struct `outcome`. -/
structure outcome where
  task : TaskPtr
  err : error
  deriving DecidableEq

/-- The function `createSemaphoreChannel`; `uint32(len(tasks))` keeps the low 32 bits. -/
def createSemaphoreChannel (tp : TaskPool) (tasks : List TaskPtr) : Chan Unit :=
  let maxConcurrency := tp.config.MaxConcurrency
  let maxConcurrency := if maxConcurrency = 0 then tasks.length % 2 ^ 32 else maxConcurrency
  Chan.make maxConcurrency

/-- The struct `run`. The context and its cancel function are the flag `cancelled` (the
context is done) and `ctxErr`, the error that `r.ctx.Err()` reports once it is done; the
wait group is its counter; `heap` is the memory in which the tasks and the backing arrays
of their slices live. -/
structure run where
  pool : TaskPool
  cancelled : Bool
  ctxErr : Err
  result : Result
  mode : mode
  tasks : List TaskPtr
  outcomes : Chan outcome
  next : Chan TaskPtr
  counter : Chan Unit
  wg : Int
  dependsOn : GoMap Slice
  revDependsOn : GoMap (List TaskPtr)
  heap : Heap

/-- The function `newRun`; `ctx` is the state of the caller's context: `none` while it is
live, `some e` when it is done and its `Err()` is `e`. The context derived by
`context.WithCancel(ctx)` is done with the same error when the caller's is done, and is
done with `context.Canceled` when its own cancel function is the first to end it. -/
def newRun (tp : TaskPool) (m : mode) (ctx : error) (tasks : List TaskPtr)
    (heap : Heap) : run :=
  { pool := tp
    cancelled := ctx.isSome
    ctxErr := ctx.getD Canceled
    result := newResult
    mode := m
    tasks := tasks
    outcomes := Chan.make tasks.length
    next := Chan.make tasks.length
    counter := createSemaphoreChannel tp tasks
    wg := 0
    dependsOn := []
    revDependsOn := []
    heap := heap }

/-- The method `handleOutcome`: the run after the call and the result `abort`. -/
def run.handleOutcome (r : run) (out : outcome) : run × Bool :=
  match out.err with
  | none => (r, false)
  | some e =>
    let r1 := { r with result := { r.result with Errors := r.result.Errors.set out.task (some e) } }
    if r1.mode = modeWaitAll then (r1, false)
    else if r1.mode = modeAbortFirst then
      ({ r1 with cancelled := true, result := r1.result.setError (some (firstError e)) }, true)
    else if r1.mode = modeAbortFirstWait then
      ({ r1 with cancelled := true, result := r1.result.setError (some (firstError e)) }, false)
    else (r1, false)

/-- One pass of the inner loop of `buildDependencies`: `task` is appended to the
dependents of its prerequisite `depends`. -/
def addDependent (task : TaskPtr) (r : run) (depends : TaskPtr) : run :=
  { r with revDependsOn :=
      r.revDependsOn.set depends ((r.revDependsOn.get depends).getD [] ++ [task]) }

/-- One pass of the body of the loop of `buildDependencies`, for `task`. -/
def buildTask (r : run) (task : TaskPtr) : run :=
  let deps := (r.heap.task task).DependsOn
  if deps.len = 0 then { r with next := r.next.send task }
  else
    let r1 := { r with dependsOn := r.dependsOn.set task deps }
    (deps.elems r.heap).foldl (addDependent task) r1

/-- The method `buildDependencies`. -/
def run.buildDependencies (r : run) : run :=
  r.tasks.foldl buildTask r

/-- One pass of the body of the loop of `finishTask` over `r.revDependsOn[t]`, for the
dependent `dependsOnTask`. -/
def pruneDependent (t : TaskPtr) (r : run) (dependsOnTask : TaskPtr) : run :=
  let s := (r.dependsOn.get dependsOnTask).getD Slice.nil
  let hs := DeleteFunc r.heap s (fun other => decide (other = t))
  let r1 := { r with heap := hs.1, dependsOn := r.dependsOn.set dependsOnTask hs.2 }
  if hs.2.len = 0 then
    { r1 with next := r1.next.send dependsOnTask, dependsOn := r1.dependsOn.delete dependsOnTask }
  else r1

/-- The method `finishTask`. -/
def run.finishTask (r : run) (t : TaskPtr) : run :=
  let r1 := { r with counter := r.counter.recv }
  let r2 := ((r1.revDependsOn.get t).getD []).foldl (pruneDependent t) r1
  let r3 := { r2 with revDependsOn := r2.revDependsOn.delete t }
  let r4 := if r3.dependsOn.len = 0 then { r3 with next := r3.next.closeOnce } else r3
  { r4 with wg := r4.wg - 1 }

/-- One pass of the body of the loop of `finishTask` when the call `r.finishTask(task)` is
the one of the branch `<-r.ctx.Done()` of `start`, made by the goroutine that is the only
receiver of `r.next`: the value is `none` when the send `r.next <- dependsOnTask` finds
the buffer full, since the goroutine then waits for a receive that only itself could
make. -/
def pruneDependentBlocking (t : TaskPtr) (r : run) (dependsOnTask : TaskPtr) : Option run :=
  let s := (r.dependsOn.get dependsOnTask).getD Slice.nil
  let hs := DeleteFunc r.heap s (fun other => decide (other = t))
  let r1 := { r with heap := hs.1, dependsOn := r.dependsOn.set dependsOnTask hs.2 }
  if hs.2.len = 0 then
    if r1.next.room then
      some { r1 with next := r1.next.send dependsOnTask,
                     dependsOn := r1.dependsOn.delete dependsOnTask }
    else none
  else some r1

/-- The loop of `finishTask` over the dependents `ds`, with the sends of
`pruneDependentBlocking`; `none` once a send has blocked. -/
def pruneAllBlocking (t : TaskPtr) (r : run) : List TaskPtr → Option run
  | [] => some r
  | d :: rest =>
    match pruneDependentBlocking t r d with
    | none => none
    | some r2 => pruneAllBlocking t r2 rest

/-- The method `finishTask` called by the dispatch loop of `start` itself, in its branch
`<-r.ctx.Done()`; `none` when the call does not return. -/
def run.finishTaskBlocking (r : run) (t : TaskPtr) : Option run :=
  let r1 := { r with counter := r.counter.recv }
  match pruneAllBlocking t r1 ((r1.revDependsOn.get t).getD []) with
  | none => none
  | some r2 =>
    let r3 := { r2 with revDependsOn := r2.revDependsOn.delete t }
    let r4 := if r3.dependsOn.len = 0 then { r3 with next := r3.next.closeOnce } else r3
    some { r4 with wg := r4.wg - 1 }

/-- The method `runTask`; `stack` is what `debug.Stack()` returns in the deferred
function. -/
def run.runTask (r : run) (task : TaskPtr) (stack : List Nat) : run :=
  match (r.heap.task task).Func r.cancelled with
  | .returns err =>
    run.finishTask { r with outcomes := r.outcomes.send ⟨task, err⟩ } task
  | .panics val =>
    run.finishTask
      { r with outcomes := r.outcomes.send ⟨task, some (.PanicError (some val) stack)⟩ } task

/-- What the `select` of the driver loop picks in one pass: the timeout channel, an
outcome received from `r.outcomes`, or the closed outcome channel. -/
inductive Selected where
  | timeout
  | received (out : outcome)
  | closed

/-- The method `run` of the struct `run` (named `loop` here, the name `run.run` being
taken by the struct) on the sequence of picks of its `select`; `errs` is the order in
which `build` visits the errors. The goroutine started by `go r.start()` shows
only through what is received from `r.outcomes`. The result is `none` while the loop
has not returned, and `some res` when it has returned `res` (a `*Result`, nil being
`none`). A nil timeout channel is never picked. -/
def run.loop (r : run) (errs : List error) : List Selected → Option (Option Result)
  | [] => none
  | .timeout :: _ =>
    if r.pool.timeout then some ((r.result.setError (some ErrTimeout)).build errs) else none
  | .closed :: _ => some (r.result.build errs)
  | .received out :: rest =>
    if (r.handleOutcome out).2 then some ((r.handleOutcome out).1.result.build errs)
    else run.loop (r.handleOutcome out).1 errs rest

/-- One pass of the body of the loop `for task := range r.next` of `start`, for the
task received: a slot of the semaphore is taken and the wait group goes up; when the
context is done the outcome with `r.ctx.Err()` is posted and `finishTask` runs, else
`go r.runTask(task)` is issued. The second component tells whether the goroutine was
started. -/
def run.dispatch (r : run) (task : TaskPtr) : run × Bool :=
  let r1 := { r with counter := r.counter.send (), wg := r.wg + 1 }
  if r1.cancelled then
    (run.finishTask { r1 with outcomes := r1.outcomes.send ⟨task, some r1.ctxErr⟩ } task, false)
  else (r1, true)

/-- The run together with the goroutines started by `go r.runTask(task)` that have not
returned yet. -/
structure Sched where
  r : run
  running : List TaskPtr

/-- What can happen while the loop of `start` runs: the loop takes the next task from
`r.next` and dispatches it; the goroutine of a started task runs to its end; the
context is ended, by the driver (`r.cancel()`, cause `context.Canceled`) or by the
caller's context (with its error as the cause). -/
inductive Action where
  | dispatch
  | complete (t : TaskPtr) (stack : List Nat)
  | cancel (cause : Err)

/-- One step of the schedule; `none` when the step cannot be taken: nothing is buffered
on `r.next`, the semaphore is full (the send on `r.counter` blocks), or the task is not
running. -/
def Sched.step (s : Sched) : Action → Option Sched
  | .dispatch =>
    match s.r.next.peek with
    | none => none
    | some task =>
      if s.r.counter.pending < s.r.counter.cap then
        some ⟨(run.dispatch { s.r with next := s.r.next.recv } task).1,
          if (run.dispatch { s.r with next := s.r.next.recv } task).2 then task :: s.running
          else s.running⟩
      else none
  | .complete t stack =>
    if t ∈ s.running then some ⟨s.r.runTask t stack, s.running.erase t⟩ else none
  | .cancel cause =>
    if s.r.cancelled then some s
    else some ⟨{ s.r with cancelled := true, ctxErr := cause }, s.running⟩

/-- A sequence of steps. -/
def Sched.steps (s : Sched) : List Action → Option Sched
  | [] => some s
  | a :: rest =>
    match s.step a with
    | none => none
    | some s2 => s2.steps rest

/-- The two deferred calls of `start`: `close(r.counter)`, then `close(r.outcomes)`. -/
def run.closeAll (r : run) : run :=
  { r with counter := r.counter.close, outcomes := r.outcomes.close }

/-- The method `start`, on the schedule `acts` of what happens while its loop runs. The
value is `none` when the schedule cannot be followed or `start` has not returned at its
end: the loop over `r.next` ends when the channel is closed and drained, and
`r.wg.Wait()` returns when the wait group is at 0. -/
def run.start (r : run) (acts : List Action) : Option run :=
  if r.tasks.length = 0 then some r.closeAll
  else
    match (Sched.mk r.buildDependencies []).steps acts with
    | none => none
    | some s =>
      if s.r.next.closed && s.r.next.peek.isNone && decide (s.r.wg = 0) then some s.r.closeAll
      else none

/-- The outcomes `outs` handled one after the other by `handleOutcome`, the results
`abort` ignored. -/
def run.handleOutcomes (r : run) (outs : List outcome) : run :=
  outs.foldl (fun acc out => (acc.handleOutcome out).1) r

/-- The calls `finishTask` for the tasks of `ts`, one after the other. -/
def run.finishTasks (r : run) (ts : List TaskPtr) : run :=
  ts.foldl run.finishTask r

/-- The calls `finishTask` for the tasks of `ts`, one after the other, each made by the
dispatch loop itself and no value received from `r.next` in between; `none` when one of
the calls does not return. -/
def run.finishTasksBlocking (r : run) : List TaskPtr → Option run
  | [] => some r
  | t :: rest =>
    match r.finishTaskBlocking t with
    | none => none
    | some r2 => r2.finishTasksBlocking rest

/-- A work function that returns nil. -/
def okFunc : Func := fun _ => .returns none

/-- The test error `err1 = errors.New("err1")`. -/
def err1 : Err := .errorString 7 "err1"

/-- The test error `err2 = errors.New("err2")`. -/
def err2 : Err := .errorString 8 "err2"

/-- A heap in which no task has prerequisites. -/
def noDeps : Heap := Heap.ofCalls (fun _ => ⟨okFunc, []⟩)

/-- A pool with a timeout of one nanosecond, as `WithTimeout(time.Nanosecond)`. -/
def timeoutPool : TaskPool := ⟨⟨0, 1⟩⟩

/-- In the heap, `p` is a prerequisite of `X`: it is an element of the `DependsOn` of
`X`. -/
def prereq (heap : Heap) (p X : TaskPtr) : Prop := p ∈ heap.deps X

/-- The task `X` lies on a dependency cycle: it is reached from itself through one or
more prerequisite links. -/
def OnCycle (heap : Heap) (X : TaskPtr) : Prop := Relation.TransGen (prereq heap) X X

/-- The task set is acyclic: none of its tasks lies on a dependency cycle. -/
def Acyclic (heap : Heap) (tasks : List TaskPtr) : Prop :=
  ∀ X ∈ tasks, ¬ OnCycle heap X

/-- The calls of `finishTask` for the tasks of `order`, one after the other, are calls
for tasks taken from the ready queue: when its turn comes, each task has been sent on
`r.next` more often than `finishTask` has run for it (`fin` lists the tasks finished
before). -/
def run.completes (r : run) (fin : List TaskPtr) : List TaskPtr → Bool
  | [] => true
  | t :: rest =>
    decide (fin.count t < r.next.sent.count t) && run.completes (r.finishTask t) (t :: fin) rest

/-- The number of registered dependents, over all prerequisites. -/
def revSize (m : GoMap (List TaskPtr)) : Nat := (m.map (fun e => e.2.length)).sum

/-- A bound on the number of sends on the ready queue: one per task and one per
prerequisite entry. -/
def sendBound (heap : Calls) (tasks : List TaskPtr) : Nat :=
  (tasks.map (fun X => (heap X).DependsOn.length + 1)).sum

/-- The task list of `n` entries, all of them task 1. -/
def manyTasks (n : Nat) : List TaskPtr := List.replicate n 1

/-- The heap of the test "don't start tasks if already aborted": task 2 depends on
task 1 and task 3 on task 2. -/
def chainHeap : Heap := Heap.ofCalls (fun p =>
  if p = 2 then ⟨okFunc, [1]⟩ else if p = 3 then ⟨okFunc, [2]⟩ else ⟨okFunc, []⟩)

/-- Calls that make a dependency cycle: task 1 depends on task 2 and task 2 on task 1;
task 3 has no prerequisites. -/
def cycleCalls : Calls := fun p =>
  if p = 1 then ⟨okFunc, [2]⟩ else if p = 2 then ⟨okFunc, [1]⟩ else ⟨okFunc, []⟩

/-- A heap in which task 2 lists task 1 three times and task 1 has no prerequisites. -/
def overflowHeap : Heap :=
  Heap.ofCalls (fun p => if p = 2 then ⟨okFunc, [1, 1, 1]⟩ else ⟨okFunc, []⟩)

/-- The run over tasks 1 and 2 of `overflowHeap` under a context that is cancelled
already, at the call `r.finishTask(task)` of the branch `<-r.ctx.Done()` of `start` for
task 1, the first task taken from `r.next`: the dependencies are built, task 1 has been
received, a slot of the semaphore is taken, the wait group is at 1 and the outcome of
task 1 is posted. -/
def overflowRun : run :=
  let b := (newRun ⟨⟨0, 0⟩⟩ modeWaitAll (some Canceled) [1, 2] overflowHeap).buildDependencies
  let r1 := { b with next := b.next.recv, counter := b.counter.send (), wg := b.wg + 1 }
  { r1 with outcomes := r1.outcomes.send ⟨1, some r1.ctxErr⟩ }

/-- The memory after `deps := []*Task{t1}`, `x := NewTask(fn, deps...)` and
`y := NewTask(fn, deps...)`: task 1 is `t1`, task 2 is `x`, task 3 is `y`; the `DependsOn`
slices of `x` and `y` are the same window of array 7. -/
def sharedHeap : Heap :=
  { task := fun p =>
      if p = 2 then NewTask okFunc ⟨some 7, 0, 1⟩
      else if p = 3 then NewTask okFunc ⟨some 7, 0, 1⟩
      else NewTask okFunc Slice.nil
    arr := fun a => if a = 7 then [1] else [] }

/-- The run over tasks 1, 2 and 3 of `sharedHeap`, after `buildDependencies`. -/
def sharedRun : run :=
  (newRun ⟨⟨0, 0⟩⟩ modeWaitAll none [1, 2, 3] sharedHeap).buildDependencies

/-- The memory after `deps := []*Task{z, q, p, p}`, `x := NewTask(fn, deps[0:4]...)` and
`y := NewTask(fn, deps[1:3]...)`: tasks 1, 2 and 3 are `z`, `q` and `p`, task 4 is `x`,
task 5 is `y`; the `DependsOn` of `y` is the window `[q, p]` of array 9, inside the
window of `x`. -/
def windowHeap : Heap :=
  { task := fun t =>
      if t = 4 then NewTask okFunc ⟨some 9, 0, 4⟩
      else if t = 5 then NewTask okFunc ⟨some 9, 1, 2⟩
      else NewTask okFunc Slice.nil
    arr := fun a => if a = 9 then [1, 2, 3, 3] else [] }

/-- The run over the tasks `z, q, p, y, x` of `windowHeap`, after `buildDependencies`. -/
def windowRun : run :=
  (newRun ⟨⟨0, 0⟩⟩ modeWaitAll none [1, 2, 3, 5, 4] windowHeap).buildDependencies

/-- The memory after `deps := []*Task{z, p, t, t}`, `w := NewTask(fn, deps[0:4]...)`,
`x := NewTask(fn, deps[1:3]...)` and `p.DependsOn = []*Task{x}`: tasks 1 and 2 are `z` and
`t`, task 3 is `p`, task 4 is `w`, task 5 is `x`; `x` depends on `p` and `t`, and `p` on
`x`. -/
def cycleWindowHeap : Heap :=
  { task := fun q =>
      if q = 3 then NewTask okFunc ⟨some 8, 0, 1⟩
      else if q = 4 then NewTask okFunc ⟨some 9, 0, 4⟩
      else if q = 5 then NewTask okFunc ⟨some 9, 1, 2⟩
      else NewTask okFunc Slice.nil
    arr := fun a => if a = 9 then [1, 3, 2, 2] else if a = 8 then [5] else [] }

/-- The run over the tasks `z, t, p, x, w` of `cycleWindowHeap`, after
`buildDependencies`. -/
def cycleWindowRun : run :=
  (newRun ⟨⟨0, 0⟩⟩ modeWaitAll none [1, 2, 3, 5, 4] cycleWindowHeap).buildDependencies

/-- A heap in which task 2 lists task 1 three times, task 3 lists task 1 once and task 1
has no prerequisites. -/
def crowdedHeap : Heap :=
  Heap.ofCalls (fun p =>
    if p = 2 then ⟨okFunc, [1, 1, 1]⟩ else if p = 3 then ⟨okFunc, [1]⟩ else ⟨okFunc, []⟩)

/-- The run over tasks 1, 2 and 3 of `crowdedHeap` under a context that is cancelled
already, at the call `r.finishTask(task)` of the branch `<-r.ctx.Done()` of `start` for
task 1, the first task taken from `r.next`. -/
def crowdedRun : run :=
  let b := (newRun ⟨⟨0, 0⟩⟩ modeWaitAll (some Canceled) [1, 2, 3] crowdedHeap).buildDependencies
  let r1 := { b with next := b.next.recv, counter := b.counter.send (), wg := b.wg + 1 }
  { r1 with outcomes := r1.outcomes.send ⟨1, some r1.ctxErr⟩ }

/-- A `Result` holding a nil error for task 1. -/
def nilEntryResult : Result := ⟨[(1, none)], none⟩

/-- The calls of the test "with dependencies" of task_test.go: task 2 lists task 1 twice,
task 1 has no prerequisites. -/
def dupCalls : Calls := fun p => if p = 2 then ⟨okFunc, [1, 1]⟩ else ⟨okFunc, []⟩

/-- The heap after `dupCalls`. -/
def dupHeap : Heap := Heap.ofCalls dupCalls

/-- The run over tasks 1 and 2 of `dupHeap`, after `buildDependencies`. -/
def dupRun : run := (newRun ⟨⟨0, 0⟩⟩ modeWaitAll none [1, 2] dupHeap).buildDependencies

/-- A heap in which task 3 depends on tasks 1 and 2, which have no prerequisites:
`task3 := NewTask(fn, task1, task2)`. -/
def joinHeap : Heap :=
  Heap.ofCalls (fun p => if p = 3 then ⟨okFunc, [1, 2]⟩ else ⟨okFunc, []⟩)

/-- The run over tasks 1, 2 and 3 of `joinHeap`, after `buildDependencies`. -/
def joinRun : run := (newRun ⟨⟨0, 0⟩⟩ modeWaitAll none [1, 2, 3] joinHeap).buildDependencies

/-- The calls of the test "order of tasks": task 2 depends on task 1. -/
def orderCalls : Calls := fun p => if p = 2 then ⟨okFunc, [1]⟩ else ⟨okFunc, []⟩

/-- The heap after `orderCalls`. -/
def orderHeap : Heap := Heap.ofCalls orderCalls

/-- The heap of the test "panic in task": the work of task 1 panics with 42. -/
def panicHeap : Heap :=
  Heap.ofCalls (fun p => if p = 1 then ⟨fun _ => .panics 42, []⟩ else ⟨okFunc, []⟩)

/-! ## Invariants used in the proofs -/

/-- The invariant behind the dependency gate, for the tasks `done` that `finishTask`
has run for and the calls `heap0` that made the tasks of the heap the run started from:
an outstanding list is backed by the array of its own task and still holds every
prerequisite that is not done; a task on the ready queue has all its prerequisites done;
so has a registered dependent that has no outstanding list any more. -/
def GateInv (heap0 : Calls) (done : List TaskPtr) (r : run) : Prop :=
  (∀ X s, r.dependsOn.get X = some s →
    s.arr = some X ∧ ∀ p ∈ (heap0 X).DependsOn, p ∉ done → p ∈ s.elems r.heap) ∧
  (∀ X ∈ r.next.sent, ∀ p ∈ (heap0 X).DependsOn, p ∈ done) ∧
  (∀ t L, r.revDependsOn.get t = some L → ∀ X ∈ L, r.dependsOn.get X = none →
    ∀ p ∈ (heap0 X).DependsOn, p ∈ done)

/-- The invariant of the loop of `buildDependencies`: the heap is untouched, an
outstanding list is the whole `DependsOn` slice of its task, only tasks without
prerequisites are on the ready queue, and every registered dependent has an outstanding
list. -/
def BuildInv (heap0 : Calls) (r : run) : Prop :=
  r.heap = Heap.ofCalls heap0 ∧
  (∀ X s, r.dependsOn.get X = some s → s = ⟨some X, 0, (heap0 X).DependsOn.length⟩) ∧
  (∀ X ∈ r.next.sent, (heap0 X).DependsOn = []) ∧
  (∀ t L, r.revDependsOn.get t = some L → ∀ X ∈ L, r.dependsOn.get X ≠ none)

/-- Every task still present in an outstanding list has the owner of that list among
its registered dependents. -/
def RevInv (r : run) : Prop :=
  ∀ X s, r.dependsOn.get X = some s → ∀ p ∈ s.elems r.heap,
    X ∈ (r.revDependsOn.get p).getD []

/-- What holds of the outstanding lists and the ready queue throughout a run over the
task list `tasks` that started from the heap after the calls `heap0`, `done` being the tasks that
`finishTask` has run for: only tasks of the list have an outstanding list; such a list
is not empty and holds prerequisites of its task that are not done; a task of the list
with prerequisites has an outstanding list or is on the ready queue, one without is on
the ready queue. -/
structure ListInv (heap0 : Calls) (tasks done : List TaskPtr) (r : run) : Prop where
  keys : ∀ X s, r.dependsOn.get X = some s → X ∈ tasks
  sub : ∀ X s, r.dependsOn.get X = some s → ∀ p ∈ s.elems r.heap,
    p ∈ (heap0 X).DependsOn ∧ p ∉ done
  nonempty : ∀ X s, r.dependsOn.get X = some s → s.elems r.heap ≠ []
  entry : ∀ X ∈ tasks, (heap0 X).DependsOn ≠ [] →
    (∃ s, r.dependsOn.get X = some s) ∨ X ∈ r.next.sent
  free : ∀ X ∈ tasks, (heap0 X).DependsOn = [] → X ∈ r.next.sent

/-- The invariant of a run: the gate, the registered dependents, the outstanding lists,
and moreover: a prerequisite with registered dependents is not done and is listed by
each of them; once the ready queue is closed there is no outstanding list and nothing
has been sent since; after a call of `finishTask` that leaves no outstanding list the
ready queue is closed; the sends so far and the dependents still registered stay within
the bound. -/
structure RunInv (heap0 : Calls) (tasks done : List TaskPtr) (r : run) : Prop where
  gate : GateInv heap0 done r
  rev : RevInv r
  lists : ListInv heap0 tasks done r
  revSound : ∀ t X, X ∈ (r.revDependsOn.get t).getD [] →
    t ∉ done ∧ t ∈ (heap0 X).DependsOn
  closed : ∀ n, r.next.closedAt = some n → r.dependsOn = [] ∧ n = r.next.sent.length
  closing : done ≠ [] → r.dependsOn = [] → r.next.closedAt ≠ none
  bound : r.next.sent.length + revSize r.revDependsOn ≤ sendBound heap0 tasks

/-- What the loop of `buildDependencies` has set up after the tasks `pre`: the heap is
untouched; only tasks of `pre` with prerequisites have an outstanding list, and each of
them has one; the tasks of `pre` without prerequisites are on the ready queue; a
registered dependent lists the prerequisite it is registered with; the sends and the
registrations stay within the bound. -/
structure BuildLists (heap0 : Calls) (pre : List TaskPtr) (r : run) : Prop where
  heap : r.heap = Heap.ofCalls heap0
  keys : ∀ X s, r.dependsOn.get X = some s → X ∈ pre ∧ (heap0 X).DependsOn ≠ []
  entry : ∀ X ∈ pre, (heap0 X).DependsOn ≠ [] → ∃ s, r.dependsOn.get X = some s
  free : ∀ X ∈ pre, (heap0 X).DependsOn = [] → X ∈ r.next.sent
  revSound : ∀ t X, X ∈ (r.revDependsOn.get t).getD [] → t ∈ (heap0 X).DependsOn
  bound : r.next.sent.length + revSize r.revDependsOn ≤ sendBound heap0 pre

/-- What holds of the ready queue and the registered dependents when the tasks are
distinct and no prerequisite list has a duplicate entry: no task has been sent twice, a
task that has been sent is a task of the list and has no outstanding list, and the
dependents registered with a prerequisite are distinct tasks of the list. -/
structure SentInv (tasks : List TaskPtr) (r : run) : Prop where
  nodup : r.next.sent.Nodup
  sent : ∀ X ∈ r.next.sent, X ∈ tasks ∧ r.dependsOn.get X = none
  revNodup : ∀ t, ((r.revDependsOn.get t).getD []).Nodup
  revMem : ∀ t, ∀ X ∈ (r.revDependsOn.get t).getD [], X ∈ tasks

/-- What the loop of `buildDependencies` has set up after the distinct tasks `pre`, none
of whose prerequisite lists has a duplicate entry: the tasks sent are distinct tasks of
`pre`, and so are the dependents registered with a prerequisite. -/
structure BuildSent (pre : List TaskPtr) (r : run) : Prop where
  nodup : r.next.sent.Nodup
  sent : ∀ X ∈ r.next.sent, X ∈ pre
  revNodup : ∀ t, ((r.revDependsOn.get t).getD []).Nodup
  revMem : ∀ t, ∀ X ∈ (r.revDependsOn.get t).getD [], X ∈ pre

/-! ## Association lists -/

theorem GoMap.get_delete {β : Type} (m : GoMap β) (k k2 : TaskPtr) :
    (GoMap.delete m k).get k2 = if k = k2 then none else m.get k2 := by
  induction m with
  | nil => simp [GoMap.delete, GoMap.get]
  | cons e rest ih =>
    obtain ⟨k3, v⟩ := e
    unfold GoMap.delete at ih ⊢
    by_cases h3 : k3 = k
    · subst h3
      simp only [List.filter, ne_eq, not_true_eq_false, decide_False]
      rw [ih]
      by_cases h : k3 = k2
      · simp [h]
      · simp [h, GoMap.get]
    · simp only [List.filter, ne_eq, h3, not_false_eq_true, decide_True]
      simp only [GoMap.get]
      rw [ih]
      by_cases h : k3 = k2
      · subst h
        simp [Ne.symm h3]
      · simp [h]

theorem GoMap.get_set {β : Type} (m : GoMap β) (k k2 : TaskPtr) (v : β) :
    (GoMap.set m k v).get k2 = if k = k2 then some v else m.get k2 := by
  unfold GoMap.set
  simp only [GoMap.get]
  by_cases h : k = k2
  · simp [h]
  · simp [h, GoMap.get_delete]

theorem GoMap.get_of_mem {β : Type} (m : GoMap β) (k : TaskPtr) (v : β)
    (h : m.get k = some v) : (k, v) ∈ m := by
  induction m with
  | nil => simp [GoMap.get] at h
  | cons e rest ih =>
    obtain ⟨k3, v3⟩ := e
    simp only [GoMap.get] at h
    by_cases h3 : k3 = k
    · simp [h3] at h
      simp [h3, h]
    · simp [h3] at h
      exact List.mem_cons_of_mem _ (ih h)

/-! ## error.go: building the result -/

theorem Join_ne_none (errs : List error) (e : Err) (h : some e ∈ errs) :
    Join errs ≠ none := by
  have hmem : e ∈ errs.filterMap id := by
    rw [List.mem_filterMap]
    exact ⟨some e, h, rfl⟩
  unfold Join
  split
  · next heq => rw [heq] at hmem; cases hmem
  · simp

/-- C4 (counterexample): a Result whose only recorded error is nil is not in the
"Combined nil and Errors empty" case, yet build returns it with Combined still nil. -/
theorem C4_build_nil_entry_counterexample :
    ¬ (nilEntryResult.Combined = none ∧ nilEntryResult.Errors = []) ∧
    [none].Perm (nilEntryResult.Errors.map Prod.snd) ∧
    nilEntryResult.build [none] = some nilEntryResult ∧
    nilEntryResult.Combined = none := by
  decide

/-- C4 (amended): build returns nil exactly when Combined is nil and Errors is empty;
in every other case it returns r itself (Errors untouched, Combined set to the join of
the recorded errors when it was nil), and the Combined of what it returns is non-nil as
soon as Combined was non-nil before or some recorded error is non-nil. -/
theorem C4_build_success_sentinel (r : Result) (errs : List error)
    (hperm : errs.Perm (r.Errors.map Prod.snd)) :
    (r.build errs = none ↔ r.Combined = none ∧ r.Errors = []) ∧
    (∀ res, r.build errs = some res →
      res.Errors = r.Errors ∧
      (r.Combined ≠ none → res = r) ∧
      (r.Combined = none → res.Combined = Join errs) ∧
      ((r.Combined ≠ none ∨ ∃ e ∈ r.Errors, e.2 ≠ none) → res.Combined ≠ none)) := by
  obtain ⟨E, C⟩ := r
  constructor
  · unfold Result.build
    by_cases hC : C = none
    · subst hC
      cases E with
      | nil => simp [GoMap.len]
      | cons a rest => simp [GoMap.len]
    · simp [hC]
  · intro res hres
    unfold Result.build at hres
    by_cases hC : C = none
    · subst hC
      cases E with
      | nil => simp [GoMap.len] at hres
      | cons a rest =>
        simp [GoMap.len] at hres
        subst hres
        refine ⟨rfl, ?_, ?_, ?_⟩
        · intro h; exact absurd rfl h
        · intro _; rfl
        · intro h
          rcases h with h | ⟨e, he, hne⟩
          · exact absurd rfl h
          · obtain ⟨k, v⟩ := e
            cases v with
            | none => exact absurd rfl hne
            | some x =>
              apply Join_ne_none errs x
              apply hperm.symm.subset
              simp only [List.mem_map]
              exact ⟨(k, some x), he, rfl⟩
    · simp [hC] at hres
      subst hres
      refine ⟨rfl, ?_, ?_, ?_⟩
      · intro _; rfl
      · intro h; exact absurd h hC
      · intro _; exact hC

/-- C4 (witness): the amended statement at a Result holding the timeout error for
task 1. -/
theorem C4_build_success_sentinel_witness :
    [some ErrTimeout].Perm ((Result.mk [(1, some ErrTimeout)] none).Errors.map Prod.snd) ∧
    ((Result.mk [(1, some ErrTimeout)] none).build [some ErrTimeout] = none ↔
      (Result.mk [(1, some ErrTimeout)] none).Combined = none ∧
      (Result.mk [(1, some ErrTimeout)] none).Errors = []) :=
  ⟨by decide, (C4_build_success_sentinel _ _ (by decide)).1⟩

/-! ## run.go: handling one outcome -/

theorem handleOutcome_nil (r : run) (out : outcome) (h : out.err = none) :
    r.handleOutcome out = (r, false) := by
  unfold run.handleOutcome
  rw [h]

theorem handleOutcome_mode (r : run) (out : outcome) :
    (r.handleOutcome out).1.mode = r.mode := by
  unfold run.handleOutcome
  cases out.err with
  | none => rfl
  | some e =>
    simp only
    split_ifs <;> rfl

theorem handleOutcome_errors (r : run) (out : outcome) (e : Err) (h : out.err = some e) :
    (r.handleOutcome out).1.result.Errors = r.result.Errors.set out.task (some e) := by
  unfold run.handleOutcome
  rw [h]
  simp only
  split_ifs <;> simp [Result.setError] <;> split_ifs <;> rfl

theorem handleOutcome_combined_waitAll (r : run) (out : outcome)
    (hm : r.mode ≠ modeAbortFirst) (hm2 : r.mode ≠ modeAbortFirstWait) :
    (r.handleOutcome out).1.result.Combined = r.result.Combined := by
  unfold run.handleOutcome
  cases out.err with
  | none => rfl
  | some e =>
    simp only
    split_ifs <;> rfl

theorem handleOutcome_combined_abort (r : run) (out : outcome) (e : Err)
    (h : out.err = some e) (hm : r.mode = modeAbortFirst ∨ r.mode = modeAbortFirstWait) :
    (r.handleOutcome out).1.result.Combined =
      if r.result.Combined = none then some (firstError e) else r.result.Combined := by
  unfold run.handleOutcome
  rw [h]
  simp only
  rcases hm with hm | hm
  · rw [hm]
    simp only [modeAbortFirst, modeWaitAll, Result.setError]
    by_cases hc : r.result.Combined = none <;> simp [hc]
  · rw [hm]
    simp only [modeAbortFirst, modeAbortFirstWait, modeWaitAll, Result.setError]
    by_cases hc : r.result.Combined = none <;> simp [hc]

theorem handleOutcome_abort_iff (r : run) (out : outcome) :
    (r.handleOutcome out).2 = true ↔ out.err ≠ none ∧ r.mode = modeAbortFirst := by
  unfold run.handleOutcome
  cases out.err with
  | none => simp
  | some e =>
    simp only
    by_cases h1 : r.mode = modeAbortFirst
    · rw [h1]; simp [modeAbortFirst, modeWaitAll]
    · split_ifs <;> simp_all

/-- C7: handleOutcome aborts exactly when the error is non-nil and the mode is
modeAbortFirst; in modeWaitAll it neither aborts nor touches Combined; in
modeAbortFirstWait it does not abort and a non-nil error leaves Combined non-nil (set to
the wrapped error when it was nil); an outcome with a nil error leaves the whole run,
hence Errors and Combined, unchanged in every mode. -/
theorem C7_handleOutcome_mode_policy (r : run) (out : outcome) :
    ((r.handleOutcome out).2 = true ↔ out.err ≠ none ∧ r.mode = modeAbortFirst) ∧
    (r.mode = modeWaitAll →
      (r.handleOutcome out).2 = false ∧
      (r.handleOutcome out).1.result.Combined = r.result.Combined) ∧
    (r.mode = modeAbortFirstWait →
      (r.handleOutcome out).2 = false ∧
      ∀ e, out.err = some e →
        (r.handleOutcome out).1.result.Combined ≠ none ∧
        (r.result.Combined = none →
          (r.handleOutcome out).1.result.Combined = some (firstError e))) ∧
    (out.err = none →
      (r.handleOutcome out).2 = false ∧
      (r.handleOutcome out).1.result = r.result ∧
      (r.handleOutcome out).1.cancelled = r.cancelled) := by
  refine ⟨handleOutcome_abort_iff r out, ?_, ?_, ?_⟩
  · intro hm
    constructor
    · rw [Bool.eq_false_iff]
      intro h
      have := ((handleOutcome_abort_iff r out).1 h).2
      rw [hm] at this
      revert this
      decide
    · apply handleOutcome_combined_waitAll
      · rw [hm]; decide
      · rw [hm]; decide
  · intro hm
    constructor
    · rw [Bool.eq_false_iff]
      intro h
      have := ((handleOutcome_abort_iff r out).1 h).2
      rw [hm] at this
      revert this
      decide
    · intro e he
      rw [handleOutcome_combined_abort r out e he (Or.inr hm)]
      constructor
      · by_cases hc : r.result.Combined = none
        · simp [hc]
        · simp [hc]
      · intro hc
        simp [hc]
  · intro he
    rw [handleOutcome_nil r out he]
    exact ⟨rfl, rfl, rfl⟩

/-! ## run.go: handling a sequence of outcomes -/

theorem handleOutcomes_nil (r : run) : r.handleOutcomes [] = r := rfl

theorem handleOutcomes_cons (r : run) (out : outcome) (outs : List outcome) :
    r.handleOutcomes (out :: outs) = (r.handleOutcome out).1.handleOutcomes outs := rfl

theorem handleOutcomes_append (r : run) (pre post : List outcome) :
    r.handleOutcomes (pre ++ post) = (r.handleOutcomes pre).handleOutcomes post := by
  unfold run.handleOutcomes
  rw [List.foldl_append]

theorem handleOutcomes_mode (r : run) (outs : List outcome) :
    (r.handleOutcomes outs).mode = r.mode := by
  induction outs generalizing r with
  | nil => rfl
  | cons out rest ih => rw [handleOutcomes_cons, ih, handleOutcome_mode]

theorem handleOutcomes_combined_abort (r : run) (outs : List outcome)
    (hm : r.mode = modeAbortFirst ∨ r.mode = modeAbortFirstWait) :
    (r.handleOutcomes outs).result.Combined =
      match r.result.Combined with
      | some c => some c
      | none => (outs.findSome? (fun o => o.err)).map firstError := by
  induction outs generalizing r with
  | nil =>
    rw [handleOutcomes_nil]
    cases r.result.Combined <;> rfl
  | cons out rest ih =>
    rw [handleOutcomes_cons, ih _ (by rw [handleOutcome_mode]; exact hm)]
    cases he : out.err with
    | none =>
      rw [handleOutcome_nil r out he]
      simp [List.findSome?_cons, he]
    | some e =>
      rw [handleOutcome_combined_abort r out e he hm]
      cases hc : r.result.Combined with
      | none => simp [List.findSome?_cons, he]
      | some c => simp

theorem handleOutcomes_combined_waitAll (r : run) (outs : List outcome)
    (hm : r.mode ≠ modeAbortFirst) (hm2 : r.mode ≠ modeAbortFirstWait) :
    (r.handleOutcomes outs).result.Combined = r.result.Combined := by
  induction outs generalizing r with
  | nil => rfl
  | cons out rest ih =>
    rw [handleOutcomes_cons, ih _ (by rw [handleOutcome_mode]; exact hm)
      (by rw [handleOutcome_mode]; exact hm2), handleOutcome_combined_waitAll r out hm hm2]

/-- C6: in modeAbortFirst and modeAbortFirstWait, after any sequence of outcomes handled
from a fresh Result, Combined is nil when no outcome failed and otherwise is the error
of the first failed outcome wrapped as "first error: <err>", which unwraps to that
error and matches nothing but itself and what that error matches; every failed outcome
is recorded in Errors under its task when it is handled, and one that comes after an
earlier failure leaves Combined as it was. -/
theorem C6_first_error_wins (tp : TaskPool) (ctx : error) (tasks : List TaskPtr)
    (heap : Heap) (m : mode) (hm : m = modeAbortFirst ∨ m = modeAbortFirstWait)
    (outs : List outcome) :
    ((newRun tp m ctx tasks heap).handleOutcomes outs).result.Combined =
        (outs.findSome? (fun o => o.err)).map firstError ∧
    (∀ e : Err, (firstError e).Unwrap = some e ∧
        (firstError e).Error = "first error: " ++ e.Error ∧
        ∀ target, (firstError e).is target = true ↔
          (firstError e = target ∨ e.is target = true)) ∧
    (∀ pre out post e, outs = pre ++ out :: post → out.err = some e →
      ((newRun tp m ctx tasks heap).handleOutcomes (pre ++ [out])).result.GetResult
          out.task = some e ∧
      ((∃ p ∈ pre, p.err ≠ none) →
        ((newRun tp m ctx tasks heap).handleOutcomes (pre ++ [out])).result.Combined =
          ((newRun tp m ctx tasks heap).handleOutcomes pre).result.Combined)) := by
  refine ⟨?_, ?_, ?_⟩
  · rw [handleOutcomes_combined_abort _ _ hm]
    rfl
  · intro e
    refine ⟨rfl, rfl, ?_⟩
    intro target
    simp [firstError, Err.is]
  · intro pre out post e _ he
    rw [handleOutcomes_append, handleOutcomes_cons, handleOutcomes_nil]
    constructor
    · unfold Result.GetResult
      rw [handleOutcome_errors _ out e he, GoMap.get_set]
      simp
    · rintro ⟨p, hp, hpe⟩
      have hmode : ((newRun tp m ctx tasks heap).handleOutcomes pre).mode = modeAbortFirst ∨
          ((newRun tp m ctx tasks heap).handleOutcomes pre).mode = modeAbortFirstWait := by
        rw [handleOutcomes_mode]; exact hm
      rw [handleOutcome_combined_abort _ out e he hmode]
      have hc : ((newRun tp m ctx tasks heap).handleOutcomes pre).result.Combined ≠ none := by
        rw [handleOutcomes_combined_abort _ _ hm]
        change Option.map firstError (pre.findSome? (fun o => o.err)) ≠ none
        cases hf : pre.findSome? (fun o => o.err) with
        | some x => simp
        | none =>
          rw [List.findSome?_eq_none_iff] at hf
          exact absurd (hf p hp) hpe
      simp [hc]

/-- C6 (witness): two failing outcomes handled in modeAbortFirstWait. -/
theorem C6_first_error_wins_witness :
    (modeAbortFirstWait = modeAbortFirst ∨ modeAbortFirstWait = modeAbortFirstWait) ∧
    ((newRun ⟨⟨0, 0⟩⟩ modeAbortFirstWait none [1, 2] noDeps).handleOutcomes
        [⟨1, some (.errorString 7 "err1")⟩, ⟨2, some (.errorString 8 "err2")⟩]).result.Combined =
      some (firstError (.errorString 7 "err1")) :=
  ⟨Or.inr rfl, (C6_first_error_wins ⟨⟨0, 0⟩⟩ none [1, 2] noDeps
    modeAbortFirstWait (Or.inr rfl)
    [⟨1, some (.errorString 7 "err1")⟩, ⟨2, some (.errorString 8 "err2")⟩]).1⟩

/-! ## The errors recorded per task -/

theorem Err.is_self (e : Err) : Err.is e e = true := by
  cases e <;> simp [Err.is]

theorem Err.isAny_of_mem (es : List Err) (e : Err) (h : e ∈ es) : Err.isAny es e = true := by
  induction es with
  | nil => cases h
  | cons a rest ih =>
    rcases List.mem_cons.1 h with h | h
    · subst h
      simp [Err.isAny, Err.is_self]
    · simp [Err.isAny, ih h]

theorem handleOutcome_get_other (r : run) (out : outcome) (t : TaskPtr)
    (h : out.task = t → out.err = none) :
    (r.handleOutcome out).1.result.Errors.get t = r.result.Errors.get t := by
  cases he : out.err with
  | none => rw [handleOutcome_nil r out he]
  | some e =>
    rw [handleOutcome_errors r out e he, GoMap.get_set]
    have hne : out.task ≠ t := fun heq => by
      have := h heq
      rw [he] at this
      cases this
    simp [hne]

theorem handleOutcomes_get_other (r : run) (outs : List outcome) (t : TaskPtr)
    (h : ∀ o ∈ outs, o.task = t → o.err = none) :
    (r.handleOutcomes outs).result.Errors.get t = r.result.Errors.get t := by
  induction outs generalizing r with
  | nil => rfl
  | cons out rest ih =>
    rw [handleOutcomes_cons, ih _ (fun o ho => h o (List.mem_cons_of_mem _ ho)),
      handleOutcome_get_other r out t (h out (List.mem_cons_self _ _))]

theorem handleOutcomes_get_failed (r : run) (outs : List outcome) (o : outcome) (e : Err)
    (ho : o ∈ outs) (he : o.err = some e)
    (huniq : ∀ o2 ∈ outs, o2.task = o.task → o2 = o) :
    (r.handleOutcomes outs).result.Errors.get o.task = some (some e) := by
  induction outs generalizing r with
  | nil => cases ho
  | cons a rest ih =>
    rw [handleOutcomes_cons]
    by_cases hrest : o ∈ rest
    · exact ih _ hrest (fun o2 h2 => huniq o2 (List.mem_cons_of_mem _ h2))
    · have ha : o = a := by
        rcases List.mem_cons.1 ho with h | h
        · exact h
        · exact absurd h hrest
      subst ha
      rw [handleOutcomes_get_other]
      · rw [handleOutcome_errors r o e he, GoMap.get_set]
        simp
      · intro o2 h2 ht
        have := huniq o2 (List.mem_cons_of_mem _ h2) ht
        rw [this] at h2
        exact absurd h2 hrest

theorem handleOutcome_errors_ne_nil (r : run) (out : outcome)
    (h : r.result.Errors ≠ [] ∨ out.err ≠ none) :
    (r.handleOutcome out).1.result.Errors ≠ [] := by
  cases he : out.err with
  | none =>
    rw [handleOutcome_nil r out he]
    rcases h with h | h
    · exact h
    · exact absurd he h
  | some e =>
    rw [handleOutcome_errors r out e he]
    simp [GoMap.set]

theorem handleOutcomes_errors_ne_nil (r : run) (outs : List outcome)
    (h : r.result.Errors ≠ [] ∨ ∃ o ∈ outs, o.err ≠ none) :
    (r.handleOutcomes outs).result.Errors ≠ [] := by
  induction outs generalizing r with
  | nil =>
    rcases h with h | ⟨o, ho, _⟩
    · exact h
    · cases ho
  | cons a rest ih =>
    rw [handleOutcomes_cons]
    apply ih
    rcases h with h | ⟨o, ho, hne⟩
    · exact Or.inl (handleOutcome_errors_ne_nil r a (Or.inl h))
    · rcases List.mem_cons.1 ho with h | h
      · subst h
        exact Or.inl (handleOutcome_errors_ne_nil r o (Or.inr hne))
      · exact Or.inr ⟨o, h, hne⟩

theorem handleOutcome_errors_some (r : run) (out : outcome)
    (h : ∀ kv ∈ r.result.Errors, kv.2 ≠ none) :
    ∀ kv ∈ (r.handleOutcome out).1.result.Errors, kv.2 ≠ none := by
  cases he : out.err with
  | none => rw [handleOutcome_nil r out he]; exact h
  | some e =>
    rw [handleOutcome_errors r out e he]
    intro kv hkv
    unfold GoMap.set at hkv
    rcases List.mem_cons.1 hkv with hkv | hkv
    · rw [hkv]; simp
    · unfold GoMap.delete at hkv
      exact h kv (List.mem_filter.1 hkv).1

theorem handleOutcomes_errors_some (r : run) (outs : List outcome)
    (h : ∀ kv ∈ r.result.Errors, kv.2 ≠ none) :
    ∀ kv ∈ (r.handleOutcomes outs).result.Errors, kv.2 ≠ none := by
  induction outs generalizing r with
  | nil => exact h
  | cons a rest ih =>
    rw [handleOutcomes_cons]
    exact ih _ (handleOutcome_errors_some r a h)

theorem filterMap_id_map_some (errs : List error) (h : ∀ x ∈ errs, x ≠ none) :
    (errs.filterMap id).map some = errs := by
  induction errs with
  | nil => rfl
  | cons a rest ih =>
    cases a with
    | none => exact absurd rfl (h none (List.mem_cons_self _ _))
    | some x =>
      simp only [List.filterMap_cons, id, List.map_cons]
      rw [ih (fun y hy => h y (List.mem_cons_of_mem _ hy))]

/-- C5: in modeWaitAll, after any sequence of outcomes handled from a fresh Result of
which at least one failed, build returns a Result whose Combined is the join of exactly
the errors recorded in Errors (in the order of the visit of the map), every recorded
error is matched by errors.Is on the Result, and for a task with a single outcome
GetResult returns exactly the error of that outcome. -/
theorem C5_waitAll_join (tp : TaskPool) (ctx : error) (tasks : List TaskPtr)
    (heap : Heap) (outs : List outcome) (errs : List error)
    (hfail : ∃ o ∈ outs, o.err ≠ none)
    (hperm : errs.Perm
      (((newRun tp modeWaitAll ctx tasks heap).handleOutcomes outs).result.Errors.map
        Prod.snd)) :
    ∃ res es,
      ((newRun tp modeWaitAll ctx tasks heap).handleOutcomes outs).result.build errs
        = some res ∧
      res.Errors =
        ((newRun tp modeWaitAll ctx tasks heap).handleOutcomes outs).result.Errors ∧
      res.Combined = some (.joinError es) ∧
      (es.map some).Perm (res.Errors.map Prod.snd) ∧
      (∀ t e, res.GetResult t = some e → res.Is e = true) ∧
      (∀ o ∈ outs, (∀ o2 ∈ outs, o2.task = o.task → o2 = o) →
        res.GetResult o.task = o.err) := by
  generalize hR : (newRun tp modeWaitAll ctx tasks heap).handleOutcomes outs = R at hperm
  have hcomb : R.result.Combined = none := by
    rw [← hR, handleOutcomes_combined_waitAll _ _
      (by show modeWaitAll ≠ modeAbortFirst; decide)
      (by show modeWaitAll ≠ modeAbortFirstWait; decide)]
    rfl
  have hne : R.result.Errors ≠ [] := by
    rw [← hR]
    exact handleOutcomes_errors_ne_nil _ _ (Or.inr hfail)
  have hsome : ∀ kv ∈ R.result.Errors, kv.2 ≠ none := by
    rw [← hR]
    apply handleOutcomes_errors_some
    intro kv hkv
    cases hkv
  have herrs : ∀ x ∈ errs, x ≠ none := by
    intro x hx
    have := hperm.subset hx
    rw [List.mem_map] at this
    obtain ⟨kv, hkv, rfl⟩ := this
    exact hsome kv hkv
  have hmap : (errs.filterMap id).map some = errs := filterMap_id_map_some errs herrs
  have hlen : R.result.Errors.len > 0 := by
    unfold GoMap.len
    exact List.length_pos.2 hne
  have hes : errs.filterMap id ≠ [] := by
    intro h
    rw [h] at hmap
    have h2 : errs = [] := hmap.symm
    rw [h2] at hperm
    have := hperm.length_eq
    rw [List.length_nil, List.length_map] at this
    exact hne (List.length_eq_zero.1 this.symm)
  have hjoin : Join errs = some (.joinError (errs.filterMap id)) := by
    unfold Join
    cases hf : errs.filterMap id with
    | nil => exact absurd hf hes
    | cons a rest => rfl
  refine ⟨{ R.result with Combined := Join errs }, errs.filterMap id, ?_, rfl, hjoin, ?_, ?_, ?_⟩
  · unfold Result.build
    simp [hcomb, hlen]
  · rw [hmap]
    exact hperm
  · intro t e hget
    have hmem : (t, some e) ∈ R.result.Errors := by
      apply GoMap.get_of_mem
      unfold Result.GetResult at hget
      cases hg : R.result.Errors.get t with
      | none => rw [hg] at hget; cases hget
      | some v =>
        rw [hg] at hget
        simp only [Option.getD_some] at hget
        rw [hget]
    have h1 : some e ∈ errs := by
      apply hperm.symm.subset
      rw [List.mem_map]
      exact ⟨(t, some e), hmem, rfl⟩
    have h2 : e ∈ errs.filterMap id := by
      rw [List.mem_filterMap]
      exact ⟨some e, h1, rfl⟩
    unfold Result.Is Result.Unwrap
    simp only [hjoin]
    simp [Err.is, Err.isAny_of_mem _ _ h2]
  · intro o ho huniq
    unfold Result.GetResult
    simp only
    cases he : o.err with
    | none =>
      rw [← hR, handleOutcomes_get_other]
      · rfl
      · intro o2 h2 ht
        rw [huniq o2 h2 ht]
        exact he
    | some e =>
      rw [← hR, handleOutcomes_get_failed _ outs o e ho he huniq]
      rfl

/-- C5 (witness): the two failing tasks of the test "wait for all tasks". -/
theorem C5_waitAll_join_witness :
    (∃ o ∈ [outcome.mk 1 (some (.errorString 7 "err1")), ⟨2, some (.errorString 8 "err2")⟩],
      o.err ≠ none) ∧
    ∃ res es,
      ((newRun ⟨⟨0, 0⟩⟩ modeWaitAll none [1, 2] noDeps).handleOutcomes
        [⟨1, some (.errorString 7 "err1")⟩, ⟨2, some (.errorString 8 "err2")⟩]).result.build
        [some (.errorString 8 "err2"), some (.errorString 7 "err1")] = some res ∧
      res.Combined = some (.joinError es) ∧
      res.Is (.errorString 7 "err1") = true ∧ res.Is (.errorString 8 "err2") = true :=
  ⟨⟨⟨1, some (.errorString 7 "err1")⟩, by decide, by decide⟩, by
    obtain ⟨res, es, h1, _, h3, _, h5, h6⟩ := C5_waitAll_join ⟨⟨0, 0⟩⟩ none [1, 2]
      noDeps
      [⟨1, some (.errorString 7 "err1")⟩, ⟨2, some (.errorString 8 "err2")⟩]
      [some (.errorString 8 "err2"), some (.errorString 7 "err1")]
      ⟨⟨1, some (.errorString 7 "err1")⟩, by decide, by decide⟩ (by decide)
    refine ⟨res, es, h1, h3, ?_, ?_⟩
    · apply h5 1
      have := h6 ⟨1, some (.errorString 7 "err1")⟩ (by decide) (by decide)
      exact this
    · apply h5 2
      have := h6 ⟨2, some (.errorString 8 "err2")⟩ (by decide) (by decide)
      exact this⟩

/-! ## run.go: the driver loop -/

theorem handleOutcome_pool (r : run) (out : outcome) :
    (r.handleOutcome out).1.pool = r.pool := by
  unfold run.handleOutcome
  cases out.err with
  | none => rfl
  | some e =>
    simp only
    split_ifs <;> rfl

theorem handleOutcomes_pool (r : run) (outs : List outcome) :
    (r.handleOutcomes outs).pool = r.pool := by
  induction outs generalizing r with
  | nil => rfl
  | cons out rest ih => rw [handleOutcomes_cons, ih, handleOutcome_pool]

theorem loop_received_append (r : run) (errs : List error) (outs : List outcome)
    (rest : List Selected) (h : r.loop errs (outs.map .received) = none) :
    r.loop errs (outs.map .received ++ rest) = (r.handleOutcomes outs).loop errs rest := by
  induction outs generalizing r with
  | nil => rfl
  | cons out tl ih =>
    simp only [List.map_cons, List.cons_append, run.loop] at h ⊢
    by_cases ha : (r.handleOutcome out).2 = true
    · simp [ha] at h
    · simp only [ha] at h ⊢
      rw [handleOutcomes_cons]
      exact ih _ h

theorem loop_received_no_abort (r : run) (errs : List error) (outs : List outcome)
    (h : r.loop errs (outs.map .received) = none) (hm : r.mode = modeAbortFirst) :
    ∀ o ∈ outs, o.err = none := by
  induction outs generalizing r with
  | nil => intro o ho; cases ho
  | cons out tl ih =>
    simp only [List.map_cons, run.loop] at h
    by_cases ha : (r.handleOutcome out).2 = true
    · simp [ha] at h
    · simp only [ha] at h
      have hnil : out.err = none := by
        by_contra hne
        exact ha ((handleOutcome_abort_iff r out).2 ⟨hne, hm⟩)
      intro o ho
      rcases List.mem_cons.1 ho with ho | ho
      · rw [ho]; exact hnil
      · exact ih _ h (by rw [handleOutcome_mode]; exact hm) o ho

theorem findSome_err_none (outs : List outcome) (h : ∀ o ∈ outs, o.err = none) :
    outs.findSome? (fun o => o.err) = none := by
  rw [List.findSome?_eq_none_iff]
  exact h

/-- C8 (counterexample): in modeAbortFirstWait, after the failed outcome of task 1 has
been handled, the timeout branch returns a Result whose Combined is the wrapped first
error, not ErrTimeout, and errors.Is(result, ErrTimeout) is false. -/
theorem C8_timeout_after_failure_counterexample :
    timeoutPool.timeout = true ∧
    (newRun timeoutPool modeAbortFirstWait none [1, 2] noDeps).loop [some err1]
        [.received ⟨1, some err1⟩] = none ∧
    ((newRun timeoutPool modeAbortFirstWait none [1, 2] noDeps).loop [some err1]
        [.received ⟨1, some err1⟩, .timeout]).map
      (Option.map (fun res => (res.Combined, res.Is ErrTimeout)))
      = some (some (some (firstError err1), false)) ∧
    firstError err1 ≠ ErrTimeout := by
  decide

/-- C8 (amended): when the driver loop takes the timeout branch after any outcomes it
has handled without returning, it returns a non-nil Result with a non-nil Combined;
Combined is ErrTimeout (and errors.Is(result, ErrTimeout) holds) unless the mode is
modeAbortFirstWait and an outcome failed before, in which case Combined stays the
wrapped first error. -/
theorem C8_timeout_result (tp : TaskPool) (ctx : error) (tasks : List TaskPtr)
    (heap : Heap) (m : mode) (outs : List outcome) (errs : List error)
    (rest : List Selected)
    (htimeout : tp.timeout = true)
    (hreach : (newRun tp m ctx tasks heap).loop errs (outs.map .received) = none) :
    ∃ res,
      (newRun tp m ctx tasks heap).loop errs (outs.map .received ++ .timeout :: rest)
        = some (some res) ∧
      res.Errors = ((newRun tp m ctx tasks heap).handleOutcomes outs).result.Errors ∧
      res.Combined ≠ none ∧
      res.Combined = some (if m = modeAbortFirstWait then
          ((outs.findSome? (fun o => o.err)).map firstError).getD ErrTimeout
        else ErrTimeout) ∧
      (res.Combined = some ErrTimeout → res.Is ErrTimeout = true) := by
  rw [loop_received_append _ _ _ _ hreach]
  generalize hR : (newRun tp m ctx tasks heap).handleOutcomes outs = R
  have hpool : R.pool.timeout = true := by
    rw [← hR, handleOutcomes_pool]
    exact htimeout
  have hcomb : R.result.Combined =
      if m = modeAbortFirstWait then (outs.findSome? (fun o => o.err)).map firstError
      else none := by
    rw [← hR]
    by_cases h2 : m = modeAbortFirstWait
    · rw [handleOutcomes_combined_abort _ _ (Or.inr h2)]
      simp [h2, newRun, newResult]
    · by_cases h1 : m = modeAbortFirst
      · rw [handleOutcomes_combined_abort _ _ (Or.inl h1)]
        have := findSome_err_none outs (loop_received_no_abort _ _ _ hreach h1)
        simp [h2, newRun, newResult, this]
      · rw [handleOutcomes_combined_waitAll _ _ h1 h2]
        simp [h2, newRun, newResult]
  have hset : (R.result.setError (some ErrTimeout)).Combined =
      some (if m = modeAbortFirstWait then
          ((outs.findSome? (fun o => o.err)).map firstError).getD ErrTimeout
        else ErrTimeout) := by
    unfold Result.setError
    by_cases h2 : m = modeAbortFirstWait
    · simp only [h2, if_true] at hcomb ⊢
      cases hf : outs.findSome? (fun o => o.err) with
      | none => rw [hf] at hcomb; simp [hcomb]
      | some e => rw [hf] at hcomb; simp [hcomb]
    · simp only [h2, if_false] at hcomb ⊢
      simp [hcomb]
  have hne : (R.result.setError (some ErrTimeout)).Combined ≠ none := by
    rw [hset]; simp
  refine ⟨R.result.setError (some ErrTimeout), ?_, ?_, hne, hset, ?_⟩
  · simp only [run.loop, hpool, if_true]
    unfold Result.build
    simp [hne]
  · unfold Result.setError
    split_ifs <;> rfl
  · intro h
    unfold Result.Is Result.Unwrap
    rw [h]
    exact Err.is_self ErrTimeout

/-- C8 (witness): the timeout taken in modeAbortFirstWait after one failed outcome. -/
theorem C8_timeout_result_witness :
    timeoutPool.timeout = true ∧
    (newRun timeoutPool modeAbortFirstWait none [1, 2] noDeps).loop []
        ([outcome.mk 1 (some err1)].map .received) = none ∧
    ∃ res,
      (newRun timeoutPool modeAbortFirstWait none [1, 2] noDeps).loop []
        ([outcome.mk 1 (some err1)].map .received ++ .timeout :: []) = some (some res) ∧
      res.Combined ≠ none :=
  ⟨by decide, by decide, by
    obtain ⟨res, h1, _, h3, _⟩ := C8_timeout_result timeoutPool none [1, 2] noDeps
      modeAbortFirstWait [⟨1, some err1⟩] [] [] (by decide) (by decide)
    exact ⟨res, h1, h3⟩⟩

/-! ## run.go: pruning the outstanding prerequisites -/

theorem DeleteFunc_arr (heap : Heap) (s : Slice) (del : TaskPtr → Bool) :
    (DeleteFunc heap s del).2.arr = s.arr := by
  unfold DeleteFunc
  cases h : s.arr with
  | none => simp [h]
  | some a => rfl

theorem DeleteFunc_nil (heap : Heap) (del : TaskPtr → Bool) :
    DeleteFunc heap Slice.nil del = (heap, Slice.nil) := rfl

theorem DeleteFunc_off (heap : Heap) (s : Slice) (del : TaskPtr → Bool) :
    (DeleteFunc heap s del).2.off = s.off := by
  unfold DeleteFunc
  cases h : s.arr with
  | none => simp [h]
  | some a => rfl

theorem DeleteFunc_task (heap : Heap) (s : Slice) (del : TaskPtr → Bool) :
    (DeleteFunc heap s del).1.task = heap.task := by
  unfold DeleteFunc
  cases h : s.arr with
  | none => rfl
  | some a => rfl

theorem DeleteFunc_heap_other (heap : Heap) (s : Slice) (del : TaskPtr → Bool) (b : ArrPtr)
    (h : s.arr ≠ some b) : (DeleteFunc heap s del).1.arr b = heap.arr b := by
  unfold DeleteFunc
  cases ha : s.arr with
  | none => rfl
  | some a =>
    have hne : b ≠ a := fun hba => h (by rw [ha, hba])
    simp [Function.update, hne]

theorem DeleteFunc_elems (heap : Heap) (s : Slice) (del : TaskPtr → Bool) :
    (DeleteFunc heap s del).2.elems (DeleteFunc heap s del).1 =
      (s.elems heap).filter (fun x => !del x) := by
  obtain ⟨arr, o, n⟩ := s
  cases arr with
  | none => rfl
  | some a =>
    simp only [DeleteFunc, Slice.elems, Function.update_same]
    by_cases ho : o ≤ (heap.arr a).length
    · rw [List.drop_left' (List.length_take_of_le ho), List.append_assoc, List.take_left]
    · have hd : (heap.arr a).drop o = [] := List.drop_of_length_le (by omega)
      simp [hd]

theorem DeleteFunc_len (heap : Heap) (s : Slice) (del : TaskPtr → Bool)
    (hs : s.arr = none → s.len = 0) :
    (DeleteFunc heap s del).2.len = ((s.elems heap).filter (fun x => !del x)).length := by
  obtain ⟨arr, o, n⟩ := s
  cases arr with
  | none =>
    have := hs rfl
    simp only at this
    subst this
    rfl
  | some a => rfl

theorem Slice.elems_congr (h1 h2 : Heap) (s : Slice)
    (h : ∀ a, s.arr = some a → h1.arr a = h2.arr a) : s.elems h1 = s.elems h2 := by
  unfold Slice.elems
  cases ha : s.arr with
  | none => rfl
  | some a => simp only; rw [h a ha]

theorem ofCalls_len (calls : Calls) (X : TaskPtr) :
    ((Heap.ofCalls calls).task X).DependsOn.len = (calls X).DependsOn.length := by
  unfold Heap.ofCalls NewTask
  simp only
  split_ifs with h
  · rw [h]; rfl
  · rfl

theorem ofCalls_header (calls : Calls) (X : TaskPtr) (h : (calls X).DependsOn.length ≠ 0) :
    ((Heap.ofCalls calls).task X).DependsOn = ⟨some X, 0, (calls X).DependsOn.length⟩ := by
  unfold Heap.ofCalls NewTask
  simp only [h, if_false]

theorem ofCalls_elems (calls : Calls) (X : TaskPtr) :
    (⟨some X, 0, (calls X).DependsOn.length⟩ : Slice).elems (Heap.ofCalls calls) =
      (calls X).DependsOn := by
  simp [Slice.elems, Heap.ofCalls]

theorem Heap.deps_ofCalls (calls : Calls) (X : TaskPtr) :
    (Heap.ofCalls calls).deps X = (calls X).DependsOn := by
  unfold Heap.deps
  by_cases h : (calls X).DependsOn.length = 0
  · have hnil := List.length_eq_zero.1 h
    unfold Heap.ofCalls NewTask
    simp only [h, if_true, hnil]
    rfl
  · rw [ofCalls_header calls X h, ofCalls_elems]

theorem pruneDependent_outcomes (t : TaskPtr) (r : run) (d : TaskPtr) :
    (pruneDependent t r d).outcomes = r.outcomes ∧
    (pruneDependent t r d).wg = r.wg ∧
    (pruneDependent t r d).counter = r.counter ∧
    (pruneDependent t r d).revDependsOn = r.revDependsOn ∧
    (pruneDependent t r d).result = r.result ∧
    (pruneDependent t r d).mode = r.mode ∧
    (pruneDependent t r d).cancelled = r.cancelled ∧
    (pruneDependent t r d).tasks = r.tasks ∧
    (pruneDependent t r d).pool = r.pool := by
  unfold pruneDependent
  simp only
  split_ifs <;> exact ⟨rfl, rfl, rfl, rfl, rfl, rfl, rfl, rfl, rfl⟩

theorem foldl_pruneDependent_frame (t : TaskPtr) (ds : List TaskPtr) (r : run) :
    (ds.foldl (pruneDependent t) r).outcomes = r.outcomes ∧
    (ds.foldl (pruneDependent t) r).wg = r.wg ∧
    (ds.foldl (pruneDependent t) r).counter = r.counter ∧
    (ds.foldl (pruneDependent t) r).revDependsOn = r.revDependsOn ∧
    (ds.foldl (pruneDependent t) r).result = r.result ∧
    (ds.foldl (pruneDependent t) r).mode = r.mode ∧
    (ds.foldl (pruneDependent t) r).cancelled = r.cancelled ∧
    (ds.foldl (pruneDependent t) r).tasks = r.tasks ∧
    (ds.foldl (pruneDependent t) r).pool = r.pool := by
  induction ds generalizing r with
  | nil => exact ⟨rfl, rfl, rfl, rfl, rfl, rfl, rfl, rfl, rfl⟩
  | cons d rest ih =>
    simp only [List.foldl_cons]
    obtain ⟨h1, h2, h3, h4, h5, h6, h7, h8, h9⟩ := ih (pruneDependent t r d)
    obtain ⟨g1, g2, g3, g4, g5, g6, g7, g8, g9⟩ := pruneDependent_outcomes t r d
    exact ⟨h1.trans g1, h2.trans g2, h3.trans g3, h4.trans g4, h5.trans g5, h6.trans g6,
      h7.trans g7, h8.trans g8, h9.trans g9⟩

theorem finishTask_frame (r : run) (t : TaskPtr) :
    (r.finishTask t).outcomes = r.outcomes ∧
    (r.finishTask t).wg = r.wg - 1 ∧
    (r.finishTask t).counter = r.counter.recv ∧
    (r.finishTask t).revDependsOn = r.revDependsOn.delete t ∧
    (r.finishTask t).result = r.result ∧
    (r.finishTask t).mode = r.mode ∧
    (r.finishTask t).cancelled = r.cancelled := by
  unfold run.finishTask
  simp only
  obtain ⟨h1, h2, h3, h4, h5, h6, h7, _, _⟩ := foldl_pruneDependent_frame t
    (({ r with counter := r.counter.recv } : run).revDependsOn.get t |>.getD [])
    { r with counter := r.counter.recv }
  split_ifs
  · exact ⟨h1, by rw [h2], h3, by rw [h4], h5, h6, h7⟩
  · exact ⟨h1, by rw [h2], h3, by rw [h4], h5, h6, h7⟩

/-- C10: runTask posts exactly one outcome for the task and then runs finishTask once
(the wait group goes down by one and one semaphore slot is taken back), whether the
work returns or panics; a returned error e gives the outcome error e, a panic with
payload v gives a PanicError with Val v and the captured stack; and in modeWaitAll a
PanicError outcome does not make handleOutcome abort. -/
theorem C10_fault_barrier (r : run) (task : TaskPtr) (stack : List Nat) :
    (∀ e, (r.heap.task task).Func r.cancelled = .returns e →
      r.runTask task stack =
        run.finishTask { r with outcomes := r.outcomes.send ⟨task, e⟩ } task ∧
      (r.runTask task stack).outcomes.sent = r.outcomes.sent ++ [⟨task, e⟩]) ∧
    (∀ v, (r.heap.task task).Func r.cancelled = .panics v →
      r.runTask task stack =
        run.finishTask
          { r with outcomes := r.outcomes.send ⟨task, some (.PanicError (some v) stack)⟩ }
          task ∧
      (r.runTask task stack).outcomes.sent =
        r.outcomes.sent ++ [⟨task, some (.PanicError (some v) stack)⟩]) ∧
    (r.runTask task stack).outcomes.sent.length = r.outcomes.sent.length + 1 ∧
    (r.runTask task stack).wg = r.wg - 1 ∧
    (r.runTask task stack).counter.recvd = r.counter.recvd + 1 ∧
    (∀ (q : run) (v : any) (st : List Nat), q.mode = modeWaitAll →
      (q.handleOutcome ⟨task, some (.PanicError v st)⟩).2 = false ∧
      (q.handleOutcome ⟨task, some (.PanicError v st)⟩).1.result.GetResult task =
        some (.PanicError v st)) := by
  refine ⟨?_, ?_, ?_, ?_, ?_, ?_⟩
  · intro e he
    have hrun : r.runTask task stack =
        run.finishTask { r with outcomes := r.outcomes.send ⟨task, e⟩ } task := by
      unfold run.runTask
      rw [he]
    exact ⟨hrun, by rw [hrun, (finishTask_frame _ task).1]; rfl⟩
  · intro v hv
    have hrun : r.runTask task stack =
        run.finishTask
          { r with outcomes := r.outcomes.send ⟨task, some (.PanicError (some v) stack)⟩ }
          task := by
      unfold run.runTask
      rw [hv]
    exact ⟨hrun, by rw [hrun, (finishTask_frame _ task).1]; rfl⟩
  · unfold run.runTask
    cases (r.heap.task task).Func r.cancelled with
    | returns e =>
      simp only
      rw [(finishTask_frame _ task).1]
      simp [Chan.send]
    | panics v =>
      simp only
      rw [(finishTask_frame _ task).1]
      simp [Chan.send]
  · unfold run.runTask
    cases (r.heap.task task).Func r.cancelled with
    | returns e => simp only; rw [(finishTask_frame _ task).2.1]
    | panics v => simp only; rw [(finishTask_frame _ task).2.1]
  · unfold run.runTask
    cases (r.heap.task task).Func r.cancelled with
    | returns e => simp only; rw [(finishTask_frame _ task).2.2.1]; rfl
    | panics v => simp only; rw [(finishTask_frame _ task).2.2.1]; rfl
  · intro q v st hq
    constructor
    · rw [Bool.eq_false_iff]
      intro h
      have := ((handleOutcome_abort_iff q _).1 h).2
      rw [hq] at this
      revert this
      decide
    · unfold Result.GetResult
      rw [handleOutcome_errors q _ (.PanicError v st) rfl, GoMap.get_set]
      simp

theorem pruneDependent_heap (t : TaskPtr) (r : run) (d : TaskPtr) :
    (pruneDependent t r d).heap =
      (DeleteFunc r.heap ((r.dependsOn.get d).getD Slice.nil)
        (fun other => decide (other = t))).1 := by
  unfold pruneDependent
  simp only
  split_ifs <;> rfl

theorem pruneDependent_get (t : TaskPtr) (r : run) (d k : TaskPtr) :
    (pruneDependent t r d).dependsOn.get k =
      if d = k then
        (if (DeleteFunc r.heap ((r.dependsOn.get d).getD Slice.nil)
            (fun other => decide (other = t))).2.len = 0 then none
          else some (DeleteFunc r.heap ((r.dependsOn.get d).getD Slice.nil)
            (fun other => decide (other = t))).2)
      else r.dependsOn.get k := by
  unfold pruneDependent
  simp only
  split_ifs with h1 h2 h2
  · simp [GoMap.get_delete, h2]
  · simp [GoMap.get_delete, GoMap.get_set, h2]
  · simp [GoMap.get_set, h2]
  · simp [GoMap.get_set, h2]

theorem pruneDependent_sent (t : TaskPtr) (r : run) (d : TaskPtr) :
    (pruneDependent t r d).next.sent =
      if (DeleteFunc r.heap ((r.dependsOn.get d).getD Slice.nil)
          (fun other => decide (other = t))).2.len = 0 then r.next.sent ++ [d]
      else r.next.sent := by
  unfold pruneDependent
  simp only
  split_ifs <;> rfl

theorem pruneDependent_closedAt (t : TaskPtr) (r : run) (d : TaskPtr) :
    (pruneDependent t r d).next.closedAt = r.next.closedAt := by
  unfold pruneDependent
  simp only
  split_ifs <;> rfl

theorem pruneDependent_sent_mono (t : TaskPtr) (r : run) (d x : TaskPtr)
    (h : x ∈ r.next.sent) : x ∈ (pruneDependent t r d).next.sent := by
  rw [pruneDependent_sent]
  split_ifs
  · exact List.mem_append_left _ h
  · exact h

theorem filter_ne_replicate (n : Nat) (P : TaskPtr) :
    (List.replicate n P).filter (fun x => !decide (x = P)) = [] := by
  rw [List.filter_eq_nil_iff]
  intro a ha
  rw [List.eq_of_mem_replicate ha]
  simp

/-- After the dependent X has been pruned away it stays without an entry and stays
on the ready queue, whatever is pruned next. -/
theorem pruneDependent_released (t : TaskPtr) (r : run) (d X : TaskPtr)
    (h : r.dependsOn.get X = none ∧ X ∈ r.next.sent) :
    (pruneDependent t r d).dependsOn.get X = none ∧ X ∈ (pruneDependent t r d).next.sent := by
  refine ⟨?_, pruneDependent_sent_mono t r d X h.2⟩
  rw [pruneDependent_get]
  by_cases hd : d = X
  · subst hd
    rw [h.1]
    simp [DeleteFunc, Slice.nil]
  · simp [hd, h.1]

theorem foldl_pruneDependent_released (t : TaskPtr) (ds : List TaskPtr) (r : run)
    (X : TaskPtr) (h : r.dependsOn.get X = none ∧ X ∈ r.next.sent) :
    (ds.foldl (pruneDependent t) r).dependsOn.get X = none ∧
      X ∈ (ds.foldl (pruneDependent t) r).next.sent := by
  induction ds generalizing r with
  | nil => exact h
  | cons d rest ih =>
    simp only [List.foldl_cons]
    exact ih _ (pruneDependent_released t r d X h)

theorem Slice.arr_ne_none_of_elems (heap : Heap) (s : Slice) (h : s.elems heap ≠ []) :
    s.arr ≠ none := by
  intro hn
  apply h
  unfold Slice.elems
  rw [hn]

/-- Pruning another dependent leaves alone an outstanding list that shares its array
with no other entry. -/
theorem pruneDependent_keeps (t : TaskPtr) (r : run) (d X : TaskPtr) (s : Slice)
    (hd : d ≠ X)
    (hX : r.dependsOn.get X = some s)
    (hne : s.elems r.heap ≠ [])
    (hown : ∀ Y s2, r.dependsOn.get Y = some s2 → s2.arr = s.arr → Y = X) :
    (pruneDependent t r d).dependsOn.get X = some s ∧
    s.elems (pruneDependent t r d).heap = s.elems r.heap ∧
    (∀ Y s2, (pruneDependent t r d).dependsOn.get Y = some s2 → s2.arr = s.arr → Y = X) := by
  have hsome : s.arr ≠ none := Slice.arr_ne_none_of_elems r.heap s hne
  have hsd : ((r.dependsOn.get d).getD Slice.nil).arr ≠ s.arr := by
    intro h
    cases hg : r.dependsOn.get d with
    | none =>
      rw [hg] at h
      exact hsome h.symm
    | some sd =>
      rw [hg] at h
      exact hd (hown d sd hg h)
  refine ⟨?_, ?_, ?_⟩
  · rw [pruneDependent_get]
    simp [hd, hX]
  · rw [pruneDependent_heap]
    apply Slice.elems_congr
    intro a ha
    apply DeleteFunc_heap_other
    rw [← ha]
    exact hsd
  · intro Y s2 hY harr
    rw [pruneDependent_get] at hY
    by_cases hdy : d = Y
    · exfalso
      simp only [hdy, if_true] at hY
      split_ifs at hY
      simp only [Option.some.injEq] at hY
      rw [← hY, DeleteFunc_arr] at harr
      rw [← hdy] at harr
      exact hsd harr
    · simp only [hdy, if_false] at hY
      exact hown Y s2 hY harr

/-- Pruning P from a dependent whose outstanding list holds nothing but P releases
it: the entry goes and the dependent is sent on the ready queue. -/
theorem pruneDependent_releases (P : TaskPtr) (r : run) (X : TaskPtr) (s : Slice) (n : Nat)
    (hX : r.dependsOn.get X = some s)
    (helems : s.elems r.heap = List.replicate (n + 1) P) :
    (pruneDependent P r X).dependsOn.get X = none ∧ X ∈ (pruneDependent P r X).next.sent := by
  have hsome : s.arr ≠ none :=
    Slice.arr_ne_none_of_elems r.heap s (by rw [helems]; simp [List.replicate])
  have hlen : (DeleteFunc r.heap ((r.dependsOn.get X).getD Slice.nil)
      (fun other => decide (other = P))).2.len = 0 := by
    rw [hX]
    simp only [Option.getD_some]
    rw [DeleteFunc_len _ _ _ (fun h => absurd h hsome), helems, filter_ne_replicate]
    rfl
  constructor
  · rw [pruneDependent_get]
    simp [hlen]
  · rw [pruneDependent_sent]
    simp [hlen]

theorem foldl_pruneDependent_releases (P : TaskPtr) (ds : List TaskPtr) (r : run)
    (X : TaskPtr) (s : Slice) (n : Nat)
    (hmem : X ∈ ds)
    (hX : r.dependsOn.get X = some s)
    (helems : s.elems r.heap = List.replicate (n + 1) P)
    (hown : ∀ Y s2, r.dependsOn.get Y = some s2 → s2.arr = s.arr → Y = X) :
    (ds.foldl (pruneDependent P) r).dependsOn.get X = none ∧
      X ∈ (ds.foldl (pruneDependent P) r).next.sent := by
  induction ds generalizing r with
  | nil => cases hmem
  | cons d rest ih =>
    simp only [List.foldl_cons]
    by_cases hd : d = X
    · subst hd
      exact foldl_pruneDependent_released P rest _ d
        (pruneDependent_releases P r d s n hX helems)
    · have hrest : X ∈ rest := by
        rcases List.mem_cons.1 hmem with h | h
        · exact absurd h.symm hd
        · exact h
      have hne : s.elems r.heap ≠ [] := by rw [helems]; simp [List.replicate]
      obtain ⟨h1, h2, h3⟩ := pruneDependent_keeps P r d X s hd hX hne hown
      exact ih _ hrest h1 (by rw [h2]; exact helems) h3

theorem finishTask_core (r : run) (t : TaskPtr) :
    (r.finishTask t).dependsOn =
      (((r.revDependsOn.get t).getD []).foldl (pruneDependent t)
        { r with counter := r.counter.recv }).dependsOn ∧
    (r.finishTask t).heap =
      (((r.revDependsOn.get t).getD []).foldl (pruneDependent t)
        { r with counter := r.counter.recv }).heap ∧
    (r.finishTask t).next.sent =
      (((r.revDependsOn.get t).getD []).foldl (pruneDependent t)
        { r with counter := r.counter.recv }).next.sent := by
  unfold run.finishTask
  simp only
  split_ifs
  · refine ⟨rfl, rfl, ?_⟩
    simp only [Chan.closeOnce]
    split <;> rfl
  · exact ⟨rfl, rfl, rfl⟩

/-- In any state of a run: when the outstanding list of X consists of one or more
occurrences of P only (and shares its backing array with no other outstanding list),
and X is registered as a dependent of P, one pruning of P empties the list, and a
single finishTask(P) leaves X without an entry in the outstanding-prerequisite map and
with X on the ready queue. -/
theorem finishTask_releases (r : run) (X P : TaskPtr) (s : Slice) (n : Nat)
    (hX : r.dependsOn.get X = some s)
    (helems : s.elems r.heap = List.replicate (n + 1) P)
    (hown : ∀ Y s2, r.dependsOn.get Y = some s2 → s2.arr = s.arr → Y = X)
    (hrev : X ∈ (r.revDependsOn.get P).getD []) :
    (DeleteFunc r.heap s (fun other => decide (other = P))).2.len = 0 ∧
    (DeleteFunc r.heap s (fun other => decide (other = P))).2.elems
      (DeleteFunc r.heap s (fun other => decide (other = P))).1 = [] ∧
    (r.finishTask P).dependsOn.get X = none ∧
    X ∈ (r.finishTask P).next.sent := by
  have hsome : s.arr ≠ none :=
    Slice.arr_ne_none_of_elems r.heap s (by rw [helems]; simp [List.replicate])
  refine ⟨?_, ?_, ?_⟩
  · rw [DeleteFunc_len _ _ _ (fun h => absurd h hsome), helems, filter_ne_replicate]
    rfl
  · rw [DeleteFunc_elems, helems, filter_ne_replicate]
  · obtain ⟨h1, _, h3⟩ := finishTask_core r P
    rw [h1, h3]
    exact foldl_pruneDependent_releases P _ { r with counter := r.counter.recv } X s n
      hrev hX helems hown

/-- C10 (witness): the test "panic in task", where the work of task 1 panics with 42. -/
theorem C10_fault_barrier_witness :
    (panicHeap.task 1).Func false = .panics 42 ∧
    ((newRun ⟨⟨0, 0⟩⟩ modeWaitAll none [1, 2] panicHeap).buildDependencies.runTask 1
        [115, 116]).outcomes.sent = [] ++ [⟨1, some (.PanicError (some 42) [115, 116])⟩] :=
  ⟨rfl, ((C10_fault_barrier (newRun ⟨⟨0, 0⟩⟩ modeWaitAll none [1, 2] panicHeap).buildDependencies
    1 [115, 116]).2.1 42 rfl).2⟩

/-! ## The dependency gate -/

theorem GateInv.mono (heap0 : Calls) (done : List TaskPtr) (t : TaskPtr) (r : run)
    (h : GateInv heap0 done r) : GateInv heap0 (t :: done) r := by
  obtain ⟨hA, hB, hC⟩ := h
  refine ⟨?_, ?_, ?_⟩
  · intro X s hs
    refine ⟨(hA X s hs).1, ?_⟩
    intro p hp hnd
    exact (hA X s hs).2 p hp (fun hd => hnd (List.mem_cons_of_mem _ hd))
  · intro X hX p hp
    exact List.mem_cons_of_mem _ (hB X hX p hp)
  · intro t2 L hL X hX hnone p hp
    exact List.mem_cons_of_mem _ (hC t2 L hL X hX hnone p hp)

theorem GateInv.congr (heap0 : Calls) (done : List TaskPtr) (r q : run)
    (hd : r.dependsOn = q.dependsOn) (hh : r.heap = q.heap)
    (hs : r.next.sent = q.next.sent)
    (hr : ∀ t L, r.revDependsOn.get t = some L → q.revDependsOn.get t = some L)
    (h : GateInv heap0 done q) : GateInv heap0 done r := by
  obtain ⟨hA, hB, hC⟩ := h
  refine ⟨?_, ?_, ?_⟩
  · intro X s hXs
    rw [hd] at hXs
    rw [hh]
    exact hA X s hXs
  · intro X hX
    rw [hs] at hX
    exact hB X hX
  · intro t L hL X hX hnone
    rw [hd] at hnone
    exact hC t L (hr t L hL) X hX hnone

/-- When pruning t empties the outstanding list of d, every prerequisite of d is
done. -/
theorem pruneDependent_emptied (heap0 : Calls) (done : List TaskPtr) (t : TaskPtr) (r : run)
    (d : TaskPtr) (h : GateInv heap0 done r) (ht : t ∈ done)
    (hd : r.dependsOn.get d = none → ∀ p ∈ (heap0 d).DependsOn, p ∈ done)
    (hlen : (DeleteFunc r.heap ((r.dependsOn.get d).getD Slice.nil)
      (fun other => decide (other = t))).2.len = 0) :
    ∀ p ∈ (heap0 d).DependsOn, p ∈ done := by
  cases hg : r.dependsOn.get d with
  | none => exact hd hg
  | some sd =>
    rw [hg] at hlen
    simp only [Option.getD_some] at hlen
    obtain ⟨harr, hmem⟩ := h.1 d sd hg
    rw [DeleteFunc_len _ _ _ (fun hn => by rw [harr] at hn; cases hn)] at hlen
    intro p hp
    by_contra hnd
    have hpe : p ∈ sd.elems r.heap := hmem p hp hnd
    have hpt : p ≠ t := fun hpt => hnd (hpt ▸ ht)
    have hpf : p ∈ (sd.elems r.heap).filter (fun x => !decide (x = t)) := by
      rw [List.mem_filter]
      exact ⟨hpe, by simp [hpt]⟩
    rw [List.length_eq_zero] at hlen
    rw [hlen] at hpf
    cases hpf

theorem pruneDependent_gate (heap0 : Calls) (done : List TaskPtr) (t : TaskPtr) (r : run)
    (d : TaskPtr) (h : GateInv heap0 done r) (ht : t ∈ done)
    (hd : r.dependsOn.get d = none → ∀ p ∈ (heap0 d).DependsOn, p ∈ done) :
    GateInv heap0 done (pruneDependent t r d) := by
  have hempt := pruneDependent_emptied heap0 done t r d h ht hd
  obtain ⟨hA, hB, hC⟩ := h
  have hsd : ∀ X, d ≠ X → ((r.dependsOn.get d).getD Slice.nil).arr ≠ some X := by
    intro X hdX
    cases hg : r.dependsOn.get d with
    | none => simp [Slice.nil]
    | some sd =>
      simp only [Option.getD_some]
      rw [(hA d sd hg).1]
      intro heq
      exact hdX (Option.some.inj heq)
  refine ⟨?_, ?_, ?_⟩
  · intro X s hXs
    rw [pruneDependent_get] at hXs
    rw [pruneDependent_heap]
    by_cases hdX : d = X
    · subst hdX
      simp only [if_true] at hXs
      split_ifs at hXs with hlen
      simp only [Option.some.injEq] at hXs
      cases hg : r.dependsOn.get d with
      | none =>
        exfalso
        apply hlen
        rw [hg]
        rfl
      | some sd =>
        rw [hg] at hXs
        simp only [Option.getD_some] at hXs
        obtain ⟨harr, hmem⟩ := hA d sd hg
        constructor
        · rw [← hXs, DeleteFunc_arr]
          exact harr
        · intro p hp hnd
          simp only [Option.getD_some]
          rw [← hXs, DeleteFunc_elems, List.mem_filter]
          refine ⟨hmem p hp hnd, ?_⟩
          have hpt : p ≠ t := fun hpt => hnd (hpt ▸ ht)
          simp [hpt]
    · simp only [hdX, if_false] at hXs
      obtain ⟨harr, hmem⟩ := hA X s hXs
      refine ⟨harr, ?_⟩
      intro p hp hnd
      rw [Slice.elems_congr _ r.heap s]
      · exact hmem p hp hnd
      · intro a ha
        apply DeleteFunc_heap_other
        rw [harr] at ha
        rw [← Option.some.inj ha]
        exact hsd X hdX
  · intro X hX
    rw [pruneDependent_sent] at hX
    split_ifs at hX with hlen
    · rcases List.mem_append.1 hX with hX | hX
      · exact hB X hX
      · rw [List.mem_singleton] at hX
        rw [hX]
        exact hempt hlen
    · exact hB X hX
  · intro t2 L hL X hX hnone
    rw [(pruneDependent_outcomes t r d).2.2.2.1] at hL
    rw [pruneDependent_get] at hnone
    by_cases hdX : d = X
    · subst hdX
      simp only [if_true] at hnone
      split_ifs at hnone with hlen
      exact hempt hlen
    · simp only [hdX, if_false] at hnone
      exact hC t2 L hL X hX hnone

theorem foldl_pruneDependent_gate (heap0 : Calls) (done : List TaskPtr) (t : TaskPtr)
    (ds : List TaskPtr) (r : run) (h : GateInv heap0 done r) (ht : t ∈ done)
    (hds : ∀ d ∈ ds, ∃ t2 L, r.revDependsOn.get t2 = some L ∧ d ∈ L) :
    GateInv heap0 done (ds.foldl (pruneDependent t) r) := by
  induction ds generalizing r with
  | nil => exact h
  | cons d rest ih =>
    simp only [List.foldl_cons]
    apply ih
    · apply pruneDependent_gate heap0 done t r d h ht
      intro hnone
      obtain ⟨t2, L, hL, hdL⟩ := hds d (List.mem_cons_self _ _)
      exact h.2.2 t2 L hL d hdL hnone
    · intro d2 hd2
      rw [(pruneDependent_outcomes t r d).2.2.2.1]
      exact hds d2 (List.mem_cons_of_mem _ hd2)

theorem finishTask_gate (heap0 : Calls) (done : List TaskPtr) (r : run) (t : TaskPtr)
    (h : GateInv heap0 done r) : GateInv heap0 (t :: done) (r.finishTask t) := by
  obtain ⟨h1, h2, h3⟩ := finishTask_core r t
  have hrev := (finishTask_frame r t).2.2.2.1
  have hF : GateInv heap0 (t :: done)
      (((r.revDependsOn.get t).getD []).foldl (pruneDependent t)
        { r with counter := r.counter.recv }) := by
    apply foldl_pruneDependent_gate
    · exact GateInv.mono heap0 done t _ h
    · exact List.mem_cons_self _ _
    · intro d hd
      cases hg : r.revDependsOn.get t with
      | none => rw [hg] at hd; cases hd
      | some L =>
        rw [hg] at hd
        exact ⟨t, L, hg, hd⟩
  apply GateInv.congr heap0 (t :: done) _ _ h1 h2 h3 _ hF
  intro t2 L hL
  rw [hrev, GoMap.get_delete] at hL
  rw [(foldl_pruneDependent_frame t _ _).2.2.2.1]
  by_cases ht2 : t = t2
  · simp [ht2] at hL
  · simp only [ht2, if_false] at hL
    exact hL

theorem finishTasks_gate (heap0 : Calls) (ts done : List TaskPtr) (r : run)
    (h : GateInv heap0 done r) : GateInv heap0 (ts.reverse ++ done) (r.finishTasks ts) := by
  induction ts generalizing r done with
  | nil => exact h
  | cons t rest ih =>
    have := ih (t :: done) (r.finishTask t) (finishTask_gate heap0 done r t h)
    simp only [List.reverse_cons, List.append_assoc, List.singleton_append]
    exact this

/-! ## Building the dependency maps -/

theorem foldl_addDependent (task : TaskPtr) (deps : List TaskPtr) (r : run) :
    (deps.foldl (addDependent task) r).heap = r.heap ∧
    (deps.foldl (addDependent task) r).dependsOn = r.dependsOn ∧
    (deps.foldl (addDependent task) r).next = r.next ∧
    (∀ t L, (deps.foldl (addDependent task) r).revDependsOn.get t = some L →
      ∀ X ∈ L, X = task ∨ ∃ L2, r.revDependsOn.get t = some L2 ∧ X ∈ L2) := by
  induction deps generalizing r with
  | nil =>
    refine ⟨rfl, rfl, rfl, ?_⟩
    intro t L hL X hX
    exact Or.inr ⟨L, hL, hX⟩
  | cons d rest ih =>
    simp only [List.foldl_cons]
    obtain ⟨h1, h2, h3, h4⟩ := ih (addDependent task r d)
    refine ⟨h1, h2, h3, ?_⟩
    intro t L hL X hX
    rcases h4 t L hL X hX with h | ⟨L2, hL2, hX2⟩
    · exact Or.inl h
    · unfold addDependent at hL2
      simp only [GoMap.get_set] at hL2
      by_cases hdt : d = t
      · simp only [hdt, if_true, Option.some.injEq] at hL2
        rw [← hL2] at hX2
        rcases List.mem_append.1 hX2 with hX3 | hX3
        · cases hg : r.revDependsOn.get t with
          | none => rw [hg] at hX3; cases hX3
          | some L3 =>
            rw [hg] at hX3
            exact Or.inr ⟨L3, rfl, hX3⟩
        · exact Or.inl (List.mem_singleton.1 hX3)
      · simp only [hdt, if_false] at hL2
        exact Or.inr ⟨L2, hL2, hX2⟩

theorem buildTask_inv (heap0 : Calls) (r : run) (task : TaskPtr) (h : BuildInv heap0 r) :
    BuildInv heap0 (buildTask r task) := by
  obtain ⟨hh, hD, hS, hR⟩ := h
  have hlenEq : (r.heap.task task).DependsOn.len = (heap0 task).DependsOn.length := by
    rw [hh]; exact ofCalls_len heap0 task
  unfold buildTask
  simp only
  split_ifs with hlen
  · refine ⟨hh, hD, ?_, hR⟩
    intro X hX
    simp only [Chan.send] at hX
    rcases List.mem_append.1 hX with hX | hX
    · exact hS X hX
    · rw [List.mem_singleton.1 hX]
      exact List.length_eq_zero.1 (by rw [← hlenEq]; exact hlen)
  · obtain ⟨h1, h2, h3, h4⟩ := foldl_addDependent task ((r.heap.task task).DependsOn.elems r.heap)
      { r with dependsOn := r.dependsOn.set task (r.heap.task task).DependsOn }
    refine ⟨by rw [h1]; exact hh, ?_, ?_, ?_⟩
    · intro X s hXs
      rw [h2] at hXs
      simp only [GoMap.get_set] at hXs
      by_cases htX : task = X
      · subst htX
        simp only [if_true, Option.some.injEq] at hXs
        rw [← hXs, hh]
        exact ofCalls_header heap0 task (by rw [← hlenEq]; exact hlen)
      · simp only [htX, if_false] at hXs
        exact hD X s hXs
    · intro X hX
      rw [h3] at hX
      exact hS X hX
    · intro t L hL X hX
      rw [h2]
      simp only [GoMap.get_set]
      by_cases htX : task = X
      · simp [htX]
      · simp only [htX, if_false]
        rcases h4 t L hL X hX with h | ⟨L2, hL2, hX2⟩
        · exact absurd h.symm htX
        · exact hR t L2 hL2 X hX2

theorem foldl_buildTask_inv (heap0 : Calls) (ts : List TaskPtr) (r : run)
    (h : BuildInv heap0 r) : BuildInv heap0 (ts.foldl buildTask r) := by
  induction ts generalizing r with
  | nil => exact h
  | cons t rest ih =>
    simp only [List.foldl_cons]
    exact ih _ (buildTask_inv heap0 r t h)

theorem buildDependencies_inv (tp : TaskPool) (m : mode) (ctx : error)
    (tasks : List TaskPtr) (heap0 : Calls) :
    BuildInv heap0 (newRun tp m ctx tasks (Heap.ofCalls heap0)).buildDependencies := by
  unfold run.buildDependencies
  apply foldl_buildTask_inv
  refine ⟨rfl, ?_, ?_, ?_⟩
  · intro X s hXs
    simp [newRun, GoMap.get] at hXs
  · intro X hX
    simp [newRun, Chan.make] at hX
  · intro t L hL
    simp [newRun, GoMap.get] at hL

theorem BuildInv.gate (heap0 : Calls) (r : run) (h : BuildInv heap0 r) :
    GateInv heap0 [] r := by
  obtain ⟨hh, hD, hS, hR⟩ := h
  refine ⟨?_, ?_, ?_⟩
  · intro X s hXs
    have hs := hD X s hXs
    subst hs
    refine ⟨rfl, ?_⟩
    intro p hp _
    rw [hh, ofCalls_elems]
    exact hp
  · intro X hX p hp
    rw [hS X hX] at hp
    cases hp
  · intro t L hL X hX hnone
    exact absurd hnone (hR t L hL X hX)

/-- The dependency gate for tasks with arrays of their own: when every task has been made
by a call of `NewTask` with its prerequisites written out, then after buildDependencies
and finishTask applied to any sequence of tasks, a task that is on the ready queue has
had finishTask run for every task of its DependsOn list. -/
theorem dependency_gate_ofCalls (tp : TaskPool) (m : mode) (ctx : error)
    (tasks : List TaskPtr) (heap0 : Calls) (order : List TaskPtr) (X : TaskPtr)
    (hready : X ∈ ((newRun tp m ctx tasks (Heap.ofCalls heap0)).buildDependencies.finishTasks
      order).next.sent) :
    ∀ p ∈ (heap0 X).DependsOn, p ∈ order := by
  have h := finishTasks_gate heap0 order [] _
    (BuildInv.gate heap0 _ (buildDependencies_inv tp m ctx tasks heap0))
  intro p hp
  have := h.2.1 X hready p hp
  simpa using this

/-- The test "order of tasks" as an instance of `dependency_gate_ofCalls`: task 2 depends
on task 1 and is submitted first; it is on the ready queue once finishTask has run for
task 1. -/
theorem dependency_gate_orderHeap :
    2 ∈ ((newRun ⟨⟨0, 0⟩⟩ modeWaitAll none [2, 1] orderHeap).buildDependencies.finishTasks
      [1]).next.sent ∧
    ∀ p ∈ (orderCalls 2).DependsOn, p ∈ [1] :=
  ⟨by decide,
    dependency_gate_ofCalls ⟨⟨0, 0⟩⟩ modeWaitAll none [2, 1] orderCalls [1] 2 (by decide)⟩

/-! ## Defects found by evaluation -/

/-- C2 (failing input): tasks 1 and 2, task 2 listing task 1 twice. The set is acyclic,
the tasks are distinct and every prerequisite is a member. After buildDependencies the
ready queue holds task 1; finishTask(1) then sends task 2 on the ready queue twice (the
second pass over the dependents of task 1 finds no entry for task 2, reads the nil
slice, whose length is 0, and sends again), so task 2 is dispatched twice: running
every task taken from the queue posts two outcomes for task 2. -/
theorem C2_duplicate_prerequisite_enqueued_twice :
    dupRun.next.sent = [1] ∧
    (dupRun.revDependsOn.get 1).getD [] = [2, 2] ∧
    (dupRun.finishTask 1).next.sent = [1, 2, 2] ∧
    (dupRun.finishTask 1).next.sent.count 2 = 2 ∧
    (dupRun.runTask 1 []).next.sent = [1, 2, 2] ∧
    ((((dupRun.runTask 1 []).runTask 2 []).runTask 2 []).outcomes.sent.map
      (fun out => out.task)) = [1, 2, 2] := by
  decide

/-- C3 (failing input): task 3 built by NewTask(fn, task1, task2). Before the run its
DependsOn is [task1, task2]; finishTask(task1) prunes the slice the run shares with the
task, which leaves [task2, nil] in the task; after finishTask(task2) it is [nil, nil].
A second run over the same tasks then registers task 3 as waiting for nil: task 3 is
never sent on the ready queue and the queue is never closed. -/
theorem C3_run_overwrites_DependsOn :
    joinRun.heap.deps 3 = [1, 2] ∧
    (joinRun.finishTask 1).heap.deps 3 = [2, nilTask] ∧
    (joinRun.finishTasks [1, 2]).heap.deps 3 = [nilTask, nilTask] ∧
    (joinRun.finishTasks [1, 2]).next.sent = [1, 2, 3] ∧
    ((newRun ⟨⟨0, 0⟩⟩ modeWaitAll none [1, 2, 3]
      (joinRun.finishTasks [1, 2, 3]).heap).buildDependencies.finishTasks
        [1, 2]).next.sent = [1, 2] ∧
    ((newRun ⟨⟨0, 0⟩⟩ modeWaitAll none [1, 2, 3]
      (joinRun.finishTasks [1, 2, 3]).heap).buildDependencies.finishTasks
        [1, 2]).next.closedAt = none := by
  decide

/-! ## Registered dependents -/

/-- The outstanding lists after one pruning pass, in terms of the lists before. -/
theorem pruneDependent_elems (t : TaskPtr) (r : run) (d : TaskPtr)
    (hown : ∀ X s, r.dependsOn.get X = some s → s.arr = some X)
    (X : TaskPtr) (s : Slice) (hXs : (pruneDependent t r d).dependsOn.get X = some s) :
    ∃ s0, r.dependsOn.get X = some s0 ∧
      s.elems (pruneDependent t r d).heap =
        if d = X then (s0.elems r.heap).filter (fun x => !decide (x = t))
        else s0.elems r.heap := by
  rw [pruneDependent_get] at hXs
  rw [pruneDependent_heap]
  by_cases hdX : d = X
  · subst hdX
    simp only [if_true] at hXs ⊢
    split_ifs at hXs with hlen
    simp only [Option.some.injEq] at hXs
    cases hg : r.dependsOn.get d with
    | none =>
      exfalso
      apply hlen
      rw [hg]
      rfl
    | some sd =>
      refine ⟨sd, rfl, ?_⟩
      rw [hg] at hXs
      simp only [Option.getD_some] at hXs ⊢
      rw [← hXs, DeleteFunc_elems]
  · simp only [hdX, if_false] at hXs ⊢
    refine ⟨s, hXs, ?_⟩
    apply Slice.elems_congr
    intro a ha
    apply DeleteFunc_heap_other
    rw [hown X s hXs] at ha
    rw [← Option.some.inj ha]
    cases hg : r.dependsOn.get d with
    | none => simp [Slice.nil]
    | some sd =>
      simp only [Option.getD_some]
      rw [hown d sd hg]
      intro heq
      exact hdX (Option.some.inj heq)

theorem foldl_pruneDependent_rev (heap0 : Calls) (done : List TaskPtr) (t : TaskPtr)
    (ds : List TaskPtr) (r : run) (h : GateInv heap0 done r) (ht : t ∈ done)
    (hds : ∀ d ∈ ds, ∃ t2 L, r.revDependsOn.get t2 = some L ∧ d ∈ L)
    (hrev : RevInv r)
    (hJ : ∀ X s, r.dependsOn.get X = some s → t ∈ s.elems r.heap → X ∈ ds) :
    RevInv (ds.foldl (pruneDependent t) r) ∧
    ∀ X s, (ds.foldl (pruneDependent t) r).dependsOn.get X = some s →
      t ∉ s.elems (ds.foldl (pruneDependent t) r).heap := by
  induction ds generalizing r with
  | nil =>
    refine ⟨hrev, ?_⟩
    intro X s hXs hmem
    cases hJ X s hXs hmem
  | cons d rest ih =>
    simp only [List.foldl_cons]
    have hown : ∀ X s, r.dependsOn.get X = some s → s.arr = some X :=
      fun X s hXs => (h.1 X s hXs).1
    apply ih
    · apply pruneDependent_gate heap0 done t r d h ht
      intro hnone
      obtain ⟨t2, L, hL, hdL⟩ := hds d (List.mem_cons_self _ _)
      exact h.2.2 t2 L hL d hdL hnone
    · intro d2 hd2
      rw [(pruneDependent_outcomes t r d).2.2.2.1]
      exact hds d2 (List.mem_cons_of_mem _ hd2)
    · intro X s hXs p hp
      rw [(pruneDependent_outcomes t r d).2.2.2.1]
      obtain ⟨s0, hs0, hel⟩ := pruneDependent_elems t r d hown X s hXs
      rw [hel] at hp
      apply hrev X s0 hs0
      split_ifs at hp
      · exact (List.mem_filter.1 hp).1
      · exact hp
    · intro X s hXs hmem
      obtain ⟨s0, hs0, hel⟩ := pruneDependent_elems t r d hown X s hXs
      rw [hel] at hmem
      by_cases hdX : d = X
      · simp only [hdX, if_true, List.mem_filter] at hmem
        simp at hmem
      · simp only [hdX, if_false] at hmem
        rcases List.mem_cons.1 (hJ X s0 hs0 hmem) with hX | hX
        · exact absurd hX.symm hdX
        · exact hX

theorem finishTask_rev (heap0 : Calls) (done : List TaskPtr) (r : run) (t : TaskPtr)
    (h : GateInv heap0 done r) (hrev : RevInv r) : RevInv (r.finishTask t) := by
  obtain ⟨h1, h2, _⟩ := finishTask_core r t
  have hrevEq := (finishTask_frame r t).2.2.2.1
  obtain ⟨hF, hJ⟩ := foldl_pruneDependent_rev heap0 (t :: done) t
    ((r.revDependsOn.get t).getD []) { r with counter := r.counter.recv }
    (GateInv.mono heap0 done t _ h) (List.mem_cons_self _ _)
    (by
      intro d hd
      cases hg : r.revDependsOn.get t with
      | none => rw [hg] at hd; cases hd
      | some L =>
        rw [hg] at hd
        exact ⟨t, L, hg, hd⟩)
    hrev
    (by
      intro X s hXs hmem
      exact hrev X s hXs t hmem)
  intro X s hXs p hp
  rw [h1] at hXs
  rw [h2] at hp
  have hpt : t ≠ p := fun hpt => hJ X s hXs (hpt ▸ hp)
  rw [hrevEq, GoMap.get_delete]
  simp only [hpt, if_false]
  have := hF X s hXs p hp
  rw [(foldl_pruneDependent_frame t _ _).2.2.2.1] at this
  exact this

theorem addDependent_getD (task : TaskPtr) (r : run) (d p : TaskPtr) :
    ((addDependent task r d).revDependsOn.get p).getD [] =
      if d = p then (r.revDependsOn.get p).getD [] ++ [task]
      else (r.revDependsOn.get p).getD [] := by
  unfold addDependent
  simp only [GoMap.get_set]
  by_cases hdp : d = p
  · simp [hdp]
  · simp [hdp]

theorem foldl_addDependent_mono (task : TaskPtr) (deps : List TaskPtr) (r : run)
    (p X : TaskPtr) (h : X ∈ (r.revDependsOn.get p).getD []) :
    X ∈ ((deps.foldl (addDependent task) r).revDependsOn.get p).getD [] := by
  induction deps generalizing r with
  | nil => exact h
  | cons d rest ih =>
    simp only [List.foldl_cons]
    apply ih
    rw [addDependent_getD]
    split_ifs
    · exact List.mem_append_left _ h
    · exact h

theorem foldl_addDependent_mem (task : TaskPtr) (deps : List TaskPtr) (r : run)
    (p : TaskPtr) (h : p ∈ deps) :
    task ∈ ((deps.foldl (addDependent task) r).revDependsOn.get p).getD [] := by
  induction deps generalizing r with
  | nil => cases h
  | cons d rest ih =>
    simp only [List.foldl_cons]
    by_cases hdp : d = p
    · apply foldl_addDependent_mono
      rw [addDependent_getD]
      simp [hdp]
    · rcases List.mem_cons.1 h with h | h
      · exact absurd h.symm hdp
      · exact ih _ h

theorem buildTask_rev (heap0 : Calls) (r : run) (task : TaskPtr) (h : BuildInv heap0 r)
    (hrev : RevInv r) : RevInv (buildTask r task) := by
  have hb := buildTask_inv heap0 r task h
  obtain ⟨hh, hD, _, _⟩ := h
  intro X s hXs p hp
  have hs := hb.2.1 X s hXs
  rw [hb.1] at hp
  revert hXs hp
  unfold buildTask
  simp only
  split_ifs with hlen
  · intro hXs hp
    have := hrev X s hXs p
    rw [hh] at this
    exact this hp
  · obtain ⟨_, h2, _, _⟩ := foldl_addDependent task ((r.heap.task task).DependsOn.elems r.heap)
      { r with dependsOn := r.dependsOn.set task (r.heap.task task).DependsOn }
    intro hXs hp
    rw [h2] at hXs
    simp only [GoMap.get_set] at hXs
    by_cases htX : task = X
    · subst htX
      apply foldl_addDependent_mem
      simp only [if_true, Option.some.injEq] at hXs
      rw [hXs, hh]
      exact hp
    · simp only [htX, if_false] at hXs
      apply foldl_addDependent_mono
      have := hrev X s hXs p
      rw [hh] at this
      exact this hp

theorem foldl_buildTask_rev (heap0 : Calls) (ts : List TaskPtr) (r : run)
    (h : BuildInv heap0 r) (hrev : RevInv r) : RevInv (ts.foldl buildTask r) := by
  induction ts generalizing r with
  | nil => exact hrev
  | cons t rest ih =>
    simp only [List.foldl_cons]
    exact ih _ (buildTask_inv heap0 r t h) (buildTask_rev heap0 r t h hrev)

theorem buildDependencies_rev (tp : TaskPool) (m : mode) (ctx : error)
    (tasks : List TaskPtr) (heap0 : Calls) :
    RevInv (newRun tp m ctx tasks (Heap.ofCalls heap0)).buildDependencies := by
  unfold run.buildDependencies
  apply foldl_buildTask_rev heap0
  · refine ⟨rfl, ?_, ?_, ?_⟩
    · intro X s hXs
      simp [newRun, GoMap.get] at hXs
    · intro X hX
      simp [newRun, Chan.make] at hX
    · intro t L hL
      simp [newRun, GoMap.get] at hL
  · intro X s hXs
    simp [newRun, GoMap.get] at hXs

theorem finishTasks_reach (heap0 : Calls) (ts done : List TaskPtr) (r : run)
    (h : GateInv heap0 done r) (hrev : RevInv r) :
    GateInv heap0 (ts.reverse ++ done) (r.finishTasks ts) ∧ RevInv (r.finishTasks ts) := by
  induction ts generalizing r done with
  | nil => exact ⟨h, hrev⟩
  | cons t rest ih =>
    have := ih (t :: done) (r.finishTask t) (finishTask_gate heap0 done r t h)
      (finishTask_rev heap0 done r t h hrev)
    simp only [List.reverse_cons, List.append_assoc, List.singleton_append]
    exact this

/-- Duplicate prerequisites collapse for tasks with arrays of their own: when every task
has been made by a call of `NewTask` with its prerequisites written out, then in every
state reached from buildDependencies by finishTask calls, for every task X whose
outstanding list consists only of one or more occurrences of the same task P, one pruning
of P empties the list, and a single finishTask(P) leaves X without an outstanding list
and with X on the ready queue. -/
theorem duplicates_collapse_ofCalls (tp : TaskPool) (m : mode) (ctx : error)
    (tasks : List TaskPtr) (heap0 : Calls) (order : List TaskPtr)
    (X P : TaskPtr) (s : Slice) (n : Nat)
    (hX : ((newRun tp m ctx tasks (Heap.ofCalls heap0)).buildDependencies.finishTasks
      order).dependsOn.get X = some s)
    (helems : s.elems ((newRun tp m ctx tasks (Heap.ofCalls heap0)).buildDependencies.finishTasks
      order).heap = List.replicate (n + 1) P) :
    (DeleteFunc ((newRun tp m ctx tasks (Heap.ofCalls heap0)).buildDependencies.finishTasks
      order).heap s (fun other => decide (other = P))).2.len = 0 ∧
    (((newRun tp m ctx tasks (Heap.ofCalls heap0)).buildDependencies.finishTasks
      order).finishTask P).dependsOn.get X = none ∧
    X ∈ (((newRun tp m ctx tasks (Heap.ofCalls heap0)).buildDependencies.finishTasks
      order).finishTask P).next.sent := by
  obtain ⟨hG, hR⟩ := finishTasks_reach heap0 order [] _
    (BuildInv.gate heap0 _ (buildDependencies_inv tp m ctx tasks heap0))
    (buildDependencies_rev tp m ctx tasks heap0)
  have hrel := finishTask_releases _ X P s n hX helems
    (by
      intro Y s2 hY harr
      rw [(hG.1 Y s2 hY).1, (hG.1 X s hX).1] at harr
      exact Option.some.inj harr)
    (hR X s hX P (by rw [helems]; simp [List.replicate]))
  exact ⟨hrel.1, hrel.2.2.1, hrel.2.2.2⟩

/-- The test "with dependencies" as an instance of `duplicates_collapse_ofCalls`: task 2
lists task 1 twice; one finishTask(1) releases it. -/
theorem duplicates_collapse_dupHeap :
    ((newRun ⟨⟨0, 0⟩⟩ modeWaitAll none [1, 2] dupHeap).buildDependencies.finishTasks
      []).dependsOn.get 2 = some ⟨some 2, 0, 2⟩ ∧
    Slice.elems ((newRun ⟨⟨0, 0⟩⟩ modeWaitAll none [1, 2] dupHeap).buildDependencies.finishTasks
      []).heap ⟨some 2, 0, 2⟩ = List.replicate (1 + 1) 1 ∧
    (((newRun ⟨⟨0, 0⟩⟩ modeWaitAll none [1, 2] dupHeap).buildDependencies.finishTasks
      []).finishTask 1).dependsOn.get 2 = none ∧
    2 ∈ (((newRun ⟨⟨0, 0⟩⟩ modeWaitAll none [1, 2] dupHeap).buildDependencies.finishTasks
      []).finishTask 1).next.sent :=
  ⟨by decide, by decide,
    (duplicates_collapse_ofCalls ⟨⟨0, 0⟩⟩ modeWaitAll none [1, 2] dupCalls [] 2 1
      ⟨some 2, 0, 2⟩ 1 (by decide) (by decide)).2⟩

/-! ## error.go: the query methods -/

theorem GoMap.get_eq_none_of_not_mem {β : Type} (m : GoMap β) (k : TaskPtr)
    (h : ∀ v, (k, v) ∉ m) : m.get k = none := by
  cases hg : m.get k with
  | none => rfl
  | some v => exact absurd (GoMap.get_of_mem m k v hg) (h v)

theorem GoMap.get_of_mem_nodup {β : Type} (m : GoMap β) (k : TaskPtr) (v : β)
    (hnd : (m.map Prod.fst).Nodup) (h : (k, v) ∈ m) : m.get k = some v := by
  induction m with
  | nil => cases h
  | cons e rest ih =>
    obtain ⟨k3, v3⟩ := e
    simp only [List.map_cons, List.nodup_cons] at hnd
    simp only [GoMap.get]
    rcases List.mem_cons.1 h with h | h
    · cases h
      simp
    · have hne : k3 ≠ k := by
        intro heq
        apply hnd.1
        rw [heq, List.mem_map]
        exact ⟨(k, v), h, rfl⟩
      simp only [hne, if_false]
      exact ih hnd.2 h

/-- C13: GetResult(t) is the error stored in Errors under t (the value of the entry of
t, and the value just assigned to t), and is nil when t has no entry: in the empty map
(as which a nil map reads), and when only another task has an entry, even one whose
struct has the same fields. -/
theorem C13_GetResult_exact_lookup (r : Result) (t : TaskPtr) :
    (∀ e, (r.Errors.map Prod.fst).Nodup → (t, e) ∈ r.Errors → r.GetResult t = e) ∧
    (∀ e, ({ r with Errors := r.Errors.set t e } : Result).GetResult t = e) ∧
    ((∀ e, (t, e) ∉ r.Errors) → r.GetResult t = none) ∧
    (({ r with Errors := [] } : Result).GetResult t = none) ∧
    (({ r with Errors := r.Errors.delete t } : Result).GetResult t = none) ∧
    (∀ (heap : Heap) (t2 : TaskPtr) (e : error), t2 ≠ t → heap.task t2 = heap.task t →
      ({ r with Errors := r.Errors.set t2 e } : Result).GetResult t = r.GetResult t ∧
      (Result.mk [(t2, e)] r.Combined).GetResult t = none) := by
  refine ⟨?_, ?_, ?_, ?_, ?_, ?_⟩
  · intro e hnd hmem
    unfold Result.GetResult
    rw [GoMap.get_of_mem_nodup _ _ _ hnd hmem]
    rfl
  · intro e
    unfold Result.GetResult
    simp only [GoMap.get_set, if_true]
    rfl
  · intro h
    unfold Result.GetResult
    rw [GoMap.get_eq_none_of_not_mem _ _ h]
    rfl
  · rfl
  · unfold Result.GetResult
    simp only [GoMap.get_delete, if_true]
    rfl
  · intro heap t2 e hne _
    unfold Result.GetResult
    constructor
    · simp only [GoMap.get_set, hne, if_false]
    · simp [GoMap.get, hne]

/-- C14 (counterexample): a nil `*PanicError` is a `*PanicError`, yet `As` does not
return true for it: the call panics when it writes through the pointer. -/
theorem C14_As_nil_pointer_counterexample :
    PanicError.As ⟨some 42, [1]⟩ (.panicErrorPtr none) = none ∧
    PanicError.As ⟨some 42, [1]⟩ (.panicErrorPtr none) ≠ some (true, .panicErrorPtr none) := by
  decide

/-- C14 (amended): for every PanicError e and every target v other than a nil
`*PanicError`, e.As(v) returns; it returns true exactly when v is a (non-nil)
`*PanicError`, and then the variable pointed at holds e.Val and e.Stack; for any other
target it returns false and leaves the target as it was. -/
theorem C14_As_type_matching (e : PanicError) (v : Target)
    (hv : v ≠ .panicErrorPtr none) :
    ∃ res v2, e.As v = some (res, v2) ∧
      (res = true ↔ ∃ cell, v = .panicErrorPtr (some cell)) ∧
      (res = true → ∃ cell, v2 = .panicErrorPtr (some cell) ∧
        cell.Val = e.Val ∧ cell.Stack = e.Stack) ∧
      (res = false → v2 = v) := by
  cases v with
  | nilInterface =>
    refine ⟨false, .nilInterface, rfl, ?_, ?_, ?_⟩
    · simp
    · intro h; cases h
    · intro _; rfl
  | panicErrorPtr cell =>
    cases cell with
    | none => exact absurd rfl hv
    | some c =>
      refine ⟨true, .panicErrorPtr (some { c with Val := e.Val, Stack := e.Stack }), rfl,
        ?_, ?_, ?_⟩
      · simp
      · intro _
        exact ⟨_, rfl, rfl, rfl⟩
      · intro h; cases h
  | other tag =>
    refine ⟨false, .other tag, rfl, ?_, ?_, ?_⟩
    · simp
    · intro h; cases h
    · intro _; rfl

/-- C14 (witness): the test "other panic error": a PanicError with Val 42 copied into
a zero PanicError variable. -/
theorem C14_As_type_matching_witness :
    Target.panicErrorPtr (some ⟨none, []⟩) ≠ .panicErrorPtr none ∧
    ∃ res v2, PanicError.As ⟨some 42, []⟩ (.panicErrorPtr (some ⟨none, []⟩)) = some (res, v2) ∧
      (res = true ↔ ∃ cell, Target.panicErrorPtr (some ⟨none, []⟩) = .panicErrorPtr (some cell)) :=
  ⟨by decide, by
    obtain ⟨res, v2, h1, h2, _⟩ := C14_As_type_matching ⟨some 42, []⟩
      (.panicErrorPtr (some ⟨none, []⟩)) (by decide)
    exact ⟨res, v2, h1, h2⟩⟩

/-- C15: for every Result, Unwrap is Combined, and Error is the empty string when
Combined is nil and otherwise the Error of Combined; so the Result is matched by
errors.Is exactly as its Combined is. -/
theorem C15_Result_delegates (r : Result) :
    r.Unwrap = r.Combined ∧
    (r.Combined = none → r.Error = "") ∧
    (∀ c, r.Combined = some c → r.Error = c.Error) ∧
    (∀ c target, r.Combined = some c → r.Is target = c.is target) ∧
    (r.Combined = none → ∀ target, r.Is target = false) := by
  refine ⟨rfl, ?_, ?_, ?_, ?_⟩
  · intro h
    unfold Result.Error
    rw [h]
  · intro c h
    unfold Result.Error
    rw [h]
  · intro c target h
    unfold Result.Is Result.Unwrap
    rw [h]
  · intro h target
    unfold Result.Is Result.Unwrap
    rw [h]

theorem setError_of_set (r : Result) (e : error) (h : r.Combined ≠ none) :
    r.setError e = r := by
  unfold Result.setError
  simp [h]

theorem foldl_setError_of_set (r : Result) (es : List Err) (h : r.Combined ≠ none) :
    es.foldl (fun acc x => acc.setError (some x)) r = r := by
  induction es with
  | nil => rfl
  | cons a rest ih =>
    simp only [List.foldl_cons]
    rw [setError_of_set r (some a) h]
    exact ih

/-- C19: setError leaves a Result whose Combined is non-nil untouched (Combined and
Errors), and sets a nil Combined to the error given, Errors untouched; hence after any
sequence of setError calls with non-nil errors on a Result whose Combined was nil,
Combined is the first of them. -/
theorem C19_setError_first_write_wins (r : Result) (e : error) :
    (r.Combined ≠ none →
      (r.setError e).Combined = r.Combined ∧ (r.setError e).Errors = r.Errors) ∧
    (r.Combined = none →
      (r.setError e).Combined = e ∧ (r.setError e).Errors = r.Errors) ∧
    (∀ (e1 : Err) (es : List Err), r.Combined = none →
      ((e1 :: es).foldl (fun acc x => acc.setError (some x)) r).Combined = some e1 ∧
      ((e1 :: es).foldl (fun acc x => acc.setError (some x)) r).Errors = r.Errors) ∧
    (∀ es : List Err, r.Combined ≠ none →
      es.foldl (fun acc x => acc.setError (some x)) r = r) := by
  refine ⟨?_, ?_, ?_, ?_⟩
  · intro h
    rw [setError_of_set r e h]
    exact ⟨rfl, rfl⟩
  · intro h
    unfold Result.setError
    simp [h]
  · intro e1 es h
    simp only [List.foldl_cons]
    have h1 : (r.setError (some e1)).Combined = some e1 := by
      unfold Result.setError
      simp [h]
    have h2 : (r.setError (some e1)).Errors = r.Errors := by
      unfold Result.setError
      simp [h]
    rw [foldl_setError_of_set _ es (by rw [h1]; simp)]
    exact ⟨h1, h2⟩
  · intro es h
    exact foldl_setError_of_set r es h

/-! ## run.go: what the run leaves untouched -/

theorem foldl_addDependent_frame (task : TaskPtr) (deps : List TaskPtr) (r : run) :
    (deps.foldl (addDependent task) r).counter = r.counter ∧
    (deps.foldl (addDependent task) r).cancelled = r.cancelled ∧
    (deps.foldl (addDependent task) r).ctxErr = r.ctxErr ∧
    (deps.foldl (addDependent task) r).outcomes = r.outcomes ∧
    (deps.foldl (addDependent task) r).wg = r.wg ∧
    (deps.foldl (addDependent task) r).result = r.result ∧
    (deps.foldl (addDependent task) r).tasks = r.tasks ∧
    (deps.foldl (addDependent task) r).next.closedAt = r.next.closedAt := by
  induction deps generalizing r with
  | nil => exact ⟨rfl, rfl, rfl, rfl, rfl, rfl, rfl, rfl⟩
  | cons d rest ih =>
    simp only [List.foldl_cons]
    exact ih (addDependent task r d)

theorem buildTask_frame (r : run) (task : TaskPtr) :
    (buildTask r task).counter = r.counter ∧
    (buildTask r task).cancelled = r.cancelled ∧
    (buildTask r task).ctxErr = r.ctxErr ∧
    (buildTask r task).outcomes = r.outcomes ∧
    (buildTask r task).wg = r.wg ∧
    (buildTask r task).result = r.result ∧
    (buildTask r task).tasks = r.tasks ∧
    (buildTask r task).next.closedAt = r.next.closedAt := by
  unfold buildTask
  simp only
  split_ifs
  · exact ⟨rfl, rfl, rfl, rfl, rfl, rfl, rfl, rfl⟩
  · exact foldl_addDependent_frame task _ _

theorem foldl_buildTask_frame (ts : List TaskPtr) (r : run) :
    (ts.foldl buildTask r).counter = r.counter ∧
    (ts.foldl buildTask r).cancelled = r.cancelled ∧
    (ts.foldl buildTask r).ctxErr = r.ctxErr ∧
    (ts.foldl buildTask r).outcomes = r.outcomes ∧
    (ts.foldl buildTask r).wg = r.wg ∧
    (ts.foldl buildTask r).result = r.result ∧
    (ts.foldl buildTask r).tasks = r.tasks ∧
    (ts.foldl buildTask r).next.closedAt = r.next.closedAt := by
  induction ts generalizing r with
  | nil => exact ⟨rfl, rfl, rfl, rfl, rfl, rfl, rfl, rfl⟩
  | cons t rest ih =>
    simp only [List.foldl_cons]
    obtain ⟨h1, h2, h3, h4, h5, h6, h7, h8⟩ := ih (buildTask r t)
    obtain ⟨g1, g2, g3, g4, g5, g6, g7, g8⟩ := buildTask_frame r t
    exact ⟨h1.trans g1, h2.trans g2, h3.trans g3, h4.trans g4, h5.trans g5, h6.trans g6,
      h7.trans g7, h8.trans g8⟩

theorem buildDependencies_frame (r : run) :
    r.buildDependencies.counter = r.counter ∧
    r.buildDependencies.cancelled = r.cancelled ∧
    r.buildDependencies.ctxErr = r.ctxErr ∧
    r.buildDependencies.outcomes = r.outcomes ∧
    r.buildDependencies.wg = r.wg ∧
    r.buildDependencies.result = r.result ∧
    r.buildDependencies.tasks = r.tasks ∧
    r.buildDependencies.next.closedAt = r.next.closedAt :=
  foldl_buildTask_frame r.tasks r

/-! ## run.go: the semaphore -/

theorem manyTasks_length (n : Nat) : (manyTasks n).length = n := by
  unfold manyTasks
  exact List.length_replicate n 1

theorem createSemaphoreChannel_cap (tp : TaskPool) (tasks : List TaskPtr) :
    (createSemaphoreChannel tp tasks).cap =
      if tp.config.MaxConcurrency = 0 then tasks.length % 2 ^ 32
      else tp.config.MaxConcurrency := rfl

theorem createSemaphoreChannel_overflow :
    (createSemaphoreChannel ⟨⟨0, 0⟩⟩ (manyTasks (2 ^ 32))).cap = 0 := by
  rw [createSemaphoreChannel_cap, if_pos rfl, manyTasks_length]
  exact Nat.mod_self _

theorem buildDependencies_overflow (m : mode) (ctx : error) (heap : Heap) :
    (newRun ⟨⟨0, 0⟩⟩ m ctx (manyTasks (2 ^ 32)) heap).buildDependencies.counter.cap = 0 := by
  rw [(buildDependencies_frame _).1]
  exact createSemaphoreChannel_overflow

theorem step_dispatch_cap_zero (R : run) (running : List TaskPtr) (h : R.counter.cap = 0) :
    Sched.step ⟨R, running⟩ .dispatch = none := by
  unfold Sched.step
  dsimp only
  cases R.next.peek with
  | none => rfl
  | some t => simp [h]

/-- C20 (failing input): with MaxConcurrency 0 and a task list of 2^32 entries the
conversion uint32(len(tasks)) yields 0, so the semaphore is created with capacity 0
instead of 4294967296, and no task can ever be dispatched; with 2^32 + 5 entries the
capacity is 5. In general the capacity is MaxConcurrency when that is non-zero and
len(tasks) modulo 2^32 otherwise, which is the number of tasks only below 2^32. -/
theorem C20_semaphore_capacity_truncated :
    (manyTasks (2 ^ 32)).length = 4294967296 ∧
    (createSemaphoreChannel ⟨⟨0, 0⟩⟩ (manyTasks (2 ^ 32))).cap = 0 ∧
    (createSemaphoreChannel ⟨⟨0, 0⟩⟩ (manyTasks (2 ^ 32 + 5))).cap = 5 ∧
    (∀ m ctx heap, Sched.step
      ⟨(newRun ⟨⟨0, 0⟩⟩ m ctx (manyTasks (2 ^ 32)) heap).buildDependencies, []⟩ .dispatch
        = none) ∧
    (∀ (tp : TaskPool) (tasks : List TaskPtr),
      (tp.config.MaxConcurrency ≠ 0 →
        (createSemaphoreChannel tp tasks).cap = tp.config.MaxConcurrency) ∧
      (tp.config.MaxConcurrency = 0 →
        (createSemaphoreChannel tp tasks).cap = tasks.length % 2 ^ 32) ∧
      (tp.config.MaxConcurrency = 0 → tasks.length < 2 ^ 32 →
        (createSemaphoreChannel tp tasks).cap = tasks.length)) := by
  refine ⟨manyTasks_length _, createSemaphoreChannel_overflow, ?_, ?_, ?_⟩
  · rw [createSemaphoreChannel_cap, if_pos rfl, manyTasks_length, Nat.add_mod_left]
    exact Nat.mod_eq_of_lt (by norm_num)
  · intro m ctx heap
    exact step_dispatch_cap_zero _ _ (buildDependencies_overflow m ctx heap)
  · intro tp tasks
    refine ⟨?_, ?_, ?_⟩
    · intro h
      rw [createSemaphoreChannel_cap, if_neg h]
    · intro h
      rw [createSemaphoreChannel_cap, if_pos h]
    · intro h hlt
      rw [createSemaphoreChannel_cap, if_pos h]
      exact Nat.mod_eq_of_lt hlt

/-! ## run.go: a run without tasks -/

/-- C11 (counterexample): with a timeout configured, the select of the driver may
take the timeout branch before it sees the closed outcome stream of the run without
tasks; the driver then returns a Result with ErrTimeout, not nil, in each of the three
modes. -/
theorem C11_zero_tasks_timeout_counterexample :
    timeoutPool.timeout = true ∧
    (newRun timeoutPool modeWaitAll none [] noDeps).loop [] [.timeout]
      = some (some ⟨[], some ErrTimeout⟩) ∧
    (newRun timeoutPool modeAbortFirst none [] noDeps).loop [] [.timeout]
      = some (some ⟨[], some ErrTimeout⟩) ∧
    (newRun timeoutPool modeAbortFirstWait none [] noDeps).loop [] [.timeout]
      = some (some ⟨[], some ErrTimeout⟩) := by
  decide

/-- C11 (amended): in every mode, `start` over an empty task list returns at once,
whatever the schedule: it builds no dependency state, sends nothing on the ready
queue, posts no outcome and closes the semaphore and the outcome stream; the driver
returns nil when its select sees the closed stream, and returns a Result with
ErrTimeout only when a timeout is configured and its branch is taken first. -/
theorem C11_zero_tasks (tp : TaskPool) (m : mode) (ctx : error) (heap : Heap)
    (acts : List Action) (errs : List error) (rest : List Selected) :
    (∃ r2, (newRun tp m ctx [] heap).start acts = some r2 ∧
      r2.dependsOn = [] ∧ r2.revDependsOn = [] ∧ r2.next.sent = [] ∧
      r2.outcomes.sent = [] ∧ r2.outcomes.closed = true ∧ r2.counter.closed = true ∧
      r2.result = newResult) ∧
    (newRun tp m ctx [] heap).loop errs (.closed :: rest) = some none ∧
    (tp.timeout = false → (newRun tp m ctx [] heap).loop errs (.timeout :: rest) = none) ∧
    (tp.timeout = true → (newRun tp m ctx [] heap).loop errs (.timeout :: rest)
      = some (some ⟨[], some ErrTimeout⟩)) := by
  refine ⟨⟨(newRun tp m ctx [] heap).closeAll, rfl, rfl, rfl, rfl, rfl, rfl, rfl, rfl⟩,
    rfl, ?_, ?_⟩
  · intro h
    simp [run.loop, newRun, h]
  · intro h
    simp [run.loop, newRun, h, Result.setError, Result.build, newResult]

/-! ## run.go: the dispatch loop -/

theorem pruneDependent_ctxErr (t : TaskPtr) (r : run) (d : TaskPtr) :
    (pruneDependent t r d).ctxErr = r.ctxErr := by
  unfold pruneDependent
  simp only
  split_ifs <;> rfl

theorem foldl_pruneDependent_ctxErr (t : TaskPtr) (ds : List TaskPtr) (r : run) :
    (ds.foldl (pruneDependent t) r).ctxErr = r.ctxErr := by
  induction ds generalizing r with
  | nil => rfl
  | cons d rest ih =>
    simp only [List.foldl_cons]
    rw [ih, pruneDependent_ctxErr]

theorem finishTask_ctxErr (r : run) (t : TaskPtr) : (r.finishTask t).ctxErr = r.ctxErr := by
  unfold run.finishTask
  simp only
  split_ifs
  · exact foldl_pruneDependent_ctxErr t _ _
  · exact foldl_pruneDependent_ctxErr t _ _

theorem runTask_frame (r : run) (t : TaskPtr) (stack : List Nat) :
    (r.runTask t stack).counter = r.counter.recv ∧
    (r.runTask t stack).cancelled = r.cancelled ∧
    (r.runTask t stack).ctxErr = r.ctxErr := by
  unfold run.runTask
  cases (r.heap.task t).Func r.cancelled with
  | returns e =>
    simp only
    exact ⟨(finishTask_frame _ t).2.2.1, (finishTask_frame _ t).2.2.2.2.2.2,
      finishTask_ctxErr _ t⟩
  | panics v =>
    simp only
    exact ⟨(finishTask_frame _ t).2.2.1, (finishTask_frame _ t).2.2.2.2.2.2,
      finishTask_ctxErr _ t⟩

theorem dispatch_live (r : run) (task : TaskPtr) (h : r.cancelled = false) :
    r.dispatch task = ({ r with counter := r.counter.send (), wg := r.wg + 1 }, true) := by
  unfold run.dispatch
  simp [h]

theorem dispatch_done (r : run) (task : TaskPtr) (h : r.cancelled = true) :
    r.dispatch task =
      (run.finishTask
        { r with counter := r.counter.send (), wg := r.wg + 1,
                 outcomes := r.outcomes.send ⟨task, some r.ctxErr⟩ } task, false) := by
  unfold run.dispatch
  simp [h]

theorem dispatch_frame (r : run) (task : TaskPtr) :
    (r.dispatch task).1.cancelled = r.cancelled ∧
    (r.dispatch task).1.ctxErr = r.ctxErr ∧
    (r.dispatch task).1.counter.cap = r.counter.cap := by
  cases h : r.cancelled with
  | false =>
    rw [dispatch_live r task h]
    exact ⟨h, rfl, rfl⟩
  | true =>
    rw [dispatch_done r task h]
    refine ⟨?_, ?_, ?_⟩
    · rw [(finishTask_frame _ task).2.2.2.2.2.2]
      exact h
    · rw [finishTask_ctxErr]
    · rw [(finishTask_frame _ task).2.2.1]
      rfl

theorem step_done (s s2 : Sched) (a : Action) (hc : s.r.cancelled = true)
    (h : s.step a = some s2) :
    s2.r.cancelled = true ∧ s2.r.ctxErr = s.r.ctxErr ∧ s2.running.Sublist s.running ∧
    (s.running = [] →
      s2.r.outcomes.sent = s.r.outcomes.sent ∨
      ∃ t, s2.r.outcomes.sent = s.r.outcomes.sent ++ [⟨t, some s.r.ctxErr⟩]) := by
  cases a with
  | dispatch =>
    unfold Sched.step at h
    dsimp only at h
    cases hp : s.r.next.peek with
    | none => rw [hp] at h; cases h
    | some task =>
      rw [hp] at h
      dsimp only at h
      have hc2 : ({ s.r with next := s.r.next.recv } : run).cancelled = true := hc
      rw [dispatch_done _ task hc2] at h
      simp only [Bool.false_eq_true, if_false] at h
      split_ifs at h with hcap
      simp only [Option.some.injEq] at h
      subst h
      refine ⟨?_, ?_, List.Sublist.refl _, ?_⟩
      · dsimp only
        rw [(finishTask_frame _ task).2.2.2.2.2.2]
        exact hc
      · dsimp only
        rw [finishTask_ctxErr]
      · intro _
        right
        refine ⟨task, ?_⟩
        dsimp only
        rw [(finishTask_frame _ task).1]
        rfl
  | complete t stack =>
    unfold Sched.step at h
    dsimp only at h
    split_ifs at h with ht
    simp only [Option.some.injEq] at h
    subst h
    obtain ⟨_, h2, h3⟩ := runTask_frame s.r t stack
    refine ⟨by rw [h2]; exact hc, h3, List.erase_sublist _ _, ?_⟩
    intro hempty
    rw [hempty] at ht
    cases ht
  | cancel cause =>
    unfold Sched.step at h
    dsimp only at h
    rw [hc] at h
    simp only [if_true, Option.some.injEq] at h
    subst h
    exact ⟨hc, rfl, List.Sublist.refl _, fun _ => Or.inl rfl⟩

theorem steps_done (acts : List Action) (s s2 : Sched) (hc : s.r.cancelled = true)
    (h : s.steps acts = some s2) :
    s2.r.cancelled = true ∧ s2.r.ctxErr = s.r.ctxErr ∧ s2.running.Sublist s.running ∧
    (s.running = [] → ∃ ts : List TaskPtr,
      s2.r.outcomes.sent =
        s.r.outcomes.sent ++ ts.map (fun t => (⟨t, some s.r.ctxErr⟩ : outcome))) := by
  induction acts generalizing s with
  | nil =>
    simp only [Sched.steps, Option.some.injEq] at h
    subst h
    exact ⟨hc, rfl, List.Sublist.refl _, fun _ => ⟨[], by simp⟩⟩
  | cons a rest ih =>
    simp only [Sched.steps] at h
    cases hs : s.step a with
    | none => rw [hs] at h; cases h
    | some s1 =>
      rw [hs] at h
      dsimp only at h
      obtain ⟨g1, g2, g3, g4⟩ := step_done s s1 a hc hs
      obtain ⟨k1, k2, k3, k4⟩ := ih s1 g1 h
      refine ⟨k1, k2.trans g2, k3.trans g3, ?_⟩
      intro hempty
      have h1empty : s1.running = [] := by
        rw [hempty] at g3
        exact List.sublist_nil.1 g3
      obtain ⟨ts, hts⟩ := k4 h1empty
      rw [g2] at hts
      rcases g4 hempty with g | ⟨t, g⟩
      · exact ⟨ts, by rw [hts, g]⟩
      · exact ⟨t :: ts, by rw [hts, g]; simp⟩

theorem step_ctxErr (s s2 : Sched) (a : Action) (e : Err)
    (ha : ∀ c, a = .cancel c → c = e) (he : s.r.ctxErr = e) (h : s.step a = some s2) :
    s2.r.ctxErr = e := by
  cases a with
  | dispatch =>
    unfold Sched.step at h
    dsimp only at h
    cases hp : s.r.next.peek with
    | none => rw [hp] at h; cases h
    | some task =>
      rw [hp] at h
      dsimp only at h
      split_ifs at h with hcap hd <;>
      · simp only [Option.some.injEq] at h
        subst h
        dsimp only
        rw [(dispatch_frame _ task).2.1]
        exact he
  | complete t stack =>
    unfold Sched.step at h
    dsimp only at h
    split_ifs at h with ht
    simp only [Option.some.injEq] at h
    subst h
    dsimp only
    rw [(runTask_frame s.r t stack).2.2]
    exact he
  | cancel cause =>
    unfold Sched.step at h
    dsimp only at h
    split_ifs at h with hc
    · simp only [Option.some.injEq] at h
      subst h
      exact he
    · simp only [Option.some.injEq] at h
      subst h
      exact ha cause rfl

theorem steps_ctxErr (acts : List Action) (s s2 : Sched) (e : Err)
    (ha : ∀ c, Action.cancel c ∈ acts → c = e) (he : s.r.ctxErr = e)
    (h : s.steps acts = some s2) : s2.r.ctxErr = e := by
  induction acts generalizing s with
  | nil =>
    simp only [Sched.steps, Option.some.injEq] at h
    subst h
    exact he
  | cons a rest ih =>
    simp only [Sched.steps] at h
    cases hs : s.step a with
    | none => rw [hs] at h; cases h
    | some s1 =>
      rw [hs] at h
      dsimp only at h
      apply ih s1 (fun c hc => ha c (List.mem_cons_of_mem _ hc)) _ h
      apply step_ctxErr s s1 a e _ he hs
      intro c hc
      apply ha c
      rw [hc]
      exact List.mem_cons_self _ _

/-- C17 (counterexample): when the caller's context has ended by its deadline, the
context of the run is done with context.DeadlineExceeded, and the outcome that the
dispatch step posts for task 1 carries that error, not context.Canceled. -/
theorem C17_deadline_error_counterexample :
    (newRun ⟨⟨0, 0⟩⟩ modeWaitAll (some DeadlineExceeded) [1] noDeps).buildDependencies.cancelled
      = true ∧
    ((Sched.mk (newRun ⟨⟨0, 0⟩⟩ modeWaitAll (some DeadlineExceeded) [1]
        noDeps).buildDependencies []).steps [.dispatch]).map
      (fun s => (s.r.outcomes.sent, s.running))
      = some ([⟨1, some DeadlineExceeded⟩], []) ∧
    DeadlineExceeded ≠ Canceled := by
  decide

/-- C17 (amended): for every task taken from the ready queue while the context of the
run is done, the dispatch step starts no goroutine for the task (its work is not
called, whatever it is), posts exactly one outcome for it, whose error is the error of
the context, and is finishTask for it; the context stays done with the same error, so
every later step starts no task either, and with nothing in flight every outcome
posted later carries the error of the context as well. That error is context.Canceled
when the caller's context was live or cancelled at the start and every later
cancellation has the cause context.Canceled. -/
theorem C17_cancellation_short_circuit (r : run) (task : TaskPtr)
    (hc : r.cancelled = true) :
    (r.dispatch task).2 = false ∧
    (r.dispatch task).1 =
      run.finishTask
        { r with counter := r.counter.send (), wg := r.wg + 1,
                 outcomes := r.outcomes.send ⟨task, some r.ctxErr⟩ } task ∧
    (r.dispatch task).1.outcomes.sent = r.outcomes.sent ++ [⟨task, some r.ctxErr⟩] ∧
    (∀ f : Func,
      (({ r with heap :=
          ⟨Function.update r.heap.task task ⟨f, (r.heap.task task).DependsOn⟩, r.heap.arr⟩ } :
        run).dispatch task).1.outcomes = (r.dispatch task).1.outcomes) ∧
    (r.dispatch task).1.cancelled = true ∧
    (r.dispatch task).1.ctxErr = r.ctxErr ∧
    (∀ (running : List TaskPtr) (acts : List Action) (s2 : Sched),
      (Sched.mk (r.dispatch task).1 running).steps acts = some s2 →
        s2.r.cancelled = true ∧ s2.r.ctxErr = r.ctxErr ∧ s2.running.Sublist running ∧
        (running = [] → ∃ ts : List TaskPtr,
          s2.r.outcomes.sent = (r.dispatch task).1.outcomes.sent ++
            ts.map (fun t => (⟨t, some r.ctxErr⟩ : outcome)))) ∧
    (∀ (tp : TaskPool) (m : mode) (ctx : error) (tasks : List TaskPtr) (heap : Heap)
      (acts : List Action) (s2 : Sched),
      (ctx = none ∨ ctx = some Canceled) →
      (∀ c, Action.cancel c ∈ acts → c = Canceled) →
      (Sched.mk (newRun tp m ctx tasks heap).buildDependencies []).steps acts = some s2 →
        s2.r.ctxErr = Canceled) := by
  have hd := dispatch_done r task hc
  have hcan : (r.dispatch task).1.cancelled = true := by
    rw [(dispatch_frame r task).1]; exact hc
  have herr : (r.dispatch task).1.ctxErr = r.ctxErr := (dispatch_frame r task).2.1
  refine ⟨by rw [hd], by rw [hd], ?_, ?_, hcan, herr, ?_, ?_⟩
  · rw [hd]
    dsimp only
    rw [(finishTask_frame _ task).1]
    rfl
  · intro f
    have hd2 := dispatch_done
      ({ r with heap :=
          ⟨Function.update r.heap.task task ⟨f, (r.heap.task task).DependsOn⟩, r.heap.arr⟩ } : run)
      task hc
    rw [hd, hd2]
    dsimp only
    rw [(finishTask_frame _ task).1, (finishTask_frame _ task).1]
  · intro running acts s2 h
    obtain ⟨k1, k2, k3, k4⟩ := steps_done acts ⟨(r.dispatch task).1, running⟩ s2 hcan h
    dsimp only at k2 k3 k4
    rw [herr] at k2 k4
    exact ⟨k1, k2, k3, k4⟩
  · intro tp m ctx tasks heap acts s2 hctx hacts h
    apply steps_ctxErr acts _ s2 Canceled hacts _ h
    dsimp only
    rw [(buildDependencies_frame _).2.2.1]
    rcases hctx with h | h <;> rw [h] <;> rfl

/-- C17 (witness): the chain of the test "don't start tasks if already aborted" once
the context is cancelled: dispatching task 1 posts context.Canceled for it and releases
task 2, whose dispatch does the same for task 3; no task is started. -/
theorem C17_cancellation_short_circuit_witness :
    (newRun ⟨⟨0, 0⟩⟩ modeAbortFirstWait (some Canceled) [1, 2, 3]
      chainHeap).buildDependencies.cancelled = true ∧
    ((newRun ⟨⟨0, 0⟩⟩ modeAbortFirstWait (some Canceled) [1, 2, 3]
      chainHeap).buildDependencies.dispatch 1).2 = false ∧
    ((Sched.mk (newRun ⟨⟨0, 0⟩⟩ modeAbortFirstWait (some Canceled) [1, 2, 3]
        chainHeap).buildDependencies []).steps [.dispatch, .dispatch, .dispatch]).map
      (fun s => (s.r.outcomes.sent, s.running, s.r.next.sent))
      = some ([⟨1, some Canceled⟩, ⟨2, some Canceled⟩, ⟨3, some Canceled⟩], [], [1, 2, 3]) :=
  ⟨by decide,
    (C17_cancellation_short_circuit
      (newRun ⟨⟨0, 0⟩⟩ modeAbortFirstWait (some Canceled) [1, 2, 3] chainHeap).buildDependencies
      1 (by decide)).1,
    by decide⟩

/-! ## run.go: the bound on concurrency -/

theorem dispatch_counter (r : run) (task : TaskPtr) :
    ((r.dispatch task).2 = true →
      (r.dispatch task).1.counter.recvd = r.counter.recvd ∧
      (r.dispatch task).1.counter.sent.length = r.counter.sent.length + 1) ∧
    ((r.dispatch task).2 = false →
      (r.dispatch task).1.counter.recvd = r.counter.recvd + 1 ∧
      (r.dispatch task).1.counter.sent.length = r.counter.sent.length + 1) := by
  cases h : r.cancelled with
  | false =>
    rw [dispatch_live r task h]
    refine ⟨fun _ => ⟨rfl, ?_⟩, fun hf => by cases hf⟩
    simp [Chan.send]
  | true =>
    rw [dispatch_done r task h]
    refine ⟨fun hf => (by cases hf), fun _ => ?_⟩
    dsimp only
    rw [(finishTask_frame _ task).2.2.1]
    simp [Chan.send, Chan.recv]

/-- One step keeps the count of the semaphore equal to the number of running tasks,
and within the capacity. -/
theorem step_tokens (s s2 : Sched) (a : Action)
    (hinv : s.r.counter.recvd + s.running.length = s.r.counter.sent.length ∧
      s.running.length ≤ s.r.counter.cap)
    (h : s.step a = some s2) :
    (s2.r.counter.recvd + s2.running.length = s2.r.counter.sent.length ∧
      s2.running.length ≤ s2.r.counter.cap) ∧
    s2.r.counter.cap = s.r.counter.cap := by
  obtain ⟨htok, hcapb⟩ := hinv
  cases a with
  | dispatch =>
    unfold Sched.step at h
    dsimp only at h
    cases hp : s.r.next.peek with
    | none => rw [hp] at h; cases h
    | some task =>
      rw [hp] at h
      dsimp only at h
      split_ifs at h with hcap hd
      · simp only [Option.some.injEq] at h
        subst h
        dsimp only
        obtain ⟨g1, g2⟩ := (dispatch_counter { s.r with next := s.r.next.recv } task).1 hd
        have g3 := (dispatch_frame { s.r with next := s.r.next.recv } task).2.2
        dsimp only at g1 g2 g3
        unfold Chan.pending at hcap
        refine ⟨⟨?_, ?_⟩, g3⟩
        · rw [g1, g2, List.length_cons]
          omega
        · rw [g3, List.length_cons]
          omega
      · simp only [Option.some.injEq] at h
        subst h
        dsimp only
        have hd2 : (run.dispatch { s.r with next := s.r.next.recv } task).2 = false := by
          simpa using hd
        obtain ⟨g1, g2⟩ := (dispatch_counter { s.r with next := s.r.next.recv } task).2 hd2
        have g3 := (dispatch_frame { s.r with next := s.r.next.recv } task).2.2
        dsimp only at g1 g2 g3
        refine ⟨⟨?_, ?_⟩, g3⟩
        · rw [g1, g2]
          omega
        · rw [g3]
          exact hcapb
  | complete t stack =>
    unfold Sched.step at h
    dsimp only at h
    split_ifs at h with ht
    simp only [Option.some.injEq] at h
    subst h
    dsimp only
    have g1 := (runTask_frame s.r t stack).1
    have hpos : 0 < s.running.length := List.length_pos_of_mem ht
    rw [g1, List.length_erase_of_mem ht]
    refine ⟨⟨?_, ?_⟩, rfl⟩
    · simp only [Chan.recv]
      omega
    · simp only [Chan.recv]
      omega
  | cancel cause =>
    unfold Sched.step at h
    dsimp only at h
    split_ifs at h with hc
    · simp only [Option.some.injEq] at h
      subst h
      exact ⟨⟨htok, hcapb⟩, rfl⟩
    · simp only [Option.some.injEq] at h
      subst h
      exact ⟨⟨htok, hcapb⟩, rfl⟩

theorem steps_tokens (acts : List Action) (s s2 : Sched)
    (hinv : s.r.counter.recvd + s.running.length = s.r.counter.sent.length ∧
      s.running.length ≤ s.r.counter.cap)
    (h : s.steps acts = some s2) :
    (s2.r.counter.recvd + s2.running.length = s2.r.counter.sent.length ∧
      s2.running.length ≤ s2.r.counter.cap) ∧
    s2.r.counter.cap = s.r.counter.cap := by
  induction acts generalizing s with
  | nil =>
    simp only [Sched.steps, Option.some.injEq] at h
    subst h
    exact ⟨hinv, rfl⟩
  | cons a rest ih =>
    simp only [Sched.steps] at h
    cases hs : s.step a with
    | none => rw [hs] at h; cases h
    | some s1 =>
      rw [hs] at h
      dsimp only at h
      obtain ⟨g1, g2⟩ := step_tokens s s1 a hinv hs
      obtain ⟨k1, k2⟩ := ih s1 g1 h
      exact ⟨k1, k2.trans g2⟩

/-- C12: with MaxConcurrency N > 0, in every state reached from buildDependencies by
dispatch steps (which take a slot of the semaphore and cannot be taken while it is
full), completions of running tasks (whose finishTask gives the slot back) and
cancellations, the number of tasks dispatched and not yet finished is the number of
slots taken and is at most N; with N = 1 a dispatch step can only be taken when no
task dispatched before is still running. -/
theorem C12_concurrency_bound (tp : TaskPool) (m : mode) (ctx : error)
    (tasks : List TaskPtr) (heap : Heap) (acts : List Action) (s : Sched)
    (hN : tp.config.MaxConcurrency ≠ 0)
    (hs : (Sched.mk (newRun tp m ctx tasks heap).buildDependencies []).steps acts = some s) :
    s.running.length ≤ tp.config.MaxConcurrency ∧
    s.r.counter.pending = s.running.length ∧
    s.r.counter.cap = tp.config.MaxConcurrency ∧
    (tp.config.MaxConcurrency = 1 → ∀ s2, s.step .dispatch = some s2 → s.running = []) := by
  have hc0 : (newRun tp m ctx tasks heap).buildDependencies.counter
      = createSemaphoreChannel tp tasks := (buildDependencies_frame _).1
  have hcap0 : (createSemaphoreChannel tp tasks).cap = tp.config.MaxConcurrency := by
    rw [createSemaphoreChannel_cap, if_neg hN]
  obtain ⟨⟨h1, h2⟩, h3⟩ := steps_tokens acts _ s
    (by
      dsimp only
      rw [hc0]
      exact ⟨rfl, Nat.zero_le _⟩) hs
  dsimp only at h3
  rw [hc0, hcap0] at h3
  rw [h3] at h2
  have hpend : s.r.counter.pending = s.running.length := by
    unfold Chan.pending
    omega
  refine ⟨h2, hpend, h3, ?_⟩
  intro h1N s2 hstep
  unfold Sched.step at hstep
  dsimp only at hstep
  cases hp : s.r.next.peek with
  | none => rw [hp] at hstep; cases hstep
  | some task =>
    rw [hp] at hstep
    dsimp only at hstep
    by_cases hcap : s.r.counter.pending < s.r.counter.cap
    · rw [hpend, h3, h1N] at hcap
      exact List.length_eq_zero.1 (by omega)
    · rw [if_neg hcap] at hstep
      cases hstep

/-- C12 (witness): the test "with max concurrency": with MaxConcurrency 1 and two
independent tasks, after task 1 has been dispatched it is the one running task and
task 2 cannot be dispatched until task 1 has completed. -/
theorem C12_concurrency_bound_witness :
    (TaskPool.mk ⟨1, 0⟩).config.MaxConcurrency ≠ 0 ∧
    ((Sched.mk (newRun ⟨⟨1, 0⟩⟩ modeWaitAll none [1, 2] noDeps).buildDependencies []).steps
      [.dispatch]).map (fun s => s.running) = some [1] ∧
    ((Sched.mk (newRun ⟨⟨1, 0⟩⟩ modeWaitAll none [1, 2] noDeps).buildDependencies []).steps
      [.dispatch, .dispatch]).map (fun s => s.running) = none ∧
    ((Sched.mk (newRun ⟨⟨1, 0⟩⟩ modeWaitAll none [1, 2] noDeps).buildDependencies []).steps
      [.dispatch, .complete 1 [], .dispatch]).map (fun s => s.running) = some [2] ∧
    ∀ s, (Sched.mk (newRun ⟨⟨1, 0⟩⟩ modeWaitAll none [1, 2] noDeps).buildDependencies []).steps
      [.dispatch] = some s → s.running.length ≤ 1 :=
  ⟨by decide, by decide, by decide, by decide, fun s hs =>
    (C12_concurrency_bound ⟨⟨1, 0⟩⟩ modeWaitAll none [1, 2] noDeps [.dispatch] s
      (by decide) hs).1⟩

/-! ## The outstanding lists throughout a run -/

theorem pruneDependent_lists (heap0 : Calls) (tasks done : List TaskPtr) (t : TaskPtr)
    (r : run) (d : TaskPtr)
    (hown : ∀ X s, r.dependsOn.get X = some s → s.arr = some X)
    (h : ListInv heap0 tasks done r) :
    ListInv heap0 tasks done (pruneDependent t r d) := by
  refine ⟨?_, ?_, ?_, ?_, ?_⟩
  · intro X s hXs
    obtain ⟨s0, hs0, _⟩ := pruneDependent_elems t r d hown X s hXs
    exact h.keys X s0 hs0
  · intro X s hXs p hp
    obtain ⟨s0, hs0, hel⟩ := pruneDependent_elems t r d hown X s hXs
    rw [hel] at hp
    apply h.sub X s0 hs0
    split_ifs at hp
    · exact (List.mem_filter.1 hp).1
    · exact hp
  · intro X s hXs
    obtain ⟨s0, hs0, hel⟩ := pruneDependent_elems t r d hown X s hXs
    rw [hel]
    by_cases hdX : d = X
    · subst hdX
      simp only [if_true]
      rw [pruneDependent_get] at hXs
      simp only [if_true] at hXs
      split_ifs at hXs with hlen
      rw [hs0] at hlen
      simp only [Option.getD_some] at hlen
      rw [DeleteFunc_len _ _ _ (fun hn => by rw [hown d s0 hs0] at hn; cases hn)] at hlen
      intro hnil
      apply hlen
      rw [hnil]
      rfl
    · simp only [hdX, if_false]
      exact h.nonempty X s0 hs0
  · intro X hX hdeps
    rcases h.entry X hX hdeps with ⟨s0, hs0⟩ | hsent
    · by_cases hdX : d = X
      · subst hdX
        by_cases hlen : (DeleteFunc r.heap ((r.dependsOn.get d).getD Slice.nil)
            (fun other => decide (other = t))).2.len = 0
        · right
          rw [pruneDependent_sent, if_pos hlen]
          simp
        · left
          refine ⟨(DeleteFunc r.heap ((r.dependsOn.get d).getD Slice.nil)
            (fun other => decide (other = t))).2, ?_⟩
          rw [pruneDependent_get]
          simp only [if_true, hlen, if_false]
      · left
        refine ⟨s0, ?_⟩
        rw [pruneDependent_get]
        simp only [hdX, if_false]
        exact hs0
    · exact Or.inr (pruneDependent_sent_mono t r d X hsent)
  · intro X hX hdeps
    exact pruneDependent_sent_mono t r d X (h.free X hX hdeps)

theorem foldl_pruneDependent_lists (heap0 : Calls) (tasks done0 done : List TaskPtr)
    (t : TaskPtr) (ds : List TaskPtr) (r : run)
    (hg : GateInv heap0 done0 r) (ht : t ∈ done0)
    (hds : ∀ d ∈ ds, ∃ t2 L, r.revDependsOn.get t2 = some L ∧ d ∈ L)
    (h : ListInv heap0 tasks done r) :
    ListInv heap0 tasks done (ds.foldl (pruneDependent t) r) := by
  induction ds generalizing r with
  | nil => exact h
  | cons d rest ih =>
    simp only [List.foldl_cons]
    apply ih
    · apply pruneDependent_gate heap0 done0 t r d hg ht
      intro hnone
      obtain ⟨t2, L, hL, hdL⟩ := hds d (List.mem_cons_self _ _)
      exact hg.2.2 t2 L hL d hdL hnone
    · intro d2 hd2
      rw [(pruneDependent_outcomes t r d).2.2.2.1]
      exact hds d2 (List.mem_cons_of_mem _ hd2)
    · exact pruneDependent_lists heap0 tasks done t r d (fun X s hXs => (hg.1 X s hXs).1) h

theorem foldl_pruneDependent_sent (t : TaskPtr) (ds : List TaskPtr) (r : run) :
    ∃ l : List TaskPtr, (ds.foldl (pruneDependent t) r).next.sent = r.next.sent ++ l ∧
      l.length ≤ ds.length := by
  induction ds generalizing r with
  | nil => exact ⟨[], by simp, Nat.le_refl _⟩
  | cons d rest ih =>
    simp only [List.foldl_cons]
    obtain ⟨l, hl, hlen⟩ := ih (pruneDependent t r d)
    rw [pruneDependent_sent] at hl
    split_ifs at hl
    · refine ⟨d :: l, ?_, ?_⟩
      · rw [hl]; simp
      · simp only [List.length_cons]; omega
    · refine ⟨l, hl, ?_⟩
      simp only [List.length_cons]; omega

theorem foldl_pruneDependent_closedAt (t : TaskPtr) (ds : List TaskPtr) (r : run) :
    (ds.foldl (pruneDependent t) r).next.closedAt = r.next.closedAt := by
  induction ds generalizing r with
  | nil => rfl
  | cons d rest ih =>
    simp only [List.foldl_cons]
    rw [ih, pruneDependent_closedAt]

theorem finishTask_closedAt (r : run) (t : TaskPtr) :
    (r.finishTask t).next.closedAt =
      if (r.finishTask t).dependsOn.len = 0 then
        (match r.next.closedAt with
          | none => some (r.finishTask t).next.sent.length
          | some n => some n)
      else r.next.closedAt := by
  unfold run.finishTask
  simp only
  split_ifs with h1
  · simp only [Chan.closeOnce, foldl_pruneDependent_closedAt]
    cases hc : r.next.closedAt with
    | none => simp [hc]
    | some n =>
      simp only [hc]
      rw [foldl_pruneDependent_closedAt]
      exact hc
  · exact foldl_pruneDependent_closedAt t _ _

theorem finishTask_sent (r : run) (t : TaskPtr) :
    ∃ l : List TaskPtr, (r.finishTask t).next.sent = r.next.sent ++ l ∧
      l.length ≤ ((r.revDependsOn.get t).getD []).length := by
  obtain ⟨_, _, h3⟩ := finishTask_core r t
  rw [h3]
  exact foldl_pruneDependent_sent t _ _

theorem finishTasks_sent (ts : List TaskPtr) (r : run) :
    ∃ l : List TaskPtr, (r.finishTasks ts).next.sent = r.next.sent ++ l := by
  induction ts generalizing r with
  | nil => exact ⟨[], by simp [run.finishTasks]⟩
  | cons t rest ih =>
    obtain ⟨l1, h1, _⟩ := finishTask_sent r t
    obtain ⟨l2, h2⟩ := ih (r.finishTask t)
    refine ⟨l1 ++ l2, ?_⟩
    have : run.finishTasks r (t :: rest) = run.finishTasks (r.finishTask t) rest := rfl
    rw [this, h2, h1, List.append_assoc]

theorem GoMap.eq_nil_of_len {β : Type} (m : GoMap β) (h : m.len = 0) : m = [] := by
  cases m with
  | nil => rfl
  | cons a rest => simp [GoMap.len] at h

theorem GoMap.eq_nil_of_get {β : Type} (m : GoMap β) (h : ∀ k, m.get k = none) : m = [] := by
  cases m with
  | nil => rfl
  | cons a rest =>
    obtain ⟨k, v⟩ := a
    have := h k
    simp [GoMap.get] at this

theorem revSize_delete (m : GoMap (List TaskPtr)) (k : TaskPtr) :
    revSize (m.delete k) + ((m.get k).getD []).length ≤ revSize m := by
  induction m with
  | nil => simp [GoMap.delete, GoMap.get, revSize]
  | cons e rest ih =>
    obtain ⟨k3, v⟩ := e
    unfold GoMap.delete revSize at ih ⊢
    simp only [ne_eq] at ih
    by_cases h3 : k3 = k
    · subst h3
      simp only [List.filter, ne_eq, not_true_eq_false, decide_False, GoMap.get, if_true,
        Option.getD_some, List.map_cons, List.sum_cons]
      omega
    · simp only [List.filter, ne_eq, h3, not_false_eq_true, decide_True, GoMap.get, if_false,
        List.map_cons, List.sum_cons]
      omega

theorem revSize_set (m : GoMap (List TaskPtr)) (k : TaskPtr) (task : TaskPtr) :
    revSize (m.set k ((m.get k).getD [] ++ [task])) ≤ revSize m + 1 := by
  have h := revSize_delete m k
  unfold GoMap.set
  unfold revSize at h ⊢
  simp only [List.map_cons, List.sum_cons, List.length_append, List.length_singleton]
  omega

/-! ## The invariant of a run -/

theorem listInv_congr (heap0 : Calls) (tasks done : List TaskPtr) (r r2 : run)
    (h1 : r2.dependsOn = r.dependsOn) (h2 : r2.heap = r.heap)
    (h3 : r2.next.sent = r.next.sent) (h : ListInv heap0 tasks done r) :
    ListInv heap0 tasks done r2 := by
  refine ⟨?_, ?_, ?_, ?_, ?_⟩
  · intro X s hXs
    rw [h1] at hXs
    exact h.keys X s hXs
  · intro X s hXs p hp
    rw [h1] at hXs
    rw [h2] at hp
    exact h.sub X s hXs p hp
  · intro X s hXs
    rw [h1] at hXs
    rw [h2]
    exact h.nonempty X s hXs
  · intro X hX hdeps
    rw [h1, h3]
    exact h.entry X hX hdeps
  · intro X hX hdeps
    rw [h3]
    exact h.free X hX hdeps

theorem finishTask_dependents (r : run) (t : TaskPtr) :
    ∀ d ∈ (r.revDependsOn.get t).getD [], ∃ t2 L, r.revDependsOn.get t2 = some L ∧ d ∈ L := by
  intro d hd
  cases hg : r.revDependsOn.get t with
  | none => rw [hg] at hd; cases hd
  | some L =>
    rw [hg] at hd
    exact ⟨t, L, hg, hd⟩

theorem finishTask_lists (heap0 : Calls) (tasks done : List TaskPtr) (r : run) (t : TaskPtr)
    (hg : GateInv heap0 done r) (hrev : RevInv r) (h : ListInv heap0 tasks done r) :
    ListInv heap0 tasks (t :: done) (r.finishTask t) := by
  obtain ⟨h1, h2, h3⟩ := finishTask_core r t
  have hds := finishTask_dependents r t
  have hgm : GateInv heap0 (t :: done) ({ r with counter := r.counter.recv } : run) :=
    GateInv.mono heap0 done t _ hg
  have hL : ListInv heap0 tasks done
      (((r.revDependsOn.get t).getD []).foldl (pruneDependent t)
        { r with counter := r.counter.recv }) :=
    foldl_pruneDependent_lists heap0 tasks (t :: done) done t _ _ hgm
      (List.mem_cons_self _ _) hds ⟨h.keys, h.sub, h.nonempty, h.entry, h.free⟩
  obtain ⟨_, hJ⟩ := foldl_pruneDependent_rev heap0 (t :: done) t
    ((r.revDependsOn.get t).getD []) { r with counter := r.counter.recv }
    hgm (List.mem_cons_self _ _) hds hrev
    (fun X s hXs hmem => hrev X s hXs t hmem)
  have hL2 := listInv_congr heap0 tasks done _ (r.finishTask t) h1 h2 h3 hL
  refine ⟨hL2.keys, ?_, hL2.nonempty, hL2.entry, hL2.free⟩
  intro X s hXs p hp
  obtain ⟨hp1, hp2⟩ := hL2.sub X s hXs p hp
  refine ⟨hp1, ?_⟩
  intro hmem
  rcases List.mem_cons.1 hmem with hpt | hpd
  · subst hpt
    rw [h1] at hXs
    rw [h2] at hp
    exact hJ X s hXs hp
  · exact hp2 hpd

theorem finishTask_inv (heap0 : Calls) (tasks done : List TaskPtr) (r : run) (t : TaskPtr)
    (h : RunInv heap0 tasks done r) : RunInv heap0 tasks (t :: done) (r.finishTask t) := by
  obtain ⟨h1, h2, h3⟩ := finishTask_core r t
  have hrevEq := (finishTask_frame r t).2.2.2.1
  have hcl := finishTask_closedAt r t
  obtain ⟨l, hl, hlen⟩ := finishTask_sent r t
  refine ⟨finishTask_gate heap0 done r t h.gate, finishTask_rev heap0 done r t h.gate h.rev,
    finishTask_lists heap0 tasks done r t h.gate h.rev h.lists, ?_, ?_, ?_, ?_⟩
  · intro t2 X hX
    rw [hrevEq, GoMap.get_delete] at hX
    by_cases ht2 : t = t2
    · simp [ht2] at hX
    · simp only [ht2, if_false] at hX
      obtain ⟨hnd, hmem⟩ := h.revSound t2 X hX
      refine ⟨?_, hmem⟩
      intro hc
      rcases List.mem_cons.1 hc with hc | hc
      · exact ht2 hc.symm
      · exact hnd hc
  · intro n hn
    cases hc : r.next.closedAt with
    | some n0 =>
      obtain ⟨hd0, hn0⟩ := h.closed n0 hc
      have hnil : (r.revDependsOn.get t).getD [] = [] := by
        apply List.eq_nil_iff_forall_not_mem.2
        intro X hX
        obtain ⟨hnd, hmem⟩ := h.revSound t X hX
        cases hg : r.revDependsOn.get t with
        | none => rw [hg] at hX; cases hX
        | some L =>
          rw [hg] at hX
          exact hnd (h.gate.2.2 t L hg X hX (by rw [hd0]; rfl) t hmem)
      rw [hnil] at h1 h3
      simp only [List.foldl_nil] at h1 h3
      rw [hcl, hc] at hn
      simp only [ite_self] at hn
      cases hn
      exact ⟨by rw [h1]; exact hd0, by rw [h3]; exact hn0⟩
    | none =>
      rw [hcl, hc] at hn
      split_ifs at hn with hz
      simp only at hn
      cases hn
      exact ⟨GoMap.eq_nil_of_len _ hz, rfl⟩
  · intro _ hd hn
    rw [hcl, if_pos (by rw [hd]; rfl)] at hn
    cases hc : r.next.closedAt with
    | some n0 => rw [hc] at hn; cases hn
    | none => rw [hc] at hn; cases hn
  · have hb := h.bound
    have hd := revSize_delete r.revDependsOn t
    rw [hl, hrevEq, List.length_append]
    omega

theorem finishTasks_inv (heap0 : Calls) (tasks : List TaskPtr) (ts done : List TaskPtr)
    (r : run) (h : RunInv heap0 tasks done r) :
    RunInv heap0 tasks (ts.reverse ++ done) (r.finishTasks ts) := by
  induction ts generalizing r done with
  | nil => exact h
  | cons t rest ih =>
    have := ih (t :: done) (r.finishTask t) (finishTask_inv heap0 tasks done r t h)
    simp only [List.reverse_cons, List.append_assoc, List.singleton_append]
    exact this

theorem addDependent_revSize (task : TaskPtr) (r : run) (d : TaskPtr) :
    revSize (addDependent task r d).revDependsOn ≤ revSize r.revDependsOn + 1 := by
  unfold addDependent
  exact revSize_set r.revDependsOn d task

theorem foldl_addDependent_revSize (task : TaskPtr) (deps : List TaskPtr) (r : run) :
    revSize (deps.foldl (addDependent task) r).revDependsOn ≤
      revSize r.revDependsOn + deps.length := by
  induction deps generalizing r with
  | nil => exact Nat.le_refl _
  | cons d rest ih =>
    simp only [List.foldl_cons, List.length_cons]
    have h1 := ih (addDependent task r d)
    have h2 := addDependent_revSize task r d
    omega

theorem foldl_addDependent_sound (task : TaskPtr) (deps : List TaskPtr) (r : run)
    (t X : TaskPtr)
    (h : X ∈ ((deps.foldl (addDependent task) r).revDependsOn.get t).getD []) :
    (X = task ∧ t ∈ deps) ∨ X ∈ (r.revDependsOn.get t).getD [] := by
  induction deps generalizing r with
  | nil => exact Or.inr h
  | cons d rest ih =>
    simp only [List.foldl_cons] at h
    rcases ih (addDependent task r d) h with ⟨h1, h2⟩ | h1
    · exact Or.inl ⟨h1, List.mem_cons_of_mem _ h2⟩
    · rw [addDependent_getD] at h1
      by_cases hdt : d = t
      · simp only [hdt, if_true] at h1
        rcases List.mem_append.1 h1 with h2 | h2
        · exact Or.inr h2
        · exact Or.inl ⟨List.mem_singleton.1 h2, by rw [hdt]; exact List.mem_cons_self _ _⟩
      · simp only [hdt, if_false] at h1
        exact Or.inr h1

theorem sendBound_append (heap0 : Calls) (pre : List TaskPtr) (task : TaskPtr) :
    sendBound heap0 (pre ++ [task]) = sendBound heap0 pre + ((heap0 task).DependsOn.length + 1) := by
  simp [sendBound, List.map_append, List.sum_append]

theorem buildTask_lists (heap0 : Calls) (pre : List TaskPtr) (r : run) (task : TaskPtr)
    (h : BuildLists heap0 pre r) : BuildLists heap0 (pre ++ [task]) (buildTask r task) := by
  have hh := h.heap
  have hb := h.bound
  have hlenEq : (r.heap.task task).DependsOn.len = (heap0 task).DependsOn.length := by
    rw [hh]; exact ofCalls_len heap0 task
  have helemsEq : (r.heap.task task).DependsOn.elems r.heap = (heap0 task).DependsOn := by
    rw [hh]; exact Heap.deps_ofCalls heap0 task
  unfold buildTask
  simp only
  split_ifs with hlen
  · have hnil : (heap0 task).DependsOn = [] :=
      List.length_eq_zero.1 (by rw [← hlenEq]; exact hlen)
    refine ⟨hh, ?_, ?_, ?_, h.revSound, ?_⟩
    · intro X s hXs
      obtain ⟨h1, h2⟩ := h.keys X s hXs
      exact ⟨List.mem_append_left _ h1, h2⟩
    · intro X hX hdeps
      rcases List.mem_append.1 hX with hX | hX
      · exact h.entry X hX hdeps
      · rw [List.mem_singleton.1 hX] at hdeps
        exact absurd hnil hdeps
    · intro X hX hdeps
      simp only [Chan.send]
      rcases List.mem_append.1 hX with hX | hX
      · exact List.mem_append_left _ (h.free X hX hdeps)
      · exact List.mem_append_right _ hX
    · rw [sendBound_append]
      simp only [Chan.send, List.length_append, List.length_singleton]
      omega
  · have hne : (heap0 task).DependsOn ≠ [] := by
      intro hnil
      exact hlen (by rw [hlenEq, hnil]; rfl)
    obtain ⟨h1, h2, h3, _⟩ := foldl_addDependent task ((r.heap.task task).DependsOn.elems r.heap)
      { r with dependsOn := r.dependsOn.set task (r.heap.task task).DependsOn }
    refine ⟨by rw [h1]; exact hh, ?_, ?_, ?_, ?_, ?_⟩
    · intro X s hXs
      rw [h2] at hXs
      simp only [GoMap.get_set] at hXs
      by_cases htX : task = X
      · subst htX
        exact ⟨List.mem_append_right _ (List.mem_singleton_self _), hne⟩
      · simp only [htX, if_false] at hXs
        obtain ⟨h4, h5⟩ := h.keys X s hXs
        exact ⟨List.mem_append_left _ h4, h5⟩
    · intro X hX hdeps
      rw [h2]
      simp only [GoMap.get_set]
      by_cases htX : task = X
      · simp [htX]
      · simp only [htX, if_false]
        rcases List.mem_append.1 hX with hX | hX
        · exact h.entry X hX hdeps
        · exact absurd (List.mem_singleton.1 hX).symm htX
    · intro X hX hdeps
      rw [h3]
      rcases List.mem_append.1 hX with hX | hX
      · exact h.free X hX hdeps
      · rw [List.mem_singleton.1 hX] at hdeps
        exact absurd hdeps hne
    · intro t X hX
      rcases foldl_addDependent_sound task _ _ t X hX with ⟨h4, h5⟩ | h4
      · rw [h4, ← helemsEq]
        exact h5
      · exact h.revSound t X h4
    · have h6 := foldl_addDependent_revSize task ((r.heap.task task).DependsOn.elems r.heap)
        { r with dependsOn := r.dependsOn.set task (r.heap.task task).DependsOn }
      have hlenEq2 : ((r.heap.task task).DependsOn.elems r.heap).length =
          (heap0 task).DependsOn.length := by
        rw [helemsEq]
      rw [sendBound_append, h3]
      simp only at h6 ⊢
      omega

theorem foldl_buildTask_lists (heap0 : Calls) (ts pre : List TaskPtr) (r : run)
    (h : BuildLists heap0 pre r) : BuildLists heap0 (pre ++ ts) (ts.foldl buildTask r) := by
  induction ts generalizing r pre with
  | nil => simpa using h
  | cons t rest ih =>
    simp only [List.foldl_cons]
    have := ih (pre ++ [t]) _ (buildTask_lists heap0 pre r t h)
    simpa using this

theorem buildDependencies_lists (tp : TaskPool) (m : mode) (ctx : error)
    (tasks : List TaskPtr) (heap0 : Calls) :
    BuildLists heap0 tasks (newRun tp m ctx tasks (Heap.ofCalls heap0)).buildDependencies := by
  have h0 : BuildLists heap0 [] (newRun tp m ctx tasks (Heap.ofCalls heap0)) := by
    refine ⟨rfl, ?_, ?_, ?_, ?_, ?_⟩
    · intro X s hXs
      simp [newRun, GoMap.get] at hXs
    · intro X hX
      cases hX
    · intro X hX
      cases hX
    · intro t X hX
      simp [newRun, GoMap.get] at hX
    · simp [newRun, Chan.make, revSize, sendBound]
  have h := foldl_buildTask_lists heap0 tasks [] (newRun tp m ctx tasks (Heap.ofCalls heap0)) h0
  rw [List.nil_append] at h
  exact h

theorem buildDependencies_runInv (tp : TaskPool) (m : mode) (ctx : error)
    (tasks : List TaskPtr) (heap0 : Calls) :
    RunInv heap0 tasks [] (newRun tp m ctx tasks (Heap.ofCalls heap0)).buildDependencies := by
  have hB := buildDependencies_inv tp m ctx tasks heap0
  have hL := buildDependencies_lists tp m ctx tasks heap0
  have hcl : (newRun tp m ctx tasks (Heap.ofCalls heap0)).buildDependencies.next.closedAt = none :=
    (buildDependencies_frame (newRun tp m ctx tasks (Heap.ofCalls heap0))).2.2.2.2.2.2.2
  have helems : ∀ X s, (newRun tp m ctx tasks (Heap.ofCalls heap0)).buildDependencies.dependsOn.get X = some s →
      s.elems (newRun tp m ctx tasks (Heap.ofCalls heap0)).buildDependencies.heap = (heap0 X).DependsOn := by
    intro X s hXs
    have hs := hB.2.1 X s hXs
    subst hs
    rw [hB.1, ofCalls_elems]
  refine ⟨BuildInv.gate heap0 _ hB, buildDependencies_rev tp m ctx tasks heap0, ?_,
    ?_, ?_, ?_, hL.bound⟩
  · refine ⟨fun X s hXs => (hL.keys X s hXs).1, ?_, ?_, ?_, hL.free⟩
    · intro X s hXs p hp
      rw [helems X s hXs] at hp
      exact ⟨hp, List.not_mem_nil _⟩
    · intro X s hXs
      rw [helems X s hXs]
      exact (hL.keys X s hXs).2
    · intro X hX hdeps
      exact Or.inl (hL.entry X hX hdeps)
  · intro t X hX
    exact ⟨List.not_mem_nil _, hL.revSound t X hX⟩
  · intro n hn
    rw [hcl] at hn
    cases hn
  · intro hd
    exact absurd rfl hd

/-! ## Completion orders -/

theorem completes_cons (r : run) (fin : List TaskPtr) (t : TaskPtr) (rest : List TaskPtr)
    (h : r.completes fin (t :: rest) = true) :
    fin.count t < r.next.sent.count t ∧ (r.finishTask t).completes (t :: fin) rest = true := by
  unfold run.completes at h
  simp only [Bool.and_eq_true, decide_eq_true_eq] at h
  exact h

theorem finishTasks_cons (r : run) (t : TaskPtr) (rest : List TaskPtr) :
    r.finishTasks (t :: rest) = (r.finishTask t).finishTasks rest := rfl

theorem completes_count (r : run) (fin order : List TaskPtr)
    (hval : r.completes fin order = true)
    (hfin : ∀ a, fin.count a ≤ r.next.sent.count a) :
    ∀ a, (order.reverse ++ fin).count a ≤ (r.finishTasks order).next.sent.count a := by
  induction order generalizing r fin with
  | nil => simpa [run.finishTasks] using hfin
  | cons t rest ih =>
    obtain ⟨h1, h2⟩ := completes_cons r fin t rest hval
    obtain ⟨l, hl, _⟩ := finishTask_sent r t
    have := ih (r.finishTask t) (t :: fin) h2 (by
      intro a
      rw [hl, List.count_append, List.count_cons]
      have := hfin a
      by_cases hta : t = a
      · subst hta
        simp only [beq_self_eq_true, if_true]
        omega
      · have hb : (t == a) = false := by simpa using hta
        simp only [hb, Bool.false_eq_true, if_false]
        omega)
    rw [finishTasks_cons]
    simpa [List.reverse_cons, List.append_assoc] using this

theorem OnCycle.has_prereq (heap : Heap) (X : TaskPtr) (h : OnCycle heap X) :
    ∃ p, p ∈ heap.deps X ∧ OnCycle heap p := by
  obtain ⟨p, hXp, hpX⟩ := Relation.TransGen.tail'_iff.1 h
  exact ⟨p, hpX, Relation.TransGen.head' hpX hXp⟩

theorem OnCycle.has_prereq_ofCalls (calls : Calls) (X : TaskPtr)
    (h : OnCycle (Heap.ofCalls calls) X) :
    ∃ p, p ∈ (calls X).DependsOn ∧ OnCycle (Heap.ofCalls calls) p := by
  obtain ⟨p, hp, hc⟩ := OnCycle.has_prereq (Heap.ofCalls calls) X h
  rw [Heap.deps_ofCalls] at hp
  exact ⟨p, hp, hc⟩

theorem completes_cycle (heap0 : Calls) (r : run) (fin order : List TaskPtr)
    (hg : GateInv heap0 fin r)
    (hval : r.completes fin order = true)
    (hfin : ∀ a ∈ fin, a ∈ r.next.sent)
    (hP : ∀ X, OnCycle (Heap.ofCalls heap0) X → X ∉ r.next.sent) :
    ∀ X, OnCycle (Heap.ofCalls heap0) X → X ∉ (r.finishTasks order).next.sent := by
  induction order generalizing r fin with
  | nil => exact hP
  | cons t rest ih =>
    obtain ⟨h1, h2⟩ := completes_cons r fin t rest hval
    obtain ⟨l, hl, _⟩ := finishTask_sent r t
    have ht : t ∈ r.next.sent := List.count_pos_iff.1 (by omega)
    have hg2 := finishTask_gate heap0 fin r t hg
    have hfin0 : ∀ a ∈ t :: fin, a ∈ r.next.sent := by
      intro a ha
      rcases List.mem_cons.1 ha with ha | ha
      · rw [ha]; exact ht
      · exact hfin a ha
    rw [finishTasks_cons]
    apply ih (r.finishTask t) (t :: fin) hg2 h2
    · intro a ha
      rw [hl]
      exact List.mem_append_left _ (hfin0 a ha)
    · intro X hX hsent
      obtain ⟨p, hp, hpc⟩ := OnCycle.has_prereq_ofCalls heap0 X hX
      exact hP p hpc (hfin0 p (hg2.2.1 X hsent p hp))

/-- Cycles never become ready for tasks with arrays of their own: when every task has been
made by a call of `NewTask` with its prerequisites written out, then for every task `X`
of the list that lies on a dependency cycle, and every sequence of finishTask calls after
buildDependencies in which each call is for a task taken from the ready queue: in the
state reached, `X` still has an outstanding list, that list is not empty, `X` has not
been sent on the ready queue, and the ready queue has not been closed. -/
theorem cycles_never_ready_ofCalls (tp : TaskPool) (m : mode) (ctx : error)
    (tasks : List TaskPtr) (heap0 : Calls) (order : List TaskPtr) (X : TaskPtr)
    (hX : X ∈ tasks) (hcyc : OnCycle (Heap.ofCalls heap0) X)
    (hval : (newRun tp m ctx tasks (Heap.ofCalls heap0)).buildDependencies.completes [] order = true) :
    (∃ s, ((newRun tp m ctx tasks (Heap.ofCalls heap0)).buildDependencies.finishTasks order).dependsOn.get X
        = some s ∧
      s.elems ((newRun tp m ctx tasks (Heap.ofCalls heap0)).buildDependencies.finishTasks order).heap ≠ []) ∧
    X ∉ ((newRun tp m ctx tasks (Heap.ofCalls heap0)).buildDependencies.finishTasks order).next.sent ∧
    ((newRun tp m ctx tasks (Heap.ofCalls heap0)).buildDependencies.finishTasks order).next.closedAt
      = none := by
  have h0 := buildDependencies_runInv tp m ctx tasks heap0
  have hR := finishTasks_inv heap0 tasks order [] _ h0
  have hns := completes_cycle heap0 _ [] order h0.gate hval
    (fun a ha => absurd ha (List.not_mem_nil _))
    (by
      intro Y hY hsent
      obtain ⟨p, hp, _⟩ := OnCycle.has_prereq_ofCalls heap0 Y hY
      exact absurd (h0.gate.2.1 Y hsent p hp) (List.not_mem_nil _))
  obtain ⟨p, hp, _⟩ := OnCycle.has_prereq_ofCalls heap0 X hcyc
  have hne : (heap0 X).DependsOn ≠ [] := List.ne_nil_of_mem hp
  rcases hR.lists.entry X hX hne with ⟨s, hs⟩ | hsent
  · refine ⟨⟨s, hs, hR.lists.nonempty X s hs⟩, hns X hcyc, ?_⟩
    cases hc : ((newRun tp m ctx tasks (Heap.ofCalls heap0)).buildDependencies.finishTasks
        order).next.closedAt with
    | none => rfl
    | some n =>
      have hd := (hR.closed n hc).1
      rw [hd] at hs
      cases hs
  · exact absurd hsent (hns X hcyc)

/-- An instance of `cycles_never_ready_ofCalls`: tasks 1 and 2 depend on each other and
task 3 is free. After
buildDependencies and finishTask for task 3, which was taken from the ready queue, task 1
still waits for task 2, is not on the ready queue, and the queue is open. -/
theorem cycles_never_ready_cycleCalls :
    1 ∈ [1, 2, 3] ∧ OnCycle (Heap.ofCalls cycleCalls) 1 ∧
    (newRun ⟨⟨0, 0⟩⟩ modeWaitAll none [1, 2, 3] (Heap.ofCalls cycleCalls)).buildDependencies.completes [] [3]
      = true ∧
    ((∃ s, ((newRun ⟨⟨0, 0⟩⟩ modeWaitAll none [1, 2, 3] (Heap.ofCalls cycleCalls)).buildDependencies.finishTasks
        [3]).dependsOn.get 1 = some s ∧
      s.elems ((newRun ⟨⟨0, 0⟩⟩ modeWaitAll none [1, 2, 3] (Heap.ofCalls cycleCalls)).buildDependencies.finishTasks
        [3]).heap ≠ []) ∧
    1 ∉ ((newRun ⟨⟨0, 0⟩⟩ modeWaitAll none [1, 2, 3] (Heap.ofCalls cycleCalls)).buildDependencies.finishTasks
      [3]).next.sent ∧
    ((newRun ⟨⟨0, 0⟩⟩ modeWaitAll none [1, 2, 3] (Heap.ofCalls cycleCalls)).buildDependencies.finishTasks
      [3]).next.closedAt = none) :=
  ⟨by decide,
   Relation.TransGen.tail (Relation.TransGen.single (by show 1 ∈ (Heap.ofCalls cycleCalls).deps 2; decide))
     (by show 2 ∈ (Heap.ofCalls cycleCalls).deps 1; decide),
   by decide,
   cycles_never_ready_ofCalls ⟨⟨0, 0⟩⟩ modeWaitAll none [1, 2, 3] cycleCalls [3] 1 (by decide)
     (Relation.TransGen.tail
       (Relation.TransGen.single (by show 1 ∈ (Heap.ofCalls cycleCalls).deps 2; decide))
       (by show 2 ∈ (Heap.ofCalls cycleCalls).deps 1; decide))
     (by decide)⟩

/-! ## Progress and closure -/

theorem acyclic_induction (heap : Heap) (tasks : List TaskPtr) (hacyc : Acyclic heap tasks)
    (P : TaskPtr → Prop)
    (step : ∀ X ∈ tasks, (∀ p ∈ tasks, prereq heap p X → P p) → P X) :
    ∀ X ∈ tasks, P X := by
  haveI : IsIrrefl { x // x ∈ tasks }
      (Relation.TransGen (fun a b : { x // x ∈ tasks } => prereq heap a.1 b.1)) :=
    ⟨fun a h => hacyc a.1 a.2 (Relation.TransGen.lift Subtype.val (fun _ _ hab => hab) h)⟩
  have wf := Finite.wellFounded_of_trans_of_irrefl
    (Relation.TransGen (fun a b : { x // x ∈ tasks } => prereq heap a.1 b.1))
  intro X hX
  exact wf.induction (C := fun a => P a.1) ⟨X, hX⟩
    (fun a ih => step a.1 a.2 (fun p hp hpr => ih ⟨p, hp⟩ (Relation.TransGen.single hpr)))

theorem acyclic_of_rank (heap : Heap) (rank : TaskPtr → Nat)
    (h : ∀ X p, p ∈ heap.deps X → rank p < rank X) (tasks : List TaskPtr) :
    Acyclic heap tasks := by
  have hlt : ∀ a b, Relation.TransGen (prereq heap) a b → rank a < rank b := by
    intro a b hab
    induction hab with
    | single hab => exact h _ _ hab
    | tail _ hbc ih => exact Nat.lt_trans ih (h _ _ hbc)
  intro X _ hX
  exact Nat.lt_irrefl _ (hlt X X hX)

theorem orderHeap_acyclic (tasks : List TaskPtr) : Acyclic orderHeap tasks := by
  apply acyclic_of_rank orderHeap (fun p => if p = 2 then 1 else 0)
  intro X p hp
  rw [orderHeap, Heap.deps_ofCalls] at hp
  unfold orderCalls at hp
  split_ifs at hp with h2
  · simp only [List.mem_singleton] at hp
    subst hp
    subst h2
    decide
  · cases hp

theorem RunInv.final (heap0 : Calls) (tasks done : List TaskPtr) (r : run)
    (hne : tasks ≠ [])
    (hmem : ∀ X ∈ tasks, ∀ p ∈ (heap0 X).DependsOn, p ∈ tasks)
    (hacyc : Acyclic (Heap.ofCalls heap0) tasks)
    (h : RunInv heap0 tasks done r)
    (hall : ∀ a ∈ r.next.sent, a ∈ done) :
    (∀ X ∈ tasks, X ∈ r.next.sent) ∧ r.dependsOn = [] ∧
      r.next.closedAt = some r.next.sent.length := by
  have hblocked : ∀ X s, r.dependsOn.get X = some s →
      (∀ p ∈ tasks, prereq (Heap.ofCalls heap0) p X → p ∈ r.next.sent) → False := by
    intro X s hs ih
    obtain ⟨p, hp⟩ := List.exists_mem_of_ne_nil _ (h.lists.nonempty X s hs)
    obtain ⟨hp1, hp2⟩ := h.lists.sub X s hs p hp
    have hpr : prereq (Heap.ofCalls heap0) p X := by
      show p ∈ (Heap.ofCalls heap0).deps X
      rw [Heap.deps_ofCalls]
      exact hp1
    exact hp2 (hall p (ih p (hmem X (h.lists.keys X s hs) p hp1) hpr))
  have hsent : ∀ X ∈ tasks, X ∈ r.next.sent := by
    apply acyclic_induction (Heap.ofCalls heap0) tasks hacyc
    intro X hX ih
    by_cases hdeps : (heap0 X).DependsOn = []
    · exact h.lists.free X hX hdeps
    · rcases h.lists.entry X hX hdeps with ⟨s, hs⟩ | hs
      · exact (hblocked X s hs ih).elim
      · exact hs
  have hdep : r.dependsOn = [] := by
    apply GoMap.eq_nil_of_get
    intro k
    cases hk : r.dependsOn.get k with
    | none => rfl
    | some s => exact (hblocked k s hk (fun p hp _ => hsent p hp)).elim
  refine ⟨hsent, hdep, ?_⟩
  obtain ⟨X, hX⟩ := List.exists_mem_of_ne_nil _ hne
  have hdone : done ≠ [] := List.ne_nil_of_mem (hall X (hsent X hX))
  cases hc : r.next.closedAt with
  | none => exact absurd hc (h.closing hdone hdep)
  | some n => rw [(h.closed n hc).2]

theorem completes_cons_eq (r : run) (fin : List TaskPtr) (t : TaskPtr) (rest : List TaskPtr) :
    r.completes fin (t :: rest) =
      (decide (fin.count t < r.next.sent.count t) &&
        (r.finishTask t).completes (t :: fin) rest) := rfl

theorem completes_append (r : run) (fin o1 o2 : List TaskPtr) :
    r.completes fin (o1 ++ o2) =
      (r.completes fin o1 && (r.finishTasks o1).completes (o1.reverse ++ fin) o2) := by
  induction o1 generalizing r fin with
  | nil => simp [run.completes, run.finishTasks]
  | cons t rest ih =>
    rw [List.cons_append, completes_cons_eq, completes_cons_eq, finishTasks_cons, ih,
      Bool.and_assoc, List.reverse_cons, List.append_assoc, List.singleton_append]

theorem valid_length (heap0 : Calls) (tasks : List TaskPtr) (r : run) (order : List TaskPtr)
    (h0 : RunInv heap0 tasks [] r) (hval : r.completes [] order = true) :
    order.length ≤ sendBound heap0 tasks ∧
    ∀ a, order.count a ≤ (r.finishTasks order).next.sent.count a := by
  have hc := completes_count r [] order hval (fun a => by simp)
  have hc2 : ∀ a, order.count a ≤ (r.finishTasks order).next.sent.count a := by
    intro a
    have := hc a
    simpa using this
  refine ⟨?_, hc2⟩
  have hsub : List.Subperm order (r.finishTasks order).next.sent :=
    List.subperm_ext_iff.2 (fun a _ => hc2 a)
  have hb := (finishTasks_inv heap0 tasks order [] r h0).bound
  have := hsub.length_le
  omega

theorem valid_extend (heap0 : Calls) (tasks : List TaskPtr) (r : run)
    (h0 : RunInv heap0 tasks [] r) :
    ∀ k order, r.completes [] order = true → sendBound heap0 tasks - order.length ≤ k →
      ∃ ext, r.completes [] (order ++ ext) = true ∧
        (order ++ ext).Perm (r.finishTasks (order ++ ext)).next.sent := by
  have hstep : ∀ order, r.completes [] order = true →
      ¬ order.Perm (r.finishTasks order).next.sent →
      ∃ a, r.completes [] (order ++ [a]) = true := by
    intro order hval hnp
    obtain ⟨_, hc⟩ := valid_length heap0 tasks r order h0 hval
    have : ∃ a, order.count a < (r.finishTasks order).next.sent.count a := by
      by_contra hno
      apply hnp
      rw [List.perm_iff_count]
      intro a
      have h1 := hc a
      have h2 : ¬ order.count a < (r.finishTasks order).next.sent.count a :=
        fun hlt => hno ⟨a, hlt⟩
      omega
    obtain ⟨a, ha⟩ := this
    refine ⟨a, ?_⟩
    rw [completes_append, hval]
    simp only [Bool.true_and, run.completes, List.append_nil, List.count_reverse,
      Bool.and_true, decide_eq_true_eq]
    exact ha
  intro k
  induction k with
  | zero =>
    intro order hval hk
    by_cases hp : order.Perm (r.finishTasks order).next.sent
    · exact ⟨[], by simpa using hval, by simpa using hp⟩
    · obtain ⟨a, ha⟩ := hstep order hval hp
      have := (valid_length heap0 tasks r (order ++ [a]) h0 ha).1
      simp only [List.length_append, List.length_singleton] at this
      omega
  | succ k ih =>
    intro order hval hk
    by_cases hp : order.Perm (r.finishTasks order).next.sent
    · exact ⟨[], by simpa using hval, by simpa using hp⟩
    · obtain ⟨a, ha⟩ := hstep order hval hp
      obtain ⟨ext, he1, he2⟩ := ih (order ++ [a]) ha (by
        simp only [List.length_append, List.length_singleton]
        omega)
      refine ⟨a :: ext, ?_, ?_⟩
      · simpa [List.append_assoc] using he1
      · simpa [List.append_assoc] using he2

/-- Progress and closure of the bookkeeping for tasks with arrays of their own, a send on
the ready queue taken as done when it is issued: when every task has been made by a call
of `NewTask` with its prerequisites written out, then for a non-empty acyclic task list
whose prerequisites are all members (the tasks need not be distinct, the prerequisite
lists may have duplicate entries), and every
sequence `order` of finishTask calls after buildDependencies, each for a task taken from
the ready queue: the sequence is no longer than the bound on the sends; if the queue is
closed there is no outstanding list and nothing was sent after the close; once every
task taken from the queue has been finished, every task has been sent, there is no
outstanding list and the queue is closed; and the sequence can be continued to such a
state. -/
theorem progress_and_closure (tp : TaskPool) (m : mode) (ctx : error)
    (tasks : List TaskPtr) (heap0 : Calls) (order : List TaskPtr)
    (hne : tasks ≠ [])
    (hmem : ∀ X ∈ tasks, ∀ p ∈ (heap0 X).DependsOn, p ∈ tasks)
    (hacyc : Acyclic (Heap.ofCalls heap0) tasks)
    (hval : (newRun tp m ctx tasks (Heap.ofCalls heap0)).buildDependencies.completes [] order = true) :
    order.length ≤ sendBound heap0 tasks ∧
    (∀ n, ((newRun tp m ctx tasks (Heap.ofCalls heap0)).buildDependencies.finishTasks order).next.closedAt
        = some n →
      ((newRun tp m ctx tasks (Heap.ofCalls heap0)).buildDependencies.finishTasks order).dependsOn = [] ∧
      n = ((newRun tp m ctx tasks (Heap.ofCalls heap0)).buildDependencies.finishTasks
        order).next.sent.length) ∧
    (order.Perm ((newRun tp m ctx tasks (Heap.ofCalls heap0)).buildDependencies.finishTasks
        order).next.sent →
      (∀ X ∈ tasks,
        X ∈ ((newRun tp m ctx tasks (Heap.ofCalls heap0)).buildDependencies.finishTasks order).next.sent) ∧
      ((newRun tp m ctx tasks (Heap.ofCalls heap0)).buildDependencies.finishTasks order).dependsOn = [] ∧
      ((newRun tp m ctx tasks (Heap.ofCalls heap0)).buildDependencies.finishTasks order).next.closedAt =
        some ((newRun tp m ctx tasks (Heap.ofCalls heap0)).buildDependencies.finishTasks
          order).next.sent.length) ∧
    (∃ ext, (newRun tp m ctx tasks (Heap.ofCalls heap0)).buildDependencies.completes [] (order ++ ext) = true ∧
      (order ++ ext).Perm ((newRun tp m ctx tasks (Heap.ofCalls heap0)).buildDependencies.finishTasks
        (order ++ ext)).next.sent) := by
  have h0 := buildDependencies_runInv tp m ctx tasks heap0
  have hR := finishTasks_inv heap0 tasks order [] _ h0
  refine ⟨(valid_length heap0 tasks _ order h0 hval).1, hR.closed, ?_,
    valid_extend heap0 tasks _ h0 (sendBound heap0 tasks) order hval (Nat.sub_le _ _)⟩
  intro hperm
  apply RunInv.final heap0 tasks (order.reverse ++ []) _ hne hmem hacyc hR
  intro a ha
  simpa using hperm.mem_iff.2 ha

/-- The test "order of tasks" as an instance of `progress_and_closure`: task 2 depends on
task 1 and is submitted first; finishTask for task 1 and then for task 2 finishes every
task taken from the ready queue, and leaves both tasks sent, no outstanding list and the
queue closed. -/
theorem progress_and_closure_orderHeap :
    (newRun ⟨⟨0, 0⟩⟩ modeWaitAll none [2, 1] orderHeap).buildDependencies.completes [] [1, 2]
      = true ∧
    List.Perm [1, 2] ((newRun ⟨⟨0, 0⟩⟩ modeWaitAll none [2, 1] orderHeap).buildDependencies.finishTasks
      [1, 2]).next.sent ∧
    ((∀ X ∈ ([2, 1] : List TaskPtr),
      X ∈ ((newRun ⟨⟨0, 0⟩⟩ modeWaitAll none [2, 1] orderHeap).buildDependencies.finishTasks
        [1, 2]).next.sent) ∧
    ((newRun ⟨⟨0, 0⟩⟩ modeWaitAll none [2, 1] orderHeap).buildDependencies.finishTasks
      [1, 2]).dependsOn = [] ∧
    ((newRun ⟨⟨0, 0⟩⟩ modeWaitAll none [2, 1] orderHeap).buildDependencies.finishTasks
      [1, 2]).next.closedAt =
      some ((newRun ⟨⟨0, 0⟩⟩ modeWaitAll none [2, 1] orderHeap).buildDependencies.finishTasks
        [1, 2]).next.sent.length) :=
  ⟨by decide, by decide,
    (progress_and_closure ⟨⟨0, 0⟩⟩ modeWaitAll none [2, 1] orderCalls [1, 2] (by decide)
      (by decide) (orderHeap_acyclic [2, 1]) (by decide)).2.2.1 (by decide)⟩

/-! ## Sends on a full ready queue -/

theorem pruneDependentBlocking_some (t : TaskPtr) (r : run) (d : TaskPtr) (q : run)
    (h : pruneDependentBlocking t r d = some q) : q = pruneDependent t r d := by
  unfold pruneDependentBlocking at h
  unfold pruneDependent
  simp only at h ⊢
  split_ifs at h ⊢ with h1 h2
  · exact (Option.some.inj h).symm
  · exact (Option.some.inj h).symm

theorem pruneAllBlocking_some (t : TaskPtr) (ds : List TaskPtr) (r q : run)
    (h : pruneAllBlocking t r ds = some q) : q = ds.foldl (pruneDependent t) r := by
  induction ds generalizing r with
  | nil =>
    simp only [pruneAllBlocking, Option.some.injEq] at h
    exact h.symm
  | cons d rest ih =>
    simp only [pruneAllBlocking] at h
    cases hd : pruneDependentBlocking t r d with
    | none => rw [hd] at h; cases h
    | some r2 =>
      rw [hd] at h
      rw [List.foldl_cons, ← pruneDependentBlocking_some t r d r2 hd]
      exact ih r2 h

theorem finishTaskBlocking_some (r : run) (t : TaskPtr) (q : run)
    (h : r.finishTaskBlocking t = some q) : q = r.finishTask t := by
  unfold run.finishTaskBlocking at h
  unfold run.finishTask
  simp only at h ⊢
  cases hp : pruneAllBlocking t { r with counter := r.counter.recv }
      ((r.revDependsOn.get t).getD []) with
  | none => rw [hp] at h; cases h
  | some r2 =>
    rw [hp] at h
    rw [← pruneAllBlocking_some t _ _ r2 hp]
    exact (Option.some.inj h).symm

theorem overflowHeap_acyclic (tasks : List TaskPtr) : Acyclic overflowHeap tasks := by
  apply acyclic_of_rank overflowHeap (fun p => if p = 2 then 1 else 0)
  intro X p hp
  rw [overflowHeap, Heap.deps_ofCalls] at hp
  split_ifs at hp with h2
  · have hp1 : p = 1 := by simpa using hp
    subst hp1
    subst h2
    decide
  · cases hp

/-- C16 (failing input): tasks 1 and 2, task 2 listing task 1 three times, under a
context that is cancelled already. The set is not empty and acyclic, the tasks are
distinct and every prerequisite is a member. The ready queue has capacity 2. The dispatch
loop takes task 1 from it and, the context being done, calls finishTask(1) itself: the
call does not return. Followed without regard to the capacity, its loop sends task 2
three times before the queue is closed, so that three values are buffered on a queue of
capacity 2: the third send finds the buffer full, and the only receiver of the queue is
the goroutine that is sending. -/
theorem C16_ready_queue_overflow :
    ([1, 2] : List TaskPtr) ≠ [] ∧ ([1, 2] : List TaskPtr).Nodup ∧
    (∀ X ∈ ([1, 2] : List TaskPtr), ∀ p ∈ overflowHeap.deps X, p ∈ ([1, 2] : List TaskPtr)) ∧
    Acyclic overflowHeap [1, 2] ∧
    (newRun ⟨⟨0, 0⟩⟩ modeWaitAll (some Canceled) [1, 2] overflowHeap).buildDependencies.next.peek
      = some 1 ∧
    overflowRun.cancelled = true ∧
    overflowRun.next.cap = 2 ∧
    overflowRun.next.pending = 0 ∧
    (overflowRun.finishTaskBlocking 1).isSome = false ∧
    (overflowRun.finishTask 1).next.sent = [1, 2, 2, 2] ∧
    (overflowRun.finishTask 1).next.pending = 3 :=
  ⟨by decide, by decide, by decide, overflowHeap_acyclic [1, 2], by decide, by decide,
    by decide, by decide, by decide, by decide, by decide⟩

/-! ## Prerequisite lists without duplicate entries -/

theorem nodup_snoc (l : List TaskPtr) (a : TaskPtr) (h : l.Nodup) (ha : a ∉ l) :
    (l ++ [a]).Nodup := by
  rw [List.nodup_append]
  refine ⟨h, List.nodup_singleton a, ?_⟩
  intro x hx hx2
  rw [List.mem_singleton] at hx2
  subst hx2
  exact ha hx

theorem pruneDependent_sentInv (tasks : List TaskPtr) (t : TaskPtr) (r : run) (d : TaskPtr)
    (hd : r.dependsOn.get d ≠ none) (hdt : d ∈ tasks) (h : SentInv tasks r) :
    SentInv tasks (pruneDependent t r d) := by
  have hrev := (pruneDependent_outcomes t r d).2.2.2.1
  have hdns : d ∉ r.next.sent := fun hs => hd (h.sent d hs).2
  refine ⟨?_, ?_, ?_, ?_⟩
  · rw [pruneDependent_sent]
    split_ifs
    · exact nodup_snoc _ _ h.nodup hdns
    · exact h.nodup
  · intro X hX
    rw [pruneDependent_sent] at hX
    rw [pruneDependent_get]
    split_ifs at hX with hlen
    · rcases List.mem_append.1 hX with hX | hX
      · have hne : d ≠ X := fun hdX => hdns (hdX ▸ hX)
        simp only [hne, if_false]
        exact h.sent X hX
      · rw [List.mem_singleton] at hX
        subst hX
        simp only [if_true, hlen]
        exact ⟨hdt, trivial⟩
    · have hne : d ≠ X := fun hdX => hdns (hdX ▸ hX)
      simp only [hne, if_false]
      exact h.sent X hX
  · intro t2
    rw [hrev]
    exact h.revNodup t2
  · intro t2 X hX
    rw [hrev] at hX
    exact h.revMem t2 X hX

theorem foldl_pruneDependent_sentInv (tasks : List TaskPtr) (t : TaskPtr)
    (ds : List TaskPtr) (r : run) (hnd : ds.Nodup)
    (hds : ∀ d ∈ ds, r.dependsOn.get d ≠ none ∧ d ∈ tasks) (h : SentInv tasks r) :
    SentInv tasks (ds.foldl (pruneDependent t) r) := by
  induction ds generalizing r with
  | nil => exact h
  | cons d rest ih =>
    simp only [List.foldl_cons]
    obtain ⟨hdr, hrest⟩ := List.nodup_cons.1 hnd
    obtain ⟨hd1, hd2⟩ := hds d (List.mem_cons_self _ _)
    apply ih _ hrest
    · intro d2 hd2m
      have hne : d ≠ d2 := fun hdd => hdr (hdd ▸ hd2m)
      rw [pruneDependent_get]
      simp only [hne, if_false]
      exact hds d2 (List.mem_cons_of_mem _ hd2m)
    · exact pruneDependent_sentInv tasks t r d hd1 hd2 h

theorem finishTask_sentInv (heap0 : Calls) (tasks done : List TaskPtr) (r : run) (t : TaskPtr)
    (hR : RunInv heap0 tasks done r) (h : SentInv tasks r) :
    SentInv tasks (r.finishTask t) := by
  obtain ⟨h1, _, h3⟩ := finishTask_core r t
  have hrevEq := (finishTask_frame r t).2.2.2.1
  have hF : SentInv tasks (((r.revDependsOn.get t).getD []).foldl (pruneDependent t)
      { r with counter := r.counter.recv }) := by
    apply foldl_pruneDependent_sentInv tasks t _ _ (h.revNodup t)
    · intro d hd
      refine ⟨?_, h.revMem t d hd⟩
      intro hnone
      obtain ⟨hnd, hmem⟩ := hR.revSound t d hd
      cases hg : r.revDependsOn.get t with
      | none => rw [hg] at hd; cases hd
      | some L =>
        rw [hg] at hd
        exact hnd (hR.gate.2.2 t L hg d hd hnone t hmem)
    · exact ⟨h.nodup, h.sent, h.revNodup, h.revMem⟩
  have hget : ∀ t2, ((r.finishTask t).revDependsOn.get t2).getD [] =
      if t = t2 then [] else (r.revDependsOn.get t2).getD [] := by
    intro t2
    rw [hrevEq, GoMap.get_delete]
    split_ifs <;> rfl
  refine ⟨?_, ?_, ?_, ?_⟩
  · rw [h3]; exact hF.nodup
  · intro X hX
    rw [h3] at hX
    rw [h1]
    exact hF.sent X hX
  · intro t2
    rw [hget]
    split_ifs
    · exact List.nodup_nil
    · exact h.revNodup t2
  · intro t2 X hX
    rw [hget] at hX
    split_ifs at hX
    · cases hX
    · exact h.revMem t2 X hX

theorem finishTasks_sentInv (heap0 : Calls) (tasks : List TaskPtr) (ts done : List TaskPtr)
    (r : run) (hR : RunInv heap0 tasks done r) (h : SentInv tasks r) :
    SentInv tasks (r.finishTasks ts) := by
  induction ts generalizing r done with
  | nil => exact h
  | cons t rest ih =>
    rw [finishTasks_cons]
    exact ih (t :: done) (r.finishTask t) (finishTask_inv heap0 tasks done r t hR)
      (finishTask_sentInv heap0 tasks done r t hR h)

theorem foldl_addDependent_getD (task : TaskPtr) (deps : List TaskPtr) (r : run)
    (p : TaskPtr) (hnd : deps.Nodup) :
    ((deps.foldl (addDependent task) r).revDependsOn.get p).getD [] =
      if p ∈ deps then (r.revDependsOn.get p).getD [] ++ [task]
      else (r.revDependsOn.get p).getD [] := by
  induction deps generalizing r with
  | nil => simp
  | cons d rest ih =>
    obtain ⟨hdr, hrest⟩ := List.nodup_cons.1 hnd
    rw [List.foldl_cons, ih _ hrest, addDependent_getD]
    by_cases hdp : d = p
    · subst hdp
      simp [hdr]
    · have hpd : p ≠ d := fun hh => hdp hh.symm
      simp [hdp, hpd]

theorem buildTask_heap (r : run) (task : TaskPtr) : (buildTask r task).heap = r.heap := by
  unfold buildTask
  simp only
  split_ifs
  · rfl
  · exact (foldl_addDependent task _ _).1

theorem buildTask_sent (pre : List TaskPtr) (r : run) (task : TaskPtr)
    (htask : task ∉ pre) (hnd : ((r.heap.task task).DependsOn.elems r.heap).Nodup)
    (h : BuildSent pre r) :
    BuildSent (pre ++ [task]) (buildTask r task) := by
  unfold buildTask
  simp only
  split_ifs with hlen
  · refine ⟨?_, ?_, h.revNodup, ?_⟩
    · exact nodup_snoc _ _ h.nodup (fun hs => htask (h.sent task hs))
    · intro X hX
      simp only [Chan.send] at hX
      rcases List.mem_append.1 hX with hX | hX
      · exact List.mem_append_left _ (h.sent X hX)
      · exact List.mem_append_right _ hX
    · intro t X hX
      exact List.mem_append_left _ (h.revMem t X hX)
  · obtain ⟨_, _, h3, _⟩ := foldl_addDependent task ((r.heap.task task).DependsOn.elems r.heap)
      { r with dependsOn := r.dependsOn.set task (r.heap.task task).DependsOn }
    have hget := fun p => foldl_addDependent_getD task ((r.heap.task task).DependsOn.elems r.heap)
      { r with dependsOn := r.dependsOn.set task (r.heap.task task).DependsOn }
      p hnd
    refine ⟨?_, ?_, ?_, ?_⟩
    · rw [h3]; exact h.nodup
    · intro X hX
      rw [h3] at hX
      exact List.mem_append_left _ (h.sent X hX)
    · intro t
      rw [hget]
      split_ifs
      · exact nodup_snoc _ _ (h.revNodup t) (fun hs => htask (h.revMem t task hs))
      · exact h.revNodup t
    · intro t X hX
      rw [hget] at hX
      split_ifs at hX
      · rcases List.mem_append.1 hX with hX | hX
        · exact List.mem_append_left _ (h.revMem t X hX)
        · exact List.mem_append_right _ hX
      · exact List.mem_append_left _ (h.revMem t X hX)

theorem foldl_buildTask_sent (heap0 : Calls) (ts pre : List TaskPtr) (r : run)
    (hh : r.heap = Heap.ofCalls heap0) (hnd : (pre ++ ts).Nodup)
    (hdeps : ∀ X ∈ ts, (heap0 X).DependsOn.Nodup) (h : BuildSent pre r) :
    BuildSent (pre ++ ts) (ts.foldl buildTask r) := by
  induction ts generalizing r pre with
  | nil => simpa using h
  | cons t rest ih =>
    simp only [List.foldl_cons]
    have hnd2 : (pre ++ [t] ++ rest).Nodup := by simpa using hnd
    have ht : t ∉ pre := by
      intro hmem
      have := (List.nodup_append.1 hnd).2.2 hmem (List.mem_cons_self _ _)
      exact this
    have := ih (pre ++ [t]) (buildTask r t) (by rw [buildTask_heap]; exact hh) hnd2
      (fun X hX => hdeps X (List.mem_cons_of_mem _ hX))
      (buildTask_sent pre r t ht (by
        rw [hh]
        show ((Heap.ofCalls heap0).deps t).Nodup
        rw [Heap.deps_ofCalls]
        exact hdeps t (List.mem_cons_self _ _)) h)
    simpa using this

theorem buildDependencies_sentInv (tp : TaskPool) (m : mode) (ctx : error)
    (tasks : List TaskPtr) (heap0 : Calls) (hnd : tasks.Nodup)
    (hdeps : ∀ X ∈ tasks, (heap0 X).DependsOn.Nodup) :
    SentInv tasks (newRun tp m ctx tasks (Heap.ofCalls heap0)).buildDependencies := by
  have hB := buildDependencies_inv tp m ctx tasks heap0
  have hL := buildDependencies_lists tp m ctx tasks heap0
  have h0 : BuildSent [] (newRun tp m ctx tasks (Heap.ofCalls heap0)) := by
    refine ⟨?_, ?_, ?_, ?_⟩
    · simp [newRun, Chan.make]
    · intro X hX
      simp [newRun, Chan.make] at hX
    · intro t
      simp [newRun, GoMap.get]
    · intro t X hX
      simp [newRun, GoMap.get] at hX
  have h := foldl_buildTask_sent heap0 tasks [] (newRun tp m ctx tasks (Heap.ofCalls heap0)) rfl
    (by simpa using hnd) hdeps h0
  rw [List.nil_append] at h
  have h2 : BuildSent tasks (newRun tp m ctx tasks (Heap.ofCalls heap0)).buildDependencies := h
  refine ⟨h2.nodup, ?_, h2.revNodup, h2.revMem⟩
  intro X hX
  refine ⟨h2.sent X hX, ?_⟩
  cases hg : (newRun tp m ctx tasks (Heap.ofCalls heap0)).buildDependencies.dependsOn.get X with
  | none => rfl
  | some s => exact absurd (hB.2.2.1 X hX) (hL.keys X s hg).2

theorem pruneDependent_cap (t : TaskPtr) (r : run) (d : TaskPtr) :
    (pruneDependent t r d).next.cap = r.next.cap := by
  unfold pruneDependent
  simp only
  split_ifs <;> rfl

theorem foldl_pruneDependent_cap (t : TaskPtr) (ds : List TaskPtr) (r : run) :
    (ds.foldl (pruneDependent t) r).next.cap = r.next.cap := by
  induction ds generalizing r with
  | nil => rfl
  | cons d rest ih =>
    simp only [List.foldl_cons]
    rw [ih, pruneDependent_cap]

theorem finishTask_cap (r : run) (t : TaskPtr) :
    (r.finishTask t).next.cap = r.next.cap := by
  unfold run.finishTask
  simp only
  split_ifs with h1
  · simp only [Chan.closeOnce]
    split
    · exact foldl_pruneDependent_cap t _ _
    · exact foldl_pruneDependent_cap t _ _
  · exact foldl_pruneDependent_cap t _ _

theorem buildTask_cap (r : run) (task : TaskPtr) :
    (buildTask r task).next.cap = r.next.cap := by
  unfold buildTask
  simp only
  split_ifs
  · rfl
  · rw [(foldl_addDependent task _ _).2.2.1]

theorem foldl_buildTask_cap (ts : List TaskPtr) (r : run) :
    (ts.foldl buildTask r).next.cap = r.next.cap := by
  induction ts generalizing r with
  | nil => rfl
  | cons t rest ih =>
    simp only [List.foldl_cons]
    rw [ih, buildTask_cap]

theorem buildDependencies_cap (tp : TaskPool) (m : mode) (ctx : error)
    (tasks : List TaskPtr) (heap0 : Calls) :
    (newRun tp m ctx tasks (Heap.ofCalls heap0)).buildDependencies.next.cap = tasks.length := by
  unfold run.buildDependencies
  rw [foldl_buildTask_cap]
  rfl

theorem pruneDependentBlocking_of_room (t : TaskPtr) (r : run) (d : TaskPtr)
    (h : (pruneDependent t r d).next.sent.length ≤ r.next.cap) :
    pruneDependentBlocking t r d = some (pruneDependent t r d) := by
  rw [pruneDependent_sent] at h
  unfold pruneDependentBlocking pruneDependent
  simp only at h ⊢
  split_ifs at h ⊢ with h1 h2
  · rfl
  · exfalso
    apply h2
    simp only [Chan.room, Chan.pending, decide_eq_true_eq]
    simp only [List.length_append, List.length_singleton] at h
    omega
  · rfl

theorem pruneAllBlocking_of_room (t : TaskPtr) (ds : List TaskPtr) (r : run)
    (h : (ds.foldl (pruneDependent t) r).next.sent.length ≤ r.next.cap) :
    pruneAllBlocking t r ds = some (ds.foldl (pruneDependent t) r) := by
  induction ds generalizing r with
  | nil => rfl
  | cons d rest ih =>
    simp only [List.foldl_cons] at h ⊢
    obtain ⟨l, hl, _⟩ := foldl_pruneDependent_sent t rest (pruneDependent t r d)
    have h1 : (pruneDependent t r d).next.sent.length ≤ r.next.cap := by
      rw [hl, List.length_append] at h
      omega
    simp only [pruneAllBlocking]
    rw [pruneDependentBlocking_of_room t r d h1]
    simp only
    apply ih
    rw [pruneDependent_cap]
    exact h

theorem finishTaskBlocking_of_room (r : run) (t : TaskPtr)
    (h : (r.finishTask t).next.sent.length ≤ r.next.cap) :
    r.finishTaskBlocking t = some (r.finishTask t) := by
  rw [(finishTask_core r t).2.2] at h
  unfold run.finishTaskBlocking run.finishTask
  simp only
  rw [pruneAllBlocking_of_room t _ _ h]

theorem SentInv.length_le (tasks : List TaskPtr) (r : run) (h : SentInv tasks r) :
    r.next.sent.length ≤ tasks.length :=
  (List.subperm_of_subset h.nodup (fun X hX => (h.sent X hX).1)).length_le

theorem finishTasksBlocking_of_sentInv (heap0 : Calls) (tasks : List TaskPtr)
    (ts done : List TaskPtr) (r : run) (hR : RunInv heap0 tasks done r)
    (h : SentInv tasks r) (hcap : r.next.cap = tasks.length) :
    r.finishTasksBlocking ts = some (r.finishTasks ts) := by
  induction ts generalizing r done with
  | nil => rfl
  | cons t rest ih =>
    have hS := finishTask_sentInv heap0 tasks done r t hR h
    have hlen := SentInv.length_le tasks _ hS
    simp only [run.finishTasksBlocking]
    rw [finishTaskBlocking_of_room r t (by rw [hcap]; exact hlen)]
    simp only
    rw [finishTasks_cons]
    exact ih (t :: done) (r.finishTask t) (finishTask_inv heap0 tasks done r t hR) hS
      (by rw [finishTask_cap]; exact hcap)

/-- No send on the ready queue waits when the tasks are distinct, every task has been made
by a call of `NewTask` with its prerequisites written out, and no prerequisite list has a
duplicate entry: for every sequence of finishTask calls after buildDependencies,
no more values have been sent on the ready queue than its capacity, and every call
returns even when it is made by the dispatch loop itself and nothing is received from the
queue in between. -/
theorem duplicate_free_sends_fit (tp : TaskPool) (m : mode) (ctx : error)
    (tasks : List TaskPtr) (heap0 : Calls) (order : List TaskPtr)
    (hnd : tasks.Nodup) (hdeps : ∀ X ∈ tasks, (heap0 X).DependsOn.Nodup) :
    ((newRun tp m ctx tasks (Heap.ofCalls heap0)).buildDependencies.finishTasks order).next.sent.length ≤
      ((newRun tp m ctx tasks (Heap.ofCalls heap0)).buildDependencies.finishTasks order).next.cap ∧
    (newRun tp m ctx tasks (Heap.ofCalls heap0)).buildDependencies.finishTasksBlocking order =
      some ((newRun tp m ctx tasks (Heap.ofCalls heap0)).buildDependencies.finishTasks order) := by
  have h0 := buildDependencies_runInv tp m ctx tasks heap0
  have hS0 := buildDependencies_sentInv tp m ctx tasks heap0 hnd hdeps
  have hcap0 := buildDependencies_cap tp m ctx tasks heap0
  have hS := finishTasks_sentInv heap0 tasks order [] _ h0 hS0
  have hb := finishTasksBlocking_of_sentInv heap0 tasks order [] _ h0 hS0 hcap0
  refine ⟨?_, hb⟩
  have hcap : ((newRun tp m ctx tasks (Heap.ofCalls heap0)).buildDependencies.finishTasks order).next.cap
      = tasks.length := by
    have hgen : ∀ (ts : List TaskPtr) (r : run), (r.finishTasks ts).next.cap = r.next.cap := by
      intro ts
      induction ts with
      | nil => intro r; rfl
      | cons t rest ih =>
        intro r
        rw [finishTasks_cons, ih, finishTask_cap]
    rw [hgen, hcap0]
  rw [hcap]
  exact SentInv.length_le tasks _ hS

/-- The test "order of tasks" as an instance of `duplicate_free_sends_fit`: two values are
sent on the ready queue of capacity 2, and both calls of finishTask return. -/
theorem duplicate_free_sends_fit_orderHeap :
    ((newRun ⟨⟨0, 0⟩⟩ modeWaitAll none [2, 1] orderHeap).buildDependencies.finishTasks
      [1, 2]).next.sent.length ≤
      ((newRun ⟨⟨0, 0⟩⟩ modeWaitAll none [2, 1] orderHeap).buildDependencies.finishTasks
        [1, 2]).next.cap ∧
    (newRun ⟨⟨0, 0⟩⟩ modeWaitAll none [2, 1] orderHeap).buildDependencies.finishTasksBlocking
      [1, 2] =
      some ((newRun ⟨⟨0, 0⟩⟩ modeWaitAll none [2, 1] orderHeap).buildDependencies.finishTasks
        [1, 2]) :=
  duplicate_free_sends_fit ⟨⟨0, 0⟩⟩ modeWaitAll none [2, 1] orderCalls [1, 2] (by decide)
    (by decide)

/-! ## Slices that share a backing array -/

/-- C1 (failing input): `deps := []*Task{z, q, p, p}`, `x := NewTask(fn, deps[0:4]...)`,
`y := NewTask(fn, deps[1:3]...)`, run over the tasks `z, q, p, y, x` (tasks 1, 2, 3, 5, 4).
The prerequisites of `y` are `q` and `p`. finishTask(z) prunes the list of `x` in place,
which moves `q, p, p` one place down in the array the two slices share, so the window of
`y` now reads `[p, p]`; finishTask(p) then empties it and sends `y` on the ready queue,
although finishTask has not run for `q`. -/
theorem C1_shared_array_early_release :
    windowHeap.deps 5 = [2, 3] ∧
    windowRun.next.sent = [1, 2, 3] ∧
    windowRun.dependsOn.get 5 = some ⟨some 9, 1, 2⟩ ∧
    Slice.elems (windowRun.finishTask 1).heap ⟨some 9, 1, 2⟩ = [3, 3] ∧
    (windowRun.finishTasks [1, 3]).next.sent = [1, 2, 3, 5] ∧
    5 ∈ (windowRun.finishTasks [1, 3]).next.sent ∧
    2 ∈ windowHeap.deps 5 ∧ 2 ∉ ([1, 3] : List TaskPtr) := by
  decide

/-- C9 (failing inputs). First: `deps := []*Task{t1}`, `x := NewTask(fn, deps...)`,
`y := NewTask(fn, deps...)`, run over `t1, x, y` (tasks 1, 2, 3). The outstanding list of
`y` is `[t1]`. finishTask(t1) prunes the list of `x` first, which zeroes the one element
of the array the two slices share; the list of `y` then reads `[nil]`, holds no `t1` to
remove and keeps its length 1, so `y` keeps its entry, is not sent, and is never sent:
the queue stays open. Second: tasks 1, 2, 3 with task 2 listing task 1 three times and
task 3 listing it once, under a context that is cancelled already, so that the dispatch
loop calls finishTask(1) itself: the outstanding list of task 3 is `[1]`, but the three
sends of task 2 fill the ready queue of capacity 3, the send of task 3 waits for ever and
the call does not return. -/
theorem C9_shared_array_never_released :
    sharedRun.dependsOn.get 3 = some ⟨some 7, 0, 1⟩ ∧
    Slice.elems sharedRun.heap ⟨some 7, 0, 1⟩ = List.replicate 1 1 ∧
    (sharedRun.revDependsOn.get 1).getD [] = [2, 3] ∧
    (sharedRun.finishTask 1).dependsOn.get 3 = some ⟨some 7, 0, 1⟩ ∧
    Slice.elems (sharedRun.finishTask 1).heap ⟨some 7, 0, 1⟩ = [nilTask] ∧
    (sharedRun.finishTask 1).next.sent = [1, 2] ∧
    3 ∉ (sharedRun.finishTask 1).next.sent ∧
    (sharedRun.finishTasks [1, 2]).next.sent = [1, 2] ∧
    (sharedRun.finishTasks [1, 2]).next.closedAt = none ∧
    crowdedRun.dependsOn.get 3 = some ⟨some 3, 0, 1⟩ ∧
    Slice.elems crowdedRun.heap ⟨some 3, 0, 1⟩ = List.replicate 1 1 ∧
    (crowdedRun.revDependsOn.get 1).getD [] = [2, 2, 2, 3] ∧
    crowdedRun.next.cap = 3 ∧
    (pruneAllBlocking 1 { crowdedRun with counter := crowdedRun.counter.recv } [2, 2, 2]).map
      (fun q => (q.next.sent, q.next.pending, q.next.room)) = some ([1, 2, 2, 2], 3, false) ∧
    (crowdedRun.finishTaskBlocking 1).isSome = false := by
  decide

/-- C18 (failing input): `deps := []*Task{z, p, t, t}`, `w := NewTask(fn, deps[0:4]...)`,
`x := NewTask(fn, deps[1:3]...)`, `p := NewTask(fn, x)`, run over the tasks `z, t, p, x, w`
(tasks 1, 2, 3, 5, 4). `x` depends on `p` and `p` on `x`, so `x` lies on a cycle.
finishTask(z) and finishTask(t), both for tasks taken from the ready queue, are enough to
send `x`: the first prunes the list of `w` in place, which moves `p, t, t` one place down
in the shared array, so the window of `x` reads `[t, t]`; the second empties it, removes
the outstanding list of `x` and sends `x` on the ready queue. -/
theorem C18_shared_array_cycle_released :
    (5 : TaskPtr) ∈ ([1, 2, 3, 5, 4] : List TaskPtr) ∧
    cycleWindowHeap.deps 5 = [3, 2] ∧
    cycleWindowHeap.deps 3 = [5] ∧
    OnCycle cycleWindowHeap 5 ∧
    cycleWindowRun.next.sent = [1, 2] ∧
    cycleWindowRun.completes [] [1, 2] = true ∧
    (cycleWindowRun.finishTasks [1, 2]).dependsOn.get 5 = none ∧
    (cycleWindowRun.finishTasks [1, 2]).next.sent = [1, 2, 5] ∧
    5 ∈ (cycleWindowRun.finishTasks [1, 2]).next.sent :=
  ⟨by decide, by decide, by decide,
    Relation.TransGen.tail
      (Relation.TransGen.single (by show 5 ∈ cycleWindowHeap.deps 3; decide))
      (by show 3 ∈ cycleWindowHeap.deps 5; decide),
    by decide, by decide, by decide, by decide, by decide⟩

end Concurrency
